import Mathlib

/-!
Verification of the FS Copilot YAML generator / merge engine
(`generate.py` of the tfdi-md11 definition generator).

Strings are modelled as `List Char` (`Str`); every function below is a
shallow embedding of the corresponding Python function in `generate.py`,
translated clause by clause.  External inputs that the script loads from
disk (the XML tooltip/metadata maps, the known-variable set, category
event lists, the persisted aircraft YAML file) are passed as explicit
parameters.
-/

namespace MD11

/-- Characters are modelled as Lean `Char`; strings as lists of them. -/
abbrev Str := List Char

/-- Coerce a Lean string literal to the `Str` model. -/
def S (s : String) : Str := s.data

/-- Does `pat` occur as a contiguous sublist of `s`? -/
def infixAt : Str → Str → Bool
  | pat, [] => pat.isEmpty
  | pat, c :: rest => pat.isPrefixOf (c :: rest) || infixAt pat rest

/-- Python `pat in s` (substring containment). -/
def containsSub (s pat : Str) : Bool := infixAt pat s

/-- Python `s.startswith(pat)`. -/
def startsWith (s pat : Str) : Bool := pat.isPrefixOf s

/-- Python `s.endswith(pat)`. -/
def endsWith (s pat : Str) : Bool := pat.isSuffixOf s

/-- Fuelled worker for `pyReplace` (each step consumes at least one
character, so fuel `s.length` is always sufficient; structural recursion
on the fuel keeps the definition kernel-reducible). -/
def pyReplaceAux (pat rep : Str) : Nat → Str → Str
  | 0, s => s
  | _ + 1, [] => []
  | fuel + 1, c :: rest =>
    if pat.isPrefixOf (c :: rest) && !pat.isEmpty then
      rep ++ pyReplaceAux pat rep fuel (rest.drop (pat.length - 1))
    else
      c :: pyReplaceAux pat rep fuel rest

/-- Python `s.replace(pat, rep)` for a nonempty literal `pat`:
left-to-right, non-overlapping replacement of every occurrence.
(All call sites in the source pass nonempty pattern literals.) -/
def pyReplace (pat rep s : Str) : Str := pyReplaceAux pat rep s.length s

/-- The part of `s` before the first occurrence of nonempty `pat`
(Python `s.split(pat)[0]`); all of `s` when `pat` does not occur. -/
def beforeFirst (pat : Str) : Str → Str
  | [] => []
  | c :: rest =>
    if pat.isPrefixOf (c :: rest) && !pat.isEmpty then []
    else c :: beforeFirst pat rest

/-- Whitespace in the sense of Python `str.strip` (ASCII subset). -/
def isWS (c : Char) : Bool :=
  c = ' ' || c = '\t' || c = '\n' || c = '\r' || c = '\x0b' || c = '\x0c'

/-- Python `s.lstrip()`. -/
def lstrip (s : Str) : Str := s.dropWhile isWS

/-- Python `s.rstrip()`. -/
def rstrip (s : Str) : Str := (s.reverse.dropWhile isWS).reverse

/-- Python `s.strip()`. -/
def strip (s : Str) : Str := lstrip (rstrip s)

/-- Auxiliary for `splitLines`: first line and remaining lines. -/
def splitLinesAux : Str → Str × List Str
  | [] => ([], [])
  | c :: rest =>
    let r := splitLinesAux rest
    if c = '\n' then ([], r.1 :: r.2) else (c :: r.1, r.2)

/-- Python `content.split('\n')` (always a nonempty list of lines). -/
def splitLines (s : Str) : List Str :=
  (splitLinesAux s).1 :: (splitLinesAux s).2

/-- Python `'\n'.join(lines)`. -/
def joinLines (lines : List Str) : Str := List.intercalate ['\n'] lines

/-- Python `str.title()` helper: the boolean tracks whether the previous
character was alphabetic (cased). -/
def pyTitleAux : Bool → Str → Str
  | _, [] => []
  | prevAlpha, c :: rest =>
    (if c.isAlpha then (if prevAlpha then c.toLower else c.toUpper) else c)
      :: pyTitleAux c.isAlpha rest

/-- Python `s.title()` (ASCII behaviour). -/
def pyTitle (s : Str) : Str := pyTitleAux false s

/-- Decimal digits of a positive number, most significant first (fuelled). -/
def natDigitsAux : Nat → Nat → List Char
  | 0, _ => []
  | fuel + 1, n =>
    if n = 0 then [] else natDigitsAux fuel (n / 10) ++ [Char.ofNat (48 + n % 10)]

/-- Decimal representation of a `Nat` (Python `str(n)` for `n ≥ 0`). -/
def natToStr (n : Nat) : Str := if n = 0 then ['0'] else natDigitsAux (n + 1) n

/-- Python `str(n)` for an `Int`. -/
def intToStr : Int → Str
  | .ofNat n => natToStr n
  | .negSucc n => '-' :: natToStr (n + 1)

/-- Is `c` a decimal digit? -/
def isDigitCh (c : Char) : Bool := '0' ≤ c && c ≤ '9'

/-- All characters are digits (and the string is nonempty). -/
def allDigits (s : Str) : Bool := !s.isEmpty && s.all isDigitCh

/-- Numeric value of a digit string. -/
def strToNat (s : Str) : Nat := s.foldl (fun a c => a * 10 + (c.toNat - 48)) 0

/-- Minimal split position `i` (with `minLen ≤ i`) such that the prefix
`s.take i` satisfies `sufOk` and the remainder `s.drop i` satisfies
`restOk`.  This is the semantics of a Python lazy-group regex match
`(.+?SUFFIX)REST`: backtracking grows the lazy group one character at a
time, so the first (smallest) admissible split wins. -/
def lazySplit (s : Str) (minLen : Nat) (sufOk restOk : Str → Bool) : Option Nat :=
  (List.range (s.length + 1)).find?
    (fun i => decide (minLen ≤ i) && sufOk (s.take i) && restOk (s.drop i))

/-! ## Raw events and `parse_event_entry` -/

/-- Scalar JSON values that may appear as override values in a category
file (booleans, integers, strings; `parse_event_entry` passes them
through untouched). -/
inductive JVal
  | jb (b : Bool)
  | ji (n : Int)
  | js (s : Str)
deriving DecidableEq

/-- A raw event entry of a category JSON file: either a bare identifier
string, or an object `{event: name, ...overrides}` (the model carries
the string value of the `event` key and the remaining key/value pairs;
a JSON entry of any other shape yields no event name). -/
inductive RawEvent
  | plain (s : Str)
  | obj (name : Str) (overrides : List (Str × JVal))
  | other
deriving DecidableEq

/-- `parse_event_entry`: returns the event name (possibly empty) and the
override mapping.  A string entry is stripped and cleansed of the
`" // present"` marker; an object entry yields its stripped `event`
value and every other key as an override; anything else yields `("",{})`. -/
def parseEventEntry : RawEvent → Str × List (Str × JVal)
  | .plain s => (pyReplace (S " // present") [] (strip s), [])
  | .obj name ov => (strip name, ov)
  | .other => ([], [])

/-- The (nonempty) event names extracted from a raw entry list, in order —
entries whose parsed name is empty are skipped by `group_events`. -/
def eventNames (events : List RawEvent) : List Str :=
  (events.map (fun e => (parseEventEntry e).1)).filter (fun n => !n.isEmpty)

/-! ## `group_events`: base-name extraction -/

/-- Base for a `_BRT_KB_WHEEL_` event: the lazy regex
`(.+?_BRT_KB)_WHEEL_(UP|DOWN)` anchored at the start; on no match, the
text before the first `_BRT_KB_WHEEL_` occurrence plus `_BRT_KB`. -/
def brtKbBase (e : Str) : Str :=
  match lazySplit e 8 (fun p => endsWith p (S "_BRT_KB"))
      (fun r => startsWith r (S "_WHEEL_UP") || startsWith r (S "_WHEEL_DOWN")) with
  | some i => e.take i
  | none => beforeFirst (S "_BRT_KB_WHEEL_") e ++ S "_BRT_KB"

/-- Base for a `_KB_WHEEL_` event: the lazy regex `(.+?_KB)_WHEEL_(UP|DOWN)`;
fallback regex `(.+?)_KB_WHEEL_(UP|DOWN)` (base gets `_KB` appended);
final fallback the literal `WHEEL`. -/
def kbBase (e : Str) : Str :=
  match lazySplit e 4 (fun p => endsWith p (S "_KB"))
      (fun r => startsWith r (S "_WHEEL_UP") || startsWith r (S "_WHEEL_DOWN")) with
  | some i => e.take i
  | none =>
    match lazySplit e 1 (fun _ => true)
        (fun r => startsWith r (S "_KB_WHEEL_UP") || startsWith r (S "_KB_WHEEL_DOWN")) with
    | some i => e.take i ++ S "_KB"
    | none => S "WHEEL"

/-- The base-name / wheel classification chain of `group_events`
(the ordered `if/elif` chain over substring tests). -/
def classifyEvent (e : Str) : Str × Bool :=
  if containsSub e (S "_BRT_KB_WHEEL_") then (brtKbBase e, true)
  else if containsSub e (S "_KB_WHEEL_") then (kbBase e, true)
  else if containsSub e (S "_BT_LEFT_BUTTON_DOWN") then
    (pyReplace (S "_BT_LEFT_BUTTON_DOWN") (S "_BT") e, false)
  else if containsSub e (S "_BT_LEFT_BUTTON_UP") then
    (pyReplace (S "_BT_LEFT_BUTTON_UP") (S "_BT") e, false)
  else if containsSub e (S "_SW_LEFT_BUTTON_DOWN") then
    (pyReplace (S "_SW_LEFT_BUTTON_DOWN") (S "_SW") e, false)
  else if containsSub e (S "_SW_RIGHT_BUTTON_DOWN") then
    (pyReplace (S "_SW_RIGHT_BUTTON_DOWN") (S "_SW") e, false)
  else if containsSub e (S "_GRD_LEFT_BUTTON_DOWN") then
    (pyReplace (S "_GRD_LEFT_BUTTON_DOWN") (S "_GRD") e, false)
  else (e, false)

/-- Derived base name of an event. -/
def baseOf (e : Str) : Str := (classifyEvent e).1

/-- Derived wheel flag of an event. -/
def wheelOf (e : Str) : Bool := (classifyEvent e).2

/-- Does the event fill the `DOWN` slot of its group? -/
def isDownEvt (e : Str) : Bool :=
  containsSub e (S "_WHEEL_DOWN") || containsSub e (S "_BT_LEFT_BUTTON_DOWN") ||
    containsSub e (S "_SW_LEFT_BUTTON_DOWN")

/-- Does the event fill the `UP` slot (the `elif` after `DOWN`)? -/
def isUpEvt (e : Str) : Bool :=
  !isDownEvt e && (containsSub e (S "_WHEEL_UP") || containsSub e (S "_BT_LEFT_BUTTON_UP"))

/-- Does the event fill the `RIGHT` slot? -/
def isRightEvt (e : Str) : Bool :=
  !isDownEvt e && !isUpEvt e && containsSub e (S "_SW_RIGHT_BUTTON_DOWN")

/-- Does the event fill the `GRD` slot? -/
def isGrdEvt (e : Str) : Bool :=
  !isDownEvt e && !isUpEvt e && !isRightEvt e && containsSub e (S "_GRD_LEFT_BUTTON_DOWN")

/-- The four slots a member event may fill. -/
inductive Slot
  | down
  | up
  | right
  | grd
deriving DecidableEq

/-- The slot assignment of `group_events`'s trailing `if/elif` chain. -/
def slotOf (e : Str) : Option Slot :=
  if isDownEvt e then some .down
  else if isUpEvt e then some .up
  else if isRightEvt e then some .right
  else if isGrdEvt e then some .grd
  else none

/-! ## `group_events`: the grouping fold -/

/-- A control group, as built by `group_events`. -/
structure Group where
  down : Option Str := none
  up : Option Str := none
  right : Option Str := none
  grd : Option Str := none
  events : List Str := []
  isWheel : Bool := false
  lVariable : Option Str := none
  controlType : Option Str := none
  overrides : List (Str × JVal) := []
deriving DecidableEq

/-- Association-list lookup (Python `d[k]` / `k in d`). -/
def alistGet {κ : Type} [DecidableEq κ] (m : List (κ × α)) (k : κ) : Option α :=
  match m with
  | [] => none
  | (k', v) :: rest => if k' = k then some v else alistGet rest k

/-- Association-list write (Python `d[k] = v`): replaces the value at the
first occurrence of `k`, otherwise appends — preserving Python's dict
insertion-order semantics. -/
def alistSet {κ : Type} [DecidableEq κ] (m : List (κ × α)) (k : κ) (v : α) : List (κ × α) :=
  match m with
  | [] => [(k, v)]
  | (k', v') :: rest =>
    if k' = k then (k', v) :: rest else (k', v') :: alistSet rest k v

/-- Python `d1.update(d2)`: write every pair of `d2` into `d1`, in order. -/
def alistUpdate {κ : Type} [DecidableEq κ] (m adds : List (κ × α)) : List (κ × α) :=
  adds.foldl (fun acc p => alistSet acc p.1 p.2) m

/-- State of the `group_events` loop: the `event_overrides` dict and the
`grouped` dict (both insertion-ordered). -/
structure GState where
  eo : List (Str × List (Str × JVal)) := []
  groups : List (Str × Group) := []

/-- Update a group with one incoming member event: append to `events`,
merge this event's stored overrides, and assign the slot. -/
def addToGroup (g : Group) (e : Str) (eo : List (Str × List (Str × JVal))) : Group :=
  let g := { g with events := g.events ++ [e] }
  let g :=
    match alistGet eo e with
    | some ov => { g with overrides := alistUpdate g.overrides ov }
    | none => g
  match slotOf e with
  | some .down => { g with down := some e }
  | some .up => { g with up := some e }
  | some .right => { g with right := some e }
  | some .grd => { g with grd := some e }
  | none => g

/-- One iteration of the `group_events` loop body. -/
def stepEvent (st : GState) (entry : RawEvent) : GState :=
  let (name, ov) := parseEventEntry entry
  if name.isEmpty then st
  else
    let eo := if ov.isEmpty then st.eo else alistSet st.eo name ov
    let (base, isW) := classifyEvent name
    let g0 :=
      match alistGet st.groups base with
      | some g => g
      | none => { isWheel := isW : Group }
    { eo := eo, groups := alistSet st.groups base (addToGroup g0 name eo) }

/-- `find_l_variable`: strip the gesture suffixes (in the fixed order of
the `patterns_to_remove` list, each applied to the running result) and
test `MD11_<base>` against the variable set. -/
def findLVariable (e : Str) (vars : List Str) : Option Str :=
  let b := e
  let b := if endsWith b (S "_LEFT_BUTTON_DOWN") then b.take (b.length - 17)
           else if endsWith b (S "_LEFT_BUTTON_UP") then b.take (b.length - 15) else b
  let b := if endsWith b (S "_RIGHT_BUTTON_DOWN") then b.take (b.length - 18)
           else if endsWith b (S "_RIGHT_BUTTON_UP") then b.take (b.length - 16) else b
  let b := if endsWith b (S "_GRD_LEFT_BUTTON_DOWN") then b.take (b.length - 21) else b
  let b := if endsWith b (S "_KB_WHEEL_UP") then b.take (b.length - 12)
           else if endsWith b (S "_KB_WHEEL_DOWN") then b.take (b.length - 14) else b
  let b := if endsWith b (S "_WHEEL_UP") then b.take (b.length - 9)
           else if endsWith b (S "_WHEEL_DOWN") then b.take (b.length - 11) else b
  let varName := S "MD11_" ++ b
  if vars.contains varName then some (S "L:" ++ varName) else none

/-- The variable-correlation pass at the end of `group_events`. -/
def correlateGroup (base : Str) (g : Group) (vars : List Str) : Group :=
  if g.isWheel && g.down.isSome && g.up.isSome then
    let varName := S "MD11_" ++ base
    if vars.contains varName then
      { g with lVariable := some (S "L:" ++ varName), controlType := some (S "NumIncrement") }
    else g
  else if !g.isWheel && g.down.isSome && g.up.isSome then
    match g.down with
    | some d =>
      match findLVariable d vars with
      | some v => { g with lVariable := some v, controlType := some (S "ToggleSwitch") }
      | none => g
    | none => g
  else g

/-- The grouping loop of `group_events`: fold the raw entries. -/
def buildState (events : List RawEvent) : GState := events.foldl stepEvent {}

/-- `group_events`: fold the entries, then correlate each group. -/
def groupEvents (events : List RawEvent) (vars : List Str) : List (Str × Group) :=
  (buildState events).groups.map (fun p => (p.1, correlateGroup p.1 p.2 vars))

/-! ## Comment derivation (`format_comment_name`) -/

/-- The newline character. -/
def nlc : Char := Char.ofNat 10

/-- The double-quote character. -/
def dqc : Char := Char.ofNat 34

/-- The single-quote character. -/
def sqc : Char := Char.ofNat 39

/-- The backtick character. -/
def btc : Char := Char.ofNat 96

/-- The gesture suffixes tried (in order) when matching an event name
against the XML tooltip map. -/
def commentSuffixes : List Str :=
  [S "_LEFT_BUTTON_DOWN", S "_LEFT_BUTTON_UP",
   S "_RIGHT_BUTTON_DOWN", S "_RIGHT_BUTTON_UP",
   S "_WHEEL_UP", S "_WHEEL_DOWN",
   S "_PULL_DOWN", S "_PULL_UP",
   S "_PUSH_DOWN", S "_PUSH_UP",
   S "_GRD_LEFT_BUTTON_DOWN", S "_GRD_LEFT_BUTTON_UP"]

/-- The fallback regex `[^_]+_(.+?)_(BT|SW|KB|GRD)_` of
`format_comment_name`: `[^_]+` can only reach the first underscore (so
the event must not start with `_` and must contain one), and the lazy
group selects the earliest following position where `_BT_`, `_SW_`,
`_KB_` or `_GRD_` starts. -/
def commentRegexBase (e : Str) : Option Str :=
  let m := e.findIdx (fun c => c = '_')
  if m = 0 || m = e.length then none
  else
    let p := m + 1
    match (List.range (e.length + 1)).find? (fun q =>
        decide (p + 1 ≤ q) &&
          (startsWith (e.drop q) (S "_BT_") || startsWith (e.drop q) (S "_SW_") ||
           startsWith (e.drop q) (S "_KB_") || startsWith (e.drop q) (S "_GRD_"))) with
    | some q => some ((e.take q).drop p)
    | none => none

/-- `format_comment_name`: tooltip lookup after suffix-stripping, then a
direct tooltip lookup, then title-casing of the regex-extracted base,
finally the raw event name.  (The `patterns` list in the source is dead
code: it is assigned and never used.)  The XML tooltip map is an
external input, passed here as an association list. -/
def formatCommentName (tooltips : List (Str × Str)) (e : Str) : Str :=
  match commentSuffixes.findSome? (fun suf =>
      if endsWith e suf then alistGet tooltips (e.take (e.length - suf.length)) else none) with
  | some t => t
  | none =>
    match alistGet tooltips e with
    | some t => t
    | none =>
      match commentRegexBase e with
      | some b => pyTitle (pyReplace (S "_") (S " ") b)
      | none => e

/-! ## Set-expression generation -/

/-- The fixed table of standard-MSFS event-name prefixes of
`is_standard_msfs_event`. -/
def nativePrefixes : List Str :=
  [S "COM_", S "COM1_", S "COM2_", S "COM3_", S "NAV_", S "NAV1_", S "NAV2_", S "NAV3_",
   S "NAV4_", S "ADF_", S "ADF1_", S "ADF2_", S "TRANSPONDER_", S "XPNDR_", S "TOGGLE_",
   S "SET_", S "AXIS_", S "RUDDER_", S "ELEVATOR_", S "AILERON_", S "THROTTLE_",
   S "THROTTLE1_", S "THROTTLE2_", S "THROTTLE3_", S "ELECTRICAL_", S "ENGINE_",
   S "FUEL_", S "LIGHT_", S "PITOT_", S "ANTI_ICE", S "BLEED_", S "APU_",
   S "GENERAL_ENG_", S "RECIP_ENG_", S "TURB_ENG_", S "RADIO_", S "KOHLSMAN_",
   S "HEADING_", S "SPEED_", S "ALTITUDE_", S "AUTOPILOT_", S "AP_", S "GPS_", S "MARKER_"]

/-- `is_standard_msfs_event`: empty names are not standard; otherwise a
prefix test against the fixed table. -/
def isStandardMsfsEvent (e : Str) : Bool :=
  if e.isEmpty then false else nativePrefixes.any (fun p => startsWith e p)

/-- `generate_fscopilot_set_expression`: `none` for an empty event name;
otherwise the `(>K:...)`/`(>B:...)` wrapper, optionally embedded in a
backtick value expression. -/
def genSetExpr (e : Str) (valueExpr : Option Str) : Option Str :=
  if e.isEmpty then none
  else
    let eventExpr :=
      if isStandardMsfsEvent e then S "(>K:" ++ e ++ S ")" else S "(>B:" ++ e ++ S ")"
    match valueExpr with
    | some ve => some ([btc] ++ ve ++ [' '] ++ eventExpr ++ [btc])
    | none => some eventExpr

/-- The trigger text interpolated into a `set:` line (`f"    set: {expr}"`
renders Python `None` as the text `None`; unreachable at the render call
sites because group slots always hold nonempty names). -/
def setExprText (e : Str) : Str :=
  match genSetExpr e none with
  | some s => s
  | none => S "None"

/-! ## `generate_yaml` -/

/-- The per-base control metadata loaded from the XML files
(`get_xml_controls`); only `num_states` is read on the render path, the
remaining fields of the Python dict are bookkeeping the renderer never
consults. -/
structure ControlInfo where
  numStates : Option Int := none
deriving DecidableEq

/-- Lexicographic (Python string) order on `Str`, as a Boolean. -/
def strLe (a b : Str) : Bool :=
  match a, b with
  | [], _ => true
  | _ :: _, [] => false
  | c :: a', d :: b' => if c = d then strLe a' b' else decide (c < d)

/-- Python `sorted` on a list of distinct keys. -/
def sortKeys (l : List Str) : List Str :=
  l.insertionSort (fun a b => strLe a b)

/-- Render one control group: the per-iteration body of the main loop of
`generate_yaml`, producing the emitted lines (each rendered entry block
is terminated by a blank line). -/
def renderGroup (tooltips : List (Str × Str)) (controls : List (Str × ControlInfo))
    (base : Str) (g : Group) : List Str :=
  let comment := formatCommentName tooltips (match g.events with | [] => base | e :: _ => e)
  if g.isWheel && g.lVariable.isSome && g.down.isSome && g.up.isSome then
    match g.lVariable with
    | some v =>
      [S "  - # " ++ comment,
       S "    get: " ++ v,
       S "    set: " ++ [dqc, btc] ++ S "${value} (>L:" ++ pyReplace (S "L:") [] v ++ [')'] ++
         [btc, dqc],
       []]
    | none => []
  else if g.isWheel then
    (match g.up with
     | some u => [S "  - # " ++ comment ++ S " (Wheel Up)", S "    set: " ++ setExprText u, []]
     | none => []) ++
    (match g.down with
     | some d => [S "  - # " ++ comment ++ S " (Wheel Down)", S "    set: " ++ setExprText d, []]
     | none => [])
  else if g.lVariable.isSome && g.down.isSome && g.up.isSome then
    match g.lVariable, g.down, g.up with
    | some v, some d, some u =>
      let singleEvent :=
        match alistGet controls base with
        | some ci => ci.numStates == some 1
        | none => false
      [S "  - # " ++ comment, S "    get: " ++ v] ++
      (if singleEvent then
        [S "    set: " ++ setExprText d]
       else
        [S "    set: " ++ [dqc] ++ S "value ? " ++ [sqc] ++ setExprText u ++ [sqc] ++
          S " : " ++ [sqc] ++ setExprText d ++ [sqc] ++ [dqc]]) ++
      [[]]
    | _, _, _ => []
  else
    (match g.down with
     | some d => [S "  - # " ++ comment, S "    set: " ++ setExprText d, []]
     | none => []) ++
    (match g.up with
     | some u =>
       if g.lVariable.isSome then []
       else
         [if g.down.isSome then S "  - # " ++ comment ++ S " (Up)" else S "  - # " ++ comment,
          S "    set: " ++ setExprText u, []]
     | none => []) ++
    (match g.right with
     | some r => [S "  - # " ++ comment ++ S " (Right)", S "    set: " ++ setExprText r, []]
     | none => []) ++
    (match g.grd with
     | some x => [S "  - # " ++ comment ++ S " (Guard)", S "    set: " ++ setExprText x, []]
     | none => []) ++
    (if g.down.isNone && g.up.isNone && g.right.isNone && g.grd.isNone then
      (g.events.map (fun e =>
        (if g.events.indexOf e > 0 then [([] : Str)] else []) ++
          [S "  - # " ++ comment, S "    set: " ++ setExprText e])).flatten ++
        (if g.events.isEmpty then [] else [[]])
     else [])

/-- `generate_yaml`: group the events, then render each group in sorted
base order; prepend the category header unless in merged mode; join with
newlines, strip trailing whitespace and add a final newline (empty
output for an empty line list). -/
def generateYaml (tooltips : List (Str × Str)) (controls : List (Str × ControlInfo))
    (categoryName : Str) (events : List RawEvent) (description : Str)
    (vars : List Str) (mergedMode : Bool) : Str :=
  let grouped := groupEvents events vars
  let headerLines : List Str :=
    if mergedMode then []
    else
      [S "# TFDI MD-11 " ++ description,
       S "# Events reference: https://docs.tfdidesign.com/md11/integration-guide/events",
       S "# Variables reference: https://docs.tfdidesign.com/md11/integration-guide/variables",
       [], S "shared:"]
  let lines := headerLines ++
    ((sortKeys (grouped.map (·.1))).map (fun b =>
      match alistGet grouped b with
      | some g => renderGroup tooltips controls b g
      | none => [])).flatten
  if lines.isEmpty then [] else rstrip (joinLines lines) ++ [nlc]

/-- `generate_shared_content`: merged-mode generation with the trailing
newline stripped. -/
def generateSharedContent (tooltips : List (Str × Str)) (controls : List (Str × ControlInfo))
    (categoryName : Str) (events : List RawEvent) (description : Str)
    (vars : List Str) : Str :=
  rstrip (generateYaml tooltips controls categoryName events description vars true)

/-! ## Specification-side views of the grouping fold (for the
order-independence analysis) -/

/-- The override-free part of a group (the render path never reads
`overrides`). -/
def Group.sansOverrides (g : Group) : Group := { g with overrides := [] }

/-- The observable fields of a group that the claims about grouping talk
about: slots, wheel flag, correlated variable and control kind. -/
def obsG (g : Group) : Option Str × Option Str × Option Str × Option Str ×
    Bool × Option Str × Option Str :=
  (g.down, g.up, g.right, g.grd, g.isWheel, g.lVariable, g.controlType)

/-- The member events of base `b` among a name list. -/
def groupMembers (names : List Str) (b : Str) : List Str :=
  names.filter (fun n => baseOf n == b)

/-- The event holding slot `s` of group `b`: slot writes overwrite, so the
last matching member wins. -/
def lastSlot (names : List Str) (b : Str) (s : Slot) : Option Str :=
  ((groupMembers names b).filter (fun n => slotOf n == some s)).getLast?

/-- The fields of a freshly built (pre-correlation) group, described
directly in terms of the flat name list. -/
structure GroupCore where
  down : Option Str
  up : Option Str
  right : Option Str
  grd : Option Str
  events : List Str
  isWheel : Bool
  lVariable : Option Str
  controlType : Option Str
deriving DecidableEq

/-- Project a group onto its override-free core. -/
def Group.core (g : Group) : GroupCore :=
  ⟨g.down, g.up, g.right, g.grd, g.events, g.isWheel, g.lVariable, g.controlType⟩

/-- Specification of the grouping fold: the core of the group stored at
`b` after processing a name list. -/
def groupCoreSpec (names : List Str) (b : Str) : Option GroupCore :=
  match (groupMembers names b).head? with
  | none => none
  | some e₀ =>
    some ⟨lastSlot names b .down, lastSlot names b .up, lastSlot names b .right,
      lastSlot names b .grd, groupMembers names b, wheelOf e₀, none, none⟩

/-- Rebuild a group from a core (overrides empty). -/
def GroupCore.toGroup (c : GroupCore) : Group :=
  ⟨c.down, c.up, c.right, c.grd, c.events, c.isWheel, c.lVariable, c.controlType, []⟩

/-- The observables of the correlated group built from a core. -/
def obsCore (b : Str) (c : GroupCore) (vars : List Str) :
    Option Str × Option Str × Option Str × Option Str × Bool × Option Str × Option Str :=
  obsG (correlateGroup b c.toGroup vars)

/-! ## The document merge engine: `parse_aircraft_yaml` -/

/-- The four components `parse_aircraft_yaml` extracts from the persisted
aircraft file: joined header text, joined include-section text, the raw
line list of the shared section (its first line included), and the
joined master-section text. -/
structure ParsedDoc where
  header : Str
  includes : Str
  shared : List Str
  master : Str
deriving DecidableEq

/-- The empty-document structure returned when the aircraft file does not
exist (first-run bootstrap). -/
def defaultParsedDoc : ParsedDoc where
  header := S "# TFDi Design MD-11 Configuration File for FS Copilot\n# Events reference: https://docs.tfdidesign.com/md11/integration-guide/events\n# Variables reference: https://docs.tfdidesign.com/md11/integration-guide/variables"
  includes := S "include:"
  shared := [S "shared:"]
  master := []

/-- The loop-break condition of the include-section scan: the literal
`shared:` line or a nonempty non-indented non-comment line. -/
def includeStop (l : Str) : Bool :=
  strip l == S "shared:" ||
    (!l.isEmpty && !startsWith l (S " ") && !(strip l).isEmpty && !startsWith l (S "#"))

/-- `parse_aircraft_yaml`: `none` models a missing file (empty-document
bootstrap); a present file is split at the `include:` line, the include
scan, the `shared:`/non-indented stop line, and the optional `master:`
line.  A missing `include:` or missing stop line raises `ValueError`,
modelled as `Except.error` (the callers do not catch it). -/
def parseAircraftYaml (file : Option Str) : Except Unit ParsedDoc :=
  match file with
  | none => .ok defaultParsedDoc
  | some content =>
    let lines := splitLines content
    match lines.findIdx? (fun l => strip l = S "include:") with
    | none => .error ()
    | some includeStart =>
      let headerLines := lines.take includeStart
      let rest := lines.drop (includeStart + 1)
      match rest.findIdx? includeStop with
      | none => .error ()
      | some j =>
        let includeLines :=
          S "include:" :: (rest.take j).filter (fun l => startsWith (strip l) (S "- "))
        let tail := rest.drop j
        let doc : ParsedDoc :=
          match tail.findIdx? (fun l => strip l = S "master:") with
          | none =>
            { header := rstrip (joinLines headerLines), includes := joinLines includeLines,
              shared := tail, master := [] }
          | some k =>
            { header := rstrip (joinLines headerLines), includes := joinLines includeLines,
              shared := tail.take k, master := rstrip (joinLines (tail.drop k)) }
        .ok doc

/-! ## Full regeneration: `merge_all_categories_to_aircraft_file` -/

/-- In the source, the manual/generated test reads
`'set:' in entry_text and ('AOVHD_', 'OVHD_', …, 'RMCDU_' in entry_text)`.
The parenthesised operand is a Python *tuple* whose last element is the
membership test `'RMCDU_' in entry_text`; a nonempty tuple is always
truthy, so the conjunct reduces to the plain `'set:' in entry_text`.
This constant records that truth value. -/
def pyNonEmptyTupleTruthy : Bool := true

/-- Block classification of the full-regeneration merge: a block is
treated as tool-generated when it contains `L:MD11_` or (because of the
tuple described at `pyNonEmptyTupleTruthy`) merely a `set:` substring. -/
def isGeneratedBlock (text : Str) : Bool :=
  containsSub text (S "L:MD11_") || containsSub text (S "get: L:MD11_") ||
    (containsSub text (S "set:") && pyNonEmptyTupleTruthy)

/-- One iteration of the manual-block extraction loop over the shared
section's lines (state: collected manual lines, current block). -/
def manualStep (st : List Str × List Str) (line : Str) : List Str × List Str :=
  let stripped := lstrip line
  if startsWith stripped (S "-") then
    let manual :=
      if st.2.isEmpty then st.1
      else if !isGeneratedBlock (joinLines st.2) then st.1 ++ st.2 ++ [[]] else st.1
    (manual, [line])
  else if !st.2.isEmpty then (st.1, st.2 ++ [line])
  else if stripped.isEmpty || startsWith stripped (S "#") then
    (if st.1.isEmpty then st.1 else st.1 ++ [line], st.2)
  else st

/-- Manual-line extraction over `parsed['shared'][1:]`, including the
final-block flush (which appends no trailing blank line). -/
def extractManualLines (sharedTail : List Str) : List Str :=
  let st := sharedTail.foldl manualStep ([], [])
  if st.2.isEmpty then st.1
  else if !isGeneratedBlock (joinLines st.2) then st.1 ++ st.2 else st.1

/-- Pop trailing whitespace-only lines (the `while … pop()` loop). -/
def dropTrailingBlanks (l : List Str) : List Str :=
  (l.reverse.dropWhile (fun s => (strip s).isEmpty)).reverse

/-- Reassembly of the merged aircraft file from the parsed document and
the freshly generated per-category shared contents. -/
def mergeAllContent (parsed : ParsedDoc) (freshContents : List Str) : Str :=
  let manual := extractManualLines (parsed.shared.drop 1)
  let outputLines := [parsed.header, [], parsed.includes, [], S "shared:"]
  let outputLines :=
    if manual.isEmpty then outputLines
    else outputLines ++ dropTrailingBlanks manual ++ [[]]
  let outputLines :=
    if freshContents.isEmpty then outputLines else outputLines ++ [joinLines freshContents]
  let outputLines :=
    if parsed.master.isEmpty then outputLines else outputLines ++ [[], parsed.master]
  let content := joinLines outputLines
  if endsWith content [nlc] then content else content ++ [nlc]

/-- A category input resource: name, description, raw event entries. -/
structure Category where
  name : Str
  desc : Str
  events : List RawEvent
deriving DecidableEq

/-- The event filtering applied before generation: entries with an empty
parsed name are dropped; object entries are kept as-is, string entries
are replaced by their parsed name. -/
def filterEvents (events : List RawEvent) : List RawEvent :=
  events.filterMap (fun e =>
    let n := (parseEventEntry e).1
    if n.isEmpty then none
    else
      match e with
      | .obj name ov => some (.obj name ov)
      | _ => some (.plain n))

/-- The shared content contributed by one category during a full
regeneration (`none` when the category has no usable events). -/
def categoryFresh (tooltips : List (Str × Str)) (controls : List (Str × ControlInfo))
    (vars : List Str) (c : Category) : Option Str :=
  let filtered := filterEvents c.events
  if filtered.isEmpty then none
  else some (generateSharedContent tooltips controls c.name filtered c.desc vars)

/-- Structural validity model for `validate_yaml_file` (`yaml.safe_load`):
the YAML grammar requires every double-quoted scalar that is opened to
be closed before end of input; an unterminated double quote is a parse
error.  The model checks exactly this condition (an even alternation of
`"` characters); all other well-formedness aspects of the full YAML
grammar are abstracted as valid, so the model is an under-approximation
of the real validator's failures. -/
def validateOk (content : Str) : Bool :=
  (content.foldl (fun inQ c => if c = dqc then !inQ else inQ) false) = false

/-- Outcome of a merge run: the on-disk document afterwards and whether
the run ended in a fatal error. -/
structure MergeOutcome where
  disk : Option Str
  fatal : Bool
deriving DecidableEq

/-- The consolidated-mode run (`merge_all_categories_to_aircraft_file`):
parse (an uncaught `ValueError` aborts before anything is written),
recompose, then — exactly as in the source — *write the file first* and
only afterwards validate it, exiting fatally on a validation error with
the freshly written (possibly invalid) content already on disk. -/
def mergeAllRun (file : Option Str) (cats : List Category)
    (tooltips : List (Str × Str)) (controls : List (Str × ControlInfo))
    (vars : List Str) : MergeOutcome :=
  match parseAircraftYaml file with
  | .error _ => { disk := file, fatal := true }
  | .ok parsed =>
    let fresh := cats.filterMap (categoryFresh tooltips controls vars)
    let content := mergeAllContent parsed fresh
    { disk := some content, fatal := !validateOk content }

/-! ## The narrow YAML-entry grammar (the single-category merge parses the
shared section with `yaml.safe_load`; the model below recognises the
fragment of YAML the tool itself reads and writes — block sequences of
flat key/value mappings with plain or single-line quoted scalars — and
fails (`none`) on anything beyond it) -/

/-- Scalar values occurring in entry fields; the model covers the YAML 1.1
resolutions the tool's own documents can contain (null, booleans,
decimal integers, strings).  Other resolutions (floats, base-prefixed
integers, dates, …) are outside the modelled grammar and make the parse
fail instead. -/
inductive YVal
  | ynull
  | ybool (b : Bool)
  | yint (n : Int)
  | ystr (s : Str)
deriving DecidableEq

/-- An entry: the ordered key/value mapping of one block. -/
abbrev Entry := List (Str × YVal)

/-- YAML 1.1 boolean words (PyYAML `SafeLoader`). -/
def boolWords : List (Str × Bool) :=
  [(S "yes", true), (S "Yes", true), (S "YES", true),
   (S "no", false), (S "No", false), (S "NO", false),
   (S "true", true), (S "True", true), (S "TRUE", true),
   (S "false", false), (S "False", false), (S "FALSE", false),
   (S "on", true), (S "On", true), (S "ON", true),
   (S "off", false), (S "Off", false), (S "OFF", false)]

/-- YAML 1.1 null words. -/
def nullWords : List Str := [[], S "~", S "null", S "Null", S "NULL"]

/-- Characters that start YAML flow/markup constructs outside the modelled
fragment (a plain scalar beginning with one is not modelled). -/
def yamlIndicator (c : Char) : Bool :=
  c = '[' || c = ']' || c = Char.ofNat 123 || c = Char.ofNat 125 || c = ',' ||
  c = '&' || c = '*' || c = '!' || c = '|' || c = '>' || c = '%' || c = '@' ||
  c = btc || c = '?' || c = '-' || c = ':' || c = '#'

/-- Resolution of a nonempty plain scalar: null words, boolean words,
decimal integers; numeric-looking or indicator-leading text beyond that
is unmodelled (`none`); everything else is a string. -/
def resolvePlain (v : Str) : Option YVal :=
  if nullWords.contains v then some .ynull
  else
    match alistGet boolWords v with
    | some b => some (.ybool b)
    | none =>
      if allDigits v then some (.yint (strToNat v))
      else if (v.head? = some '+' || v.head? = some '-') && allDigits (v.drop 1) then
        some (.yint (if v.head? = some '-' then -(strToNat (v.drop 1) : Int) else strToNat (v.drop 1)))
      else
        match v.head? with
        | none => none
        | some c =>
          if isDigitCh c || c = '+' || c = '-' || c = '.' then none
          else if yamlIndicator c then none
          else if containsSub v (S ": ") || endsWith v (S ":") then none
          else some (.ystr v)

/-- Parse the scalar text after `key: ` — a quoted single-line string
(whose body must not contain the quote character or a backslash) or a
plain scalar; text with an unquoted ` #` comment is unmodelled. -/
def parseScalar (raw : Str) : Option YVal :=
  let v := strip raw
  if v.isEmpty then some .ynull
  else if v.head? = some dqc then
    if v.length ≥ 2 && v.getLast? = some dqc &&
        ((v.drop 1).take (v.length - 2)).all (fun c => c ≠ dqc && c ≠ '\\') then
      some (.ystr ((v.drop 1).take (v.length - 2)))
    else none
  else if v.head? = some sqc then
    if v.length ≥ 2 && v.getLast? = some sqc &&
        ((v.drop 1).take (v.length - 2)).all (fun c => c ≠ sqc) then
      some (.ystr ((v.drop 1).take (v.length - 2)))
    else none
  else if containsSub v (S " #") then none
  else resolvePlain v

/-- Identifier characters admitted for entry keys in the model. -/
def isWordChar (c : Char) : Bool := c.isAlphanum || c = '_'

/-- Parse a `    key: value` field line (exactly four spaces of indent,
word-character key, then `:` and an optional scalar). -/
def parseFieldLine (line : Str) : Option (Str × YVal) :=
  if startsWith line (S "    ") && !(startsWith line (S "     ")) then
    let body := line.drop 4
    let kLen := body.findIdx (fun c => c = ':')
    if kLen = 0 || kLen = body.length then none
    else
      let k := body.take kLen
      if !(k.all isWordChar) then none
      else
        let after := body.drop (kLen + 1)
        if after.isEmpty then some (k, .ynull)
        else if after.head? = some ' ' then (parseScalar after).map (fun v => (k, v))
        else none
  else none

/-- Is the line a block-entry start: `  -`, optionally followed only by
whitespace or a comment? -/
def isDashLine (line : Str) : Bool :=
  startsWith line (S "  -") &&
    ((strip (line.drop 3)).isEmpty || startsWith (lstrip (line.drop 3)) (S "#"))

/-- Whitespace-only line. -/
def isBlankLine (l : Str) : Bool := (strip l).isEmpty

/-- Comment-only line. -/
def isCommentLine (l : Str) : Bool := startsWith (lstrip l) (S "#")

/-- Entry-block parsing: dash lines open entries, field lines extend the
current entry (later duplicate keys overwrite, as in PyYAML), blank and
comment lines are skipped; an empty block (a YAML `null` entry) or any
unrecognised line is outside the model. -/
def parseEntriesAux : List Str → Option Entry → Option (List Entry)
  | [], none => some []
  | [], some e => if e.isEmpty then none else some [e]
  | l :: rest, cur =>
    if isBlankLine l || isCommentLine l then parseEntriesAux rest cur
    else if isDashLine l then
      match cur with
      | none => parseEntriesAux rest (some [])
      | some e =>
        if e.isEmpty then none
        else (parseEntriesAux rest (some [])).map (fun es => e :: es)
    else
      match parseFieldLine l with
      | some (k, v) =>
        match cur with
        | some e => parseEntriesAux rest (some (alistSet e k v))
        | none => none
      | none => none

/-- Parse a `shared:` section given as its line list: optional leading
blank/comment lines, the literal `shared:` line, then entry blocks. -/
def parseShared : List Str → Option (List Entry)
  | [] => none
  | l :: rest =>
    if isBlankLine l || isCommentLine l then parseShared rest
    else if strip l = S "shared:" then parseEntriesAux rest none
    else none

/-- Entry keys (`get_entry_key`): the `get` value when present, else the
`set` value, else nothing. -/
inductive EKey
  | kGet (v : YVal)
  | kSet (v : YVal)
deriving DecidableEq

/-- `get_entry_key` on a parsed entry. -/
def getEntryKey (e : Entry) : Option EKey :=
  match alistGet e (S "get") with
  | some v => some (.kGet v)
  | none =>
    match alistGet e (S "set") with
    | some v => some (.kSet v)
    | none => none

/-- Python `str(value)` on a field value (used by the manual-entry
filter's `str(entry.get('get', ''))`). -/
def pyStr : YVal → Str
  | .ynull => S "None"
  | .ybool true => S "True"
  | .ybool false => S "False"
  | .yint n => intToStr n
  | .ystr s => s

/-- The value text written by `format_entry_as_yaml`
(`str(value).lower()` for booleans, plain `f"{value}"` otherwise). -/
def fmtVal : YVal → Str
  | .ynull => S "None"
  | .ybool true => S "true"
  | .ybool false => S "false"
  | .yint n => intToStr n
  | .ystr s => s

/-- The fixed key ordering of `format_entry_as_yaml`. -/
def keyOrder : List Str := [S "get", S "set", S "skp"]

/-- The key/value pairs of an entry in output order: `get`, `set`, `skp`
first (when present), then the remaining keys sorted. -/
def canonEntry (e : Entry) : Entry :=
  let present := keyOrder.filter (fun k => (alistGet e k).isSome)
  let others := (sortKeys (e.map (·.1))).filter (fun k => !keyOrder.contains k)
  (present ++ others).filterMap (fun k => (alistGet e k).map (fun v => (k, v)))

/-- `format_entry_as_yaml`: the dash line followed by one field line per
key in output order. -/
def formatEntryAsYaml (e : Entry) : List Str :=
  S "  -" :: (canonEntry e).map (fun p => S "    " ++ p.1 ++ S ": " ++ fmtVal p.2)

/-! ## Single-category merge (the default branch of `main`) -/

/-- The category-area prefix tuple of the single-category manual filter
(this one is a proper iteration, unlike the full-regeneration test;
`AOVHD_` and `OBS_` are listed twice in the source). -/
def catAreaMarkers : List Str :=
  [S "AOVHD_", S "OVHD_", S "PED_", S "OBS_", S "CTR_", S "LSIDE_", S "RSIDE_",
   S "CGS_", S "GSL_", S "GSR_", S "LECP_", S "RECP_", S "MIP_", S "THR_",
   S "YOKE_", S "CMCDU_", S "LMCDU_", S "RMCDU_", S "AOVHD_", S "OBS_"]

/-- The keep test of the single-category merge: keep an existing entry iff
its key does not collide with a freshly generated entry and it looks
manually authored (no `L:MD11_` in the read key, no category-area
prefix in the write key). -/
def keepManualEntry (newMap : List (EKey × Entry)) (e : Entry) : Bool :=
  let getVar := match alistGet e (S "get") with | some v => pyStr v | none => []
  let setExpr := match alistGet e (S "set") with | some v => pyStr v | none => []
  let isFromCategory :=
    match getEntryKey e with
    | some k => (alistGet newMap k).isSome
    | none => false
  !isFromCategory &&
    !(startsWith getVar (S "L:MD11_") || containsSub getVar (S "L:MD11_") ||
      (!setExpr.isEmpty && catAreaMarkers.any (fun p => containsSub setExpr p)))

/-- The key → entry map of the freshly generated entries (later entries
overwrite earlier ones with the same key). -/
def newEntriesMap (sharedContent : Str) : List (EKey × Entry) :=
  match parseShared ((S "shared:") :: splitLines sharedContent) with
  | some es =>
    es.foldl (fun m e =>
      match getEntryKey e with
      | some k => alistSet m k e
      | none => m) []
  | none => []

/-- The single-category merge of `main` (consolidated mode): parse the
document (an uncaught `ValueError` is a crash, `.error`), keep existing
entries that pass `keepManualEntry`, re-emit them through
`format_entry_as_yaml`, then append the category's fresh content and the
master section.  Returns the file content written to disk (the source
writes it before validating).  A category whose filtered event list is
empty returns early without touching the file. -/
def mergeSingle (file : Option Str) (cat : Category) (tooltips : List (Str × Str))
    (controls : List (Str × ControlInfo)) (vars : List Str) : Except Unit (Option Str) :=
  let filtered := filterEvents cat.events
  if filtered.isEmpty then .ok file
  else
    match parseAircraftYaml file with
    | .error _ => .error ()
    | .ok parsed =>
      let sharedContent := generateSharedContent tooltips controls cat.name filtered cat.desc vars
      let newMap := newEntriesMap sharedContent
      let existing := (parseShared parsed.shared).getD []
      let manual := existing.filter (keepManualEntry newMap)
      let outputLines := [parsed.header, [], parsed.includes, [], S "shared:"]
        ++ (if manual.isEmpty then []
            else (manual.map (fun e => formatEntryAsYaml e ++ [[]])).flatten ++ [[]])
        ++ [sharedContent]
        ++ (if parsed.master.isEmpty then [] else [[], parsed.master])
      let content := joinLines outputLines
      .ok (some (if endsWith content [nlc] then content else content ++ [nlc]))

/-- Erase the overrides of every group of a grouping state. -/
def stripGroups (gs : List (Str × Group)) : List (Str × Group) :=
  gs.map (fun p => (p.1, p.2.sansOverrides))

/-- The override-free grouping step, driven by the parsed name alone. -/
def nameStep (groups : List (Str × Group)) (n : Str) : List (Str × Group) :=
  let (base, isW) := classifyEvent n
  let g0 :=
    match alistGet groups base with
    | some g => g
    | none => { isWheel := isW : Group }
  alistSet groups base (addToGroup g0 n [])

/-! ## Field/block descriptors for the idempotence analysis (claim C3)

A rendered or re-emitted entry block is a dash line followed by field
lines.  `FieldSpec` records one field line of such a block: its key, the
raw value text printed on the line, and the scalar the model's YAML
parser resolves that text to. -/

/-- One field line of an entry block: key, printed value text, and the
scalar value the text parses back to. -/
structure FieldSpec where
  key : Str
  raw : Str
  val : YVal
deriving DecidableEq

/-- The text of the field line described by a `FieldSpec`. -/
def fieldLineOf (f : FieldSpec) : Str := S "    " ++ f.key ++ S ": " ++ f.raw

/-- The entry obtained by parsing a block of field lines. -/
def entryOf (fs : List FieldSpec) : Entry := fs.map (fun f => (f.key, f.val))

/-- A field line that round-trips: word-character key and a value text
that the field-line parser resolves back to the recorded scalar. -/
abbrev GoodField (f : FieldSpec) : Prop :=
  f.key ≠ [] ∧ f.key.all isWordChar = true ∧
    parseFieldLine (fieldLineOf f) = some (f.key, f.val)

/-- Printable value text: newline-free and ending in a non-whitespace
character (so joining and re-splitting lines is lossless). -/
abbrev FieldRawOK (f : FieldSpec) : Prop :=
  (∀ ch ∈ f.raw, ch ≠ nlc) ∧ ∃ r c, f.raw = r ++ [c] ∧ isWS c = false

/-- A line list in block form: blank lines and well-formed entry blocks
(a dash line followed by round-tripping field lines).  The spec list
records the blocks' fields in order. -/
inductive Blocks : List Str → List (List FieldSpec) → Prop
  | nil : Blocks [] []
  | blank (rest : List Str) (specs : List (List FieldSpec)) :
      Blocks rest specs → Blocks ([] :: rest) specs
  | block (dash : Str) (fs : List FieldSpec) (rest : List Str)
      (specs : List (List FieldSpec)) :
      isDashLine dash = true → isBlankLine dash = false → isCommentLine dash = false →
      (∀ ch ∈ dash, ch ≠ nlc) → fs ≠ [] → (∀ f ∈ fs, GoodField f) →
      (fs.map FieldSpec.key).Nodup → (∀ f ∈ fs, FieldRawOK f) →
      Blocks rest specs → Blocks (dash :: (fs.map fieldLineOf ++ rest)) (fs :: specs)

/-- An existing entry in the canonical shape the tool itself writes:
nonempty, duplicate-free keys, already in `format_entry_as_yaml` key
order, and every value printable and re-parseable to itself (the
condition the PyYAML re-typing of `"True"` → `True` → `true` violates). -/
abbrev EntryGood (e : Entry) : Prop :=
  e ≠ [] ∧ (e.map Prod.fst).Nodup ∧ canonEntry e = e ∧
    (∀ p ∈ e, parseFieldLine (S "    " ++ p.1 ++ S ": " ++ fmtVal p.2) = some p) ∧
    (∀ p ∈ e, (∀ ch ∈ fmtVal p.2, ch ≠ nlc) ∧
      ∃ r c, fmtVal p.2 = r ++ [c] ∧ isWS c = false)

/-- Well-formedness of an optional slot value: a nonempty word-character
event name. -/
abbrev SlotOK (o : Option Str) : Prop :=
  ∀ s, o = some s → s ≠ [] ∧ ∀ c ∈ s, isWordChar c = true

/-- Well-formedness of a group as produced by `group_events` on
word-character event names: slots and members are nonempty
word-character names and a correlated variable is `L:` plus a nonempty
word-character name. -/
abbrev GroupOK (g : Group) : Prop :=
  SlotOK g.down ∧ SlotOK g.up ∧ SlotOK g.right ∧ SlotOK g.grd ∧
    (∀ e ∈ g.events, e ≠ [] ∧ ∀ c ∈ e, isWordChar c = true) ∧
    (∀ v, g.lVariable = some v →
      ∃ w, v = S "L:" ++ w ∧ w ≠ [] ∧ ∀ c ∈ w, isWordChar c = true)

/-- The trailing shape of a rendered chunk: empty, or a body whose last
line is a field line with a non-whitespace final character, followed by
one blank line. -/
abbrev RenderShape (L : List Str) : Prop :=
  L = [] ∨ ∃ B f, L = B ++ [[]] ∧ B.getLast? = some (fieldLineOf f) ∧ FieldRawOK f

/-- The comment text `renderGroup` derives for a group (first member
event, or the base for an empty group). -/
def commentOf (tooltips : List (Str × Str)) (b : Str) (g : Group) : Str :=
  formatCommentName tooltips (match g.events with | [] => b | e :: _ => e)

/-- The suffix-stripping chain of `find_l_variable` (the `b` the function
derives from the event name before testing `MD11_<b>`). -/
def fvBase (e : Str) : Str :=
  let b := e
  let b := if endsWith b (S "_LEFT_BUTTON_DOWN") then b.take (b.length - 17)
           else if endsWith b (S "_LEFT_BUTTON_UP") then b.take (b.length - 15) else b
  let b := if endsWith b (S "_RIGHT_BUTTON_DOWN") then b.take (b.length - 18)
           else if endsWith b (S "_RIGHT_BUTTON_UP") then b.take (b.length - 16) else b
  let b := if endsWith b (S "_GRD_LEFT_BUTTON_DOWN") then b.take (b.length - 21) else b
  let b := if endsWith b (S "_KB_WHEEL_UP") then b.take (b.length - 12)
           else if endsWith b (S "_KB_WHEEL_DOWN") then b.take (b.length - 14) else b
  let b := if endsWith b (S "_WHEEL_UP") then b.take (b.length - 9)
           else if endsWith b (S "_WHEEL_DOWN") then b.take (b.length - 11) else b
  b

/-- One optional single-`set:` block of the renderer's slot branch, with a
comment suffix (empty for the `DOWN` slot). -/
def sufPiece (cx suf : Str) (o : Option Str) : List Str :=
  match o with
  | some r => [S "  - # " ++ cx ++ suf, S "    set: " ++ setExprText r, []]
  | none => []

/-- The `UP`-slot block of the renderer's slot branch (suppressed when a
variable was correlated; comment suffix depends on the `DOWN` slot). -/
def uPiece (cx : Str) (dSome lvSome : Bool) (o : Option Str) : List Str :=
  match o with
  | some u =>
    if lvSome then []
    else [if dSome then S "  - # " ++ cx ++ S " (Up)" else S "  - # " ++ cx,
          S "    set: " ++ setExprText u, []]
  | none => []

/-- The duplicate-singleton sub-branch (one block per member event,
active only when no slot was recognised). -/
def dupPiece (allNone : Bool) (cx : Str) (evs : List Str) : List Str :=
  if allNone then
    (evs.map (fun e => (if evs.indexOf e > 0 then [([] : Str)] else []) ++
       [S "  - # " ++ cx, S "    set: " ++ setExprText e])).flatten ++
      (if evs.isEmpty then [] else [[]])
  else []

/-- Leading characters that keep a plain scalar inside the modelled YAML
fragment and out of every null/boolean/numeric resolution. -/
def plainSafeHead (c : Char) : Bool :=
  !isDigitCh c && !(c = '+' || c = '-' || c = '.') && !yamlIndicator c &&
    !(c = dqc) && !(c = sqc) &&
    !(['y', 'Y', 'n', 'N', 't', 'T', 'f', 'F', 'o', 'O', '~'].contains c)

/-! ## Concrete inputs for the C3 idempotence counterexample -/

/-- A persisted document whose manual entry holds the double-quoted
scalar `"True"`; `yaml.safe_load` re-types it to a boolean, which
`format_entry_as_yaml` then prints as `true`. -/
def c3Doc : Str :=
  S "# MD-11\ninclude:\n  - modules/m.yaml\nshared:\n  -\n    get: MYVAR\n    set: \"True\"\n"

/-- A minimal category (one standard event). -/
def c3Cat : Category := ⟨S "c", S "d", [.plain (S "COM1_RADIO_SET")]⟩

/-- The document written by one single-category merge of `c3Cat` (no
tooltips, no metadata, no variables); `none` on a parse failure. -/
def c3Merge (file : Option Str) : Option Str :=
  match mergeSingle file c3Cat [] [] [] with
  | .ok r => r
  | .error _ => none

/-- The output of the first merge into `c3Doc`. -/
def c3One : Str := (c3Merge (some c3Doc)).getD []

/-- The output of merging a second time. -/
def c3Two : Str := (c3Merge (some c3One)).getD []

/-! # Lemmas and claim theorems -/

theorem alistGet_set_self {κ : Type} [DecidableEq κ] {α : Type} (m : List (κ × α)) (k : κ) (v : α) :
    alistGet (alistSet m k v) k = some v := by
  induction m with
  | nil => simp [alistGet, alistSet]
  | cons p rest ih =>
    obtain ⟨k', v'⟩ := p
    by_cases h : k' = k <;> simp [alistGet, alistSet, h, ih]

theorem alistGet_set_ne {κ : Type} [DecidableEq κ] {α : Type} (m : List (κ × α)) (k k' : κ)
    (v : α) (h : k' ≠ k) : alistGet (alistSet m k v) k' = alistGet m k' := by
  induction m with
  | nil =>
    simp only [alistSet, alistGet, ite_eq_right_iff]
    intro hh
    exact absurd hh.symm h
  | cons p rest ih =>
    obtain ⟨k₀, v₀⟩ := p
    by_cases h0 : k₀ = k <;> by_cases h1 : k₀ = k' <;>
      simp_all [alistGet, alistSet]

theorem alistGet_map {κ : Type} [DecidableEq κ] {α β : Type}
    (m : List (κ × α)) (f : κ → α → β) (k : κ) :
    alistGet (m.map (fun p => (p.1, f p.1 p.2))) k = (alistGet m k).map (f k) := by
  induction m with
  | nil => simp [alistGet]
  | cons p rest ih =>
    obtain ⟨k', v⟩ := p
    by_cases h : k' = k <;> simp [alistGet, h, ih]

theorem eventNames_append (l₁ l₂ : List RawEvent) :
    eventNames (l₁ ++ l₂) = eventNames l₁ ++ eventNames l₂ := by
  simp [eventNames, List.filter_append]

/-- Claim C7 — the trigger wrapper is the native `(>K:…)` form exactly for
the fixed native-prefix table, the custom `(>B:…)` form otherwise, and
the single event `COM1_RADIO_SET` renders as one entry with the native
wrapper. -/
theorem trigger_wrapper_prefix_iff :
    (∀ e : Str, e ≠ [] →
      ((isStandardMsfsEvent e = true ↔ ∃ p ∈ nativePrefixes, startsWith e p = true) ∧
        genSetExpr e none =
          some (if isStandardMsfsEvent e then S "(>K:" ++ e ++ S ")"
                else S "(>B:" ++ e ++ S ")"))) ∧
    generateYaml [] [] (S "cat") [.plain (S "COM1_RADIO_SET")] (S "d") [] true =
      S "  - # COM1_RADIO_SET\n    set: (>K:COM1_RADIO_SET)\n" := by
  constructor
  · intro e he
    have hne : e.isEmpty = false := by
      cases e with
      | nil => exact absurd rfl he
      | cons c cs => rfl
    constructor
    · simp [isStandardMsfsEvent, hne, List.any_eq_true]
    · by_cases hs : isStandardMsfsEvent e = true <;>
        simp [genSetExpr, hne, hs]
  · decide

/-- Witness for `trigger_wrapper_prefix_iff`. -/
theorem trigger_wrapper_prefix_iff_witness :
    genSetExpr (S "COM1_RADIO_SET") none =
      some (if isStandardMsfsEvent (S "COM1_RADIO_SET") then
        S "(>K:" ++ S "COM1_RADIO_SET" ++ S ")"
      else S "(>B:" ++ S "COM1_RADIO_SET" ++ S ")") :=
  (trigger_wrapper_prefix_iff.1 (S "COM1_RADIO_SET") (by decide)).2

theorem pyReplaceAux_of_not_infixAt (pat rep : Str) :
    ∀ (fuel : Nat) (s : Str), s.length ≤ fuel → infixAt pat s = false →
      pyReplaceAux pat rep fuel s = s := by
  intro fuel
  induction fuel with
  | zero => intro s _ _; rfl
  | succ n ih =>
    intro s hl hocc
    cases s with
    | nil => rfl
    | cons c rest =>
      simp only [infixAt, Bool.or_eq_false_iff] at hocc
      simp only [pyReplaceAux, hocc.1, Bool.false_and, if_neg, Bool.false_eq_true,
        not_false_iff]
      rw [ih rest (by simpa using Nat.le_of_succ_le_succ hl) hocc.2]

theorem pyReplace_of_not_contains (pat rep s : Str) (h : containsSub s pat = false) :
    pyReplace pat rep s = s :=
  pyReplaceAux_of_not_infixAt pat rep s.length s (Nat.le_refl _) h

theorem pyReplace_lvar_cancel (x : Str) (h : containsSub x (S "L:") = false) :
    pyReplace (S "L:") [] (S "L:" ++ x) = x := by
  have h2 : (S "L:" ++ x) = 'L' :: ':' :: x := by simp [S]
  have h3 : (S "L:" ++ x).length = x.length + 2 := by rw [h2]; simp
  show pyReplaceAux (S "L:") [] (S "L:" ++ x).length (S "L:" ++ x) = x
  rw [h3, h2]
  have hstep : pyReplaceAux (S "L:") [] (x.length + 2) ('L' :: ':' :: x) =
      [] ++ pyReplaceAux (S "L:") [] (x.length + 1) ((':' :: x).drop ((S "L:").length - 1)) := by
    simp [pyReplaceAux, S, List.isPrefixOf]
  rw [hstep]
  have hdrop : (':' :: x).drop ((S "L:").length - 1) = x := by simp [S]
  rw [hdrop, List.nil_append]
  exact pyReplaceAux_of_not_infixAt _ _ (x.length + 1) x (Nat.le_succ _) h

/-- Claim C5 — Toggle rendering: a non-wheel group with both press and
release events whose derived variable is known and whose metadata does
not report a single state renders as exactly one entry: read key the
variable reference, write key the conditional that triggers the release
event when the value is truthy and the press event when it is falsy;
and Scenario A end-to-end. -/
theorem toggle_render_conditional :
    (∀ (tooltips : List (Str × Str)) (controls : List (Str × ControlInfo))
      (vars : List Str) (b : Str) (g : Group) (d u v : Str),
      g.isWheel = false → g.down = some d → g.up = some u →
      findLVariable d vars = some v →
      (∀ ci, alistGet controls b = some ci → ¬ci.numStates = some 1) →
      renderGroup tooltips controls b (correlateGroup b g vars) =
        [S "  - # " ++ formatCommentName tooltips (match g.events with | [] => b | e :: _ => e),
         S "    get: " ++ v,
         S "    set: " ++ [dqc] ++ S "value ? " ++ [sqc] ++ setExprText u ++ [sqc] ++
           S " : " ++ [sqc] ++ setExprText d ++ [sqc] ++ [dqc],
         []]) ∧
    generateYaml [] [] (S "cat")
        [.plain (S "FOO_BT_LEFT_BUTTON_DOWN"), .plain (S "FOO_BT_LEFT_BUTTON_UP")]
        (S "d") [S "MD11_FOO_BT"] true =
      S "  - # FOO_BT_LEFT_BUTTON_DOWN\n    get: L:MD11_FOO_BT\n    set: " ++ [dqc] ++
        S "value ? " ++ [sqc] ++ S "(>B:FOO_BT_LEFT_BUTTON_UP)" ++ [sqc] ++ S " : " ++
        [sqc] ++ S "(>B:FOO_BT_LEFT_BUTTON_DOWN)" ++ [sqc, dqc, nlc] := by
  constructor
  · intro tooltips controls vars b g d u v hw hd hu hv hns
    have hc : correlateGroup b g vars =
        { g with lVariable := some v, controlType := some (S "ToggleSwitch") } := by
      simp [correlateGroup, hw, hd, hu, hv]
    rw [hc]
    rcases hca : alistGet controls b with _ | ci
    · simp [renderGroup, hw, hd, hu, hca]
    · have hn1 : (ci.numStates == some 1) = false := by
        simpa using hns ci hca
      simp [renderGroup, hw, hd, hu, hca, hn1]
  · decide

/-- Witness for `toggle_render_conditional` (Scenario A's group). -/
theorem toggle_render_conditional_witness :
    renderGroup [] [] (S "FOO_BT")
      (correlateGroup (S "FOO_BT")
        (Group.mk (some (S "FOO_BT_LEFT_BUTTON_DOWN")) (some (S "FOO_BT_LEFT_BUTTON_UP"))
          none none [S "FOO_BT_LEFT_BUTTON_DOWN", S "FOO_BT_LEFT_BUTTON_UP"] false
          none none []) [S "MD11_FOO_BT"]) =
      [S "  - # " ++ formatCommentName []
        (match (Group.mk (some (S "FOO_BT_LEFT_BUTTON_DOWN")) (some (S "FOO_BT_LEFT_BUTTON_UP"))
          none none [S "FOO_BT_LEFT_BUTTON_DOWN", S "FOO_BT_LEFT_BUTTON_UP"] false
          none none []).events with | [] => S "FOO_BT" | e :: _ => e),
       S "    get: " ++ S "L:MD11_FOO_BT",
       S "    set: " ++ [dqc] ++ S "value ? " ++ [sqc] ++
         setExprText (S "FOO_BT_LEFT_BUTTON_UP") ++ [sqc] ++ S " : " ++ [sqc] ++
         setExprText (S "FOO_BT_LEFT_BUTTON_DOWN") ++ [sqc] ++ [dqc],
       []] :=
  toggle_render_conditional.1 [] [] [S "MD11_FOO_BT"] (S "FOO_BT") _
    (S "FOO_BT_LEFT_BUTTON_DOWN") (S "FOO_BT_LEFT_BUTTON_UP") (S "L:MD11_FOO_BT")
    rfl rfl rfl (by decide) (by intro ci h; cases h)

/-- Claim C6 — Increment rendering: a wheel group with both directions
whose variable `MD11_<base>` is known renders as exactly one entry whose
read key is that variable reference and whose write key writes the
current value back into the same variable reference; and Scenario B
end-to-end. -/
theorem wheel_render_writeback :
    (∀ (tooltips : List (Str × Str)) (controls : List (Str × ControlInfo))
      (vars : List Str) (b : Str) (g : Group) (d u : Str),
      g.isWheel = true → g.down = some d → g.up = some u →
      vars.contains (S "MD11_" ++ b) = true →
      containsSub b (S "L:") = false →
      renderGroup tooltips controls b (correlateGroup b g vars) =
        [S "  - # " ++ formatCommentName tooltips (match g.events with | [] => b | e :: _ => e),
         S "    get: " ++ (S "L:" ++ (S "MD11_" ++ b)),
         S "    set: " ++ [dqc, btc] ++ S "${value} (>L:" ++ (S "MD11_" ++ b) ++ [')'] ++
           [btc, dqc],
         []]) ∧
    generateYaml [] [] (S "cat")
        [.plain (S "VOL_KB_WHEEL_UP"), .plain (S "VOL_KB_WHEEL_DOWN")]
        (S "d") [S "MD11_VOL_KB"] true =
      S "  - # VOL_KB_WHEEL_UP\n    get: L:MD11_VOL_KB\n    set: " ++ [dqc, btc] ++
        S "${value} (>L:MD11_VOL_KB)" ++ [btc, dqc, nlc] := by
  constructor
  · intro tooltips controls vars b g d u hw hd hu hv hb
    have hv2 : (S "MD11_" ++ b) ∈ vars := by simpa using hv
    have hc : correlateGroup b g vars =
        { g with lVariable := some (S "L:" ++ (S "MD11_" ++ b)),
                 controlType := some (S "NumIncrement") } := by
      simp [correlateGroup, hw, hd, hu, hv2]
    rw [hc]
    have hmb : containsSub (S "MD11_" ++ b) (S "L:") = false := by
      simp only [containsSub] at hb ⊢
      simp [S, infixAt, List.isPrefixOf] at hb ⊢
      exact hb
    have hrepl : pyReplace (S "L:") [] (S "L:" ++ (S "MD11_" ++ b)) = S "MD11_" ++ b :=
      pyReplace_lvar_cancel _ hmb
    simp [renderGroup, hw, hd, hu, hrepl]
  · decide

/-- Witness for `wheel_render_writeback` (Scenario B's group). -/
theorem wheel_render_writeback_witness :
    renderGroup [] [] (S "VOL_KB")
      (correlateGroup (S "VOL_KB")
        (Group.mk (some (S "VOL_KB_WHEEL_DOWN")) (some (S "VOL_KB_WHEEL_UP"))
          none none [S "VOL_KB_WHEEL_UP", S "VOL_KB_WHEEL_DOWN"] true
          none none []) [S "MD11_VOL_KB"]) =
      [S "  - # " ++ formatCommentName []
        (match (Group.mk (some (S "VOL_KB_WHEEL_DOWN")) (some (S "VOL_KB_WHEEL_UP"))
          none none [S "VOL_KB_WHEEL_UP", S "VOL_KB_WHEEL_DOWN"] true
          none none []).events with | [] => S "VOL_KB" | e :: _ => e),
       S "    get: " ++ (S "L:" ++ (S "MD11_" ++ S "VOL_KB")),
       S "    set: " ++ [dqc, btc] ++ S "${value} (>L:" ++ (S "MD11_" ++ S "VOL_KB") ++
         [')'] ++ [btc, dqc],
       []] :=
  wheel_render_writeback.1 [] [] [S "MD11_VOL_KB"] (S "VOL_KB") _
    (S "VOL_KB_WHEEL_DOWN") (S "VOL_KB_WHEEL_UP") rfl rfl rfl (by decide) (by decide)

/-- Claim C9 — SingleEvent rendering: a non-wheel group with both press
and release, a correlated variable, and metadata reporting exactly one
state renders as exactly one entry whose write key unconditionally
triggers the press event only — no separate release entry is emitted. -/
theorem single_event_render_press_only
    (tooltips : List (Str × Str)) (controls : List (Str × ControlInfo))
    (vars : List Str) (b : Str) (g : Group) (d u v : Str) (ci : ControlInfo)
    (hw : g.isWheel = false) (hd : g.down = some d) (hu : g.up = some u)
    (hv : findLVariable d vars = some v)
    (hci : alistGet controls b = some ci) (h1 : ci.numStates = some 1) :
    renderGroup tooltips controls b (correlateGroup b g vars) =
      [S "  - # " ++ formatCommentName tooltips (match g.events with | [] => b | e :: _ => e),
       S "    get: " ++ v,
       S "    set: " ++ setExprText d,
       []] := by
  have hc : correlateGroup b g vars =
      { g with lVariable := some v, controlType := some (S "ToggleSwitch") } := by
    simp [correlateGroup, hw, hd, hu, hv]
  rw [hc]
  simp [renderGroup, hw, hd, hu, hci, h1]

/-- Witness for `single_event_render_press_only`. -/
theorem single_event_render_press_only_witness :
    renderGroup [] [(S "FOO_BT", ControlInfo.mk (some 1))] (S "FOO_BT")
      (correlateGroup (S "FOO_BT")
        (Group.mk (some (S "FOO_BT_LEFT_BUTTON_DOWN")) (some (S "FOO_BT_LEFT_BUTTON_UP"))
          none none [S "FOO_BT_LEFT_BUTTON_DOWN", S "FOO_BT_LEFT_BUTTON_UP"] false
          none none []) [S "MD11_FOO_BT"]) =
      [S "  - # " ++ formatCommentName []
        (match (Group.mk (some (S "FOO_BT_LEFT_BUTTON_DOWN")) (some (S "FOO_BT_LEFT_BUTTON_UP"))
          none none [S "FOO_BT_LEFT_BUTTON_DOWN", S "FOO_BT_LEFT_BUTTON_UP"] false
          none none []).events with | [] => S "FOO_BT" | e :: _ => e),
       S "    get: " ++ S "L:MD11_FOO_BT",
       S "    set: " ++ setExprText (S "FOO_BT_LEFT_BUTTON_DOWN"),
       []] :=
  single_event_render_press_only [] [(S "FOO_BT", ControlInfo.mk (some 1))]
    [S "MD11_FOO_BT"] (S "FOO_BT") _ (S "FOO_BT_LEFT_BUTTON_DOWN")
    (S "FOO_BT_LEFT_BUTTON_UP") (S "L:MD11_FOO_BT") (ControlInfo.mk (some 1))
    rfl rfl rfl (by decide) (by decide) rfl

theorem alistSet_strip (m : List (Str × Group)) (k : Str) (v : Group) :
    stripGroups (alistSet m k v) = alistSet (stripGroups m) k v.sansOverrides := by
  induction m with
  | nil => simp [alistSet, stripGroups]
  | cons p rest ih =>
    obtain ⟨k', v'⟩ := p
    by_cases h : k' = k <;> simp [alistSet, stripGroups, h] <;>
      simpa [stripGroups] using ih

theorem alistGet_strip (m : List (Str × Group)) (k : Str) :
    alistGet (stripGroups m) k = (alistGet m k).map Group.sansOverrides := by
  induction m with
  | nil => simp [alistGet, stripGroups]
  | cons p rest ih =>
    obtain ⟨k', v'⟩ := p
    by_cases h : k' = k <;> simp [alistGet, stripGroups, h] <;>
      simpa [stripGroups] using ih

theorem addToGroup_sans (g : Group) (e : Str) (eo : List (Str × List (Str × JVal))) :
    (addToGroup g e eo).sansOverrides = addToGroup g.sansOverrides e [] := by
  have h0 : alistGet ([] : List (Str × List (Str × JVal))) e = none := rfl
  rcases g with ⟨down, up, right, grd, events, isW, lv, ct, ov⟩
  rcases h : alistGet eo e with _ | x <;> rcases hs : slotOf e with _ | s <;>
    simp only [addToGroup, Group.sansOverrides, h, hs, h0] <;>
    first
      | rfl
      | (cases s <;> rfl)

theorem stepEvent_strip (st : GState) (e : RawEvent) :
    stripGroups (stepEvent st e).groups =
      if (parseEventEntry e).1.isEmpty then stripGroups st.groups
      else nameStep (stripGroups st.groups) (parseEventEntry e).1 := by
  rcases hp : parseEventEntry e with ⟨n, ov⟩
  by_cases hn : n.isEmpty
  · simp [stepEvent, hp, hn]
  · simp only [stepEvent, hp, hn, if_neg, Bool.false_eq_true, not_false_iff, nameStep]
    rcases hc : classifyEvent n with ⟨base, isW⟩
    simp only []
    rw [alistSet_strip, addToGroup_sans, alistGet_strip]
    rcases hg : alistGet st.groups base with _ | g
    · simp [Group.sansOverrides]
    · simp

theorem buildState_strip (l : List RawEvent) :
    ∀ st : GState, stripGroups (l.foldl stepEvent st).groups =
      (eventNames l).foldl nameStep (stripGroups st.groups) := by
  induction l with
  | nil => intro st; simp [eventNames]
  | cons e rest ih =>
    intro st
    have hnm : eventNames (e :: rest) =
        (if (parseEventEntry e).1.isEmpty then [] else [(parseEventEntry e).1]) ++
          eventNames rest := by
      simp only [eventNames, List.map_cons, List.filter_cons]
      by_cases hn : (parseEventEntry e).1.isEmpty <;> simp [hn]
    rw [List.foldl_cons, ih, hnm, List.foldl_append]
    congr 1
    rw [stepEvent_strip]
    by_cases hn : (parseEventEntry e).1.isEmpty <;> simp [hn]

theorem renderGroup_sans (tooltips : List (Str × Str)) (controls : List (Str × ControlInfo))
    (b : Str) (g : Group) :
    renderGroup tooltips controls b g.sansOverrides = renderGroup tooltips controls b g := by
  rcases g with ⟨down, up, right, grd, events, isW, lv, ct, ov⟩
  rfl

theorem correlateGroup_sans (b : Str) (g : Group) (vars : List Str) :
    (correlateGroup b g vars).sansOverrides = correlateGroup b g.sansOverrides vars := by
  rcases g with ⟨down, up, right, grd, events, isW, lv, ct, ov⟩
  cases isW <;> rcases down with _ | d <;> rcases up with _ | u <;>
    simp only [correlateGroup, Group.sansOverrides, Option.isSome_some, Option.isSome_none,
      Bool.true_and, Bool.false_and, Bool.and_true, Bool.and_false, Bool.not_true,
      Bool.not_false, if_true, if_false, Bool.false_eq_true] <;>
    first
      | rfl
      | (split <;> rfl)
      | (rcases hf : findLVariable d vars with _ | v <;> simp [hf])

/-- Claim C10 — overrides never influence the rendered output: the output
of `generate_yaml` depends on the raw event entries only through their
parsed names, so entries carrying override mappings render exactly as
their bare names do (the override-formatting routine
`format_override_lines` is not on the render path). -/
theorem overrides_never_rendered
    (tooltips : List (Str × Str)) (controls : List (Str × ControlInfo))
    (cat : Str) (l₁ l₂ : List RawEvent) (desc : Str) (vars : List Str) (merged : Bool)
    (h : eventNames l₁ = eventNames l₂) :
    generateYaml tooltips controls cat l₁ desc vars merged =
      generateYaml tooltips controls cat l₂ desc vars merged := by
  have hstrip : stripGroups (buildState l₁).groups = stripGroups (buildState l₂).groups := by
    show stripGroups (l₁.foldl stepEvent {}).groups = stripGroups (l₂.foldl stepEvent {}).groups
    rw [buildState_strip, buildState_strip, h]
  have hkeys : (groupEvents l₁ vars).map (·.1) = (groupEvents l₂ vars).map (·.1) := by
    have h1 : ∀ l : List RawEvent, (groupEvents l vars).map (·.1) =
        (stripGroups (buildState l).groups).map (·.1) := by
      intro l
      simp [groupEvents, stripGroups]
    rw [h1, h1, hstrip]
  have hget : ∀ b : Str,
      (match alistGet (groupEvents l₁ vars) b with
        | some g => renderGroup tooltips controls b g
        | none => []) =
      (match alistGet (groupEvents l₂ vars) b with
        | some g => renderGroup tooltips controls b g
        | none => []) := by
    intro b
    have hmap : ∀ l : List RawEvent, alistGet (groupEvents l vars) b =
        (alistGet (buildState l).groups b).map (fun g => correlateGroup b g vars) := by
      intro l
      exact alistGet_map (buildState l).groups (fun b g => correlateGroup b g vars) b
    have hsans : (alistGet (buildState l₁).groups b).map Group.sansOverrides =
        (alistGet (buildState l₂).groups b).map Group.sansOverrides := by
      rw [← alistGet_strip, ← alistGet_strip, hstrip]
    rw [hmap, hmap]
    rcases h1 : alistGet (buildState l₁).groups b with _ | g₁ <;>
      rcases h2 : alistGet (buildState l₂).groups b with _ | g₂ <;>
      rw [h1, h2] at hsans <;> simp at hsans <;> simp
    have : renderGroup tooltips controls b (correlateGroup b g₁ vars) =
        renderGroup tooltips controls b (correlateGroup b g₂ vars) := by
      rw [← renderGroup_sans tooltips controls b (correlateGroup b g₁ vars),
        ← renderGroup_sans tooltips controls b (correlateGroup b g₂ vars),
        correlateGroup_sans, correlateGroup_sans, hsans]
    exact this
  have hfun : (fun b => match alistGet (groupEvents l₁ vars) b with
      | some g => renderGroup tooltips controls b g
      | none => ([] : List Str)) =
      (fun b => match alistGet (groupEvents l₂ vars) b with
      | some g => renderGroup tooltips controls b g
      | none => ([] : List Str)) := funext hget
  simp only [generateYaml]
  rw [hkeys, hfun]

/-- Witness for `overrides_never_rendered`: an entry with overrides and
its bare name render identically. -/
theorem overrides_never_rendered_witness :
    generateYaml [] [] (S "cat")
        [.obj (S "COM1_RADIO_SET") [(S "skp", .jb true)]] (S "d") [] true =
      generateYaml [] [] (S "cat") [.plain (S "COM1_RADIO_SET")] (S "d") [] true :=
  overrides_never_rendered [] [] (S "cat")
    [.obj (S "COM1_RADIO_SET") [(S "skp", .jb true)]]
    [.plain (S "COM1_RADIO_SET")] (S "d") [] true (by decide)

theorem groupMembers_append_single (l : List Str) (n : Str) (b : Str) :
    groupMembers (l ++ [n]) b =
      groupMembers l b ++ (if baseOf n = b then [n] else []) := by
  simp only [groupMembers, List.filter_append]
  congr 1
  by_cases h : baseOf n = b <;> simp [h]

theorem lastSlot_append_single (l : List Str) (n : Str) (b : Str) (s : Slot) :
    lastSlot (l ++ [n]) b s =
      if baseOf n = b ∧ slotOf n = some s then some n else lastSlot l b s := by
  simp only [lastSlot, groupMembers_append_single, List.filter_append]
  by_cases hb : baseOf n = b
  · by_cases hs : slotOf n = some s
    · simp [hb, hs]
    · simp [hb, hs]
  · simp [hb]

theorem nameFold_core (names : List Str) (b : Str) :
    (alistGet (names.foldl nameStep []) b).map Group.core = groupCoreSpec names b := by
  induction names using List.reverseRecOn with
  | nil => simp [alistGet, groupCoreSpec, groupMembers]
  | append_singleton l n ih =>
    rw [List.foldl_append, List.foldl_cons, List.foldl_nil]
    rcases hc : classifyEvent n with ⟨bn, isW⟩
    have hbase : baseOf n = bn := by simp [baseOf, hc]
    have hwheel : wheelOf n = isW := by simp [wheelOf, hc]
    have hstep : nameStep (l.foldl nameStep []) n =
        alistSet (l.foldl nameStep []) bn
          (addToGroup
            (match alistGet (l.foldl nameStep []) bn with
              | some g => g
              | none => { isWheel := isW : Group }) n []) := by
      simp [nameStep, hc]
    rw [hstep]
    by_cases hb : bn = b
    · subst hb
      have hGM : groupMembers (l ++ [n]) bn = groupMembers l bn ++ [n] := by
        rw [groupMembers_append_single, if_pos hbase]
      have hlast : ∀ s : Slot, lastSlot (l ++ [n]) bn s =
          if slotOf n = some s then some n else lastSlot l bn s := by
        intro s
        rw [lastSlot_append_single]
        by_cases hs : slotOf n = some s
        · rw [if_pos ⟨hbase, hs⟩, if_pos hs]
        · rw [if_neg (fun h => hs h.2), if_neg hs]
      rw [alistGet_set_self]
      rcases hg : alistGet (l.foldl nameStep []) bn with _ | g
      · -- no group for this base yet: the spec of `l` at `bn` is `none`
        rw [hg] at ih
        have ih0 : (none : Option GroupCore) = groupCoreSpec l bn := by simpa using ih
        have hmem : groupMembers l bn = [] := by
          simp only [groupCoreSpec] at ih0
          rcases hh : (groupMembers l bn).head? with _ | e₀
          · exact List.head?_eq_none_iff.mp hh
          · rw [hh] at ih0; exact absurd ih0.symm (by simp)
        have hlast0 : ∀ s : Slot, lastSlot l bn s = none := by
          intro s; simp [lastSlot, hmem]
        have hspec : groupCoreSpec (l ++ [n]) bn =
            some ⟨(if slotOf n = some .down then some n else none),
              (if slotOf n = some .up then some n else none),
              (if slotOf n = some .right then some n else none),
              (if slotOf n = some .grd then some n else none),
              [n], wheelOf n, none, none⟩ := by
          simp only [groupCoreSpec, hGM, hmem, List.nil_append, List.head?_cons]
          congr 1
          rw [hlast .down, hlast .up, hlast .right, hlast .grd]
          simp [hlast0]
        rw [hspec]
        rcases hs : slotOf n with _ | s
        · simp [addToGroup, alistGet, hs, Group.core, hwheel]
        · cases s <;> simp [addToGroup, alistGet, hs, Group.core, hwheel]
      · -- an existing group: its core is the spec of `l`
        rw [hg] at ih
        rcases g with ⟨gd, gu, gr, gg2, ge, gw, gl, gc, go⟩
        rcases hh : (groupMembers l bn).head? with _ | e₀
        · rw [groupCoreSpec.eq_def, hh] at ih
          exact absurd ih (by simp)
        · have ih3 : GroupCore.mk gd gu gr gg2 ge gw gl gc =
              ⟨lastSlot l bn .down, lastSlot l bn .up, lastSlot l bn .right,
                lastSlot l bn .grd, groupMembers l bn, wheelOf e₀, none, none⟩ := by
            simp only [groupCoreSpec, hh, Option.map_some] at ih
            simpa [Group.core] using ih
          injection ih3 with ihd ihu ihr ihg2 ihe ihw ihl ihc
          have hh2 : (groupMembers l bn ++ [n]).head? = some e₀ := by
            rcases hm : groupMembers l bn with _ | ⟨x, xs⟩
            · rw [hm] at hh; exact absurd hh (by simp)
            · rw [hm] at hh; simpa using hh
          have hspec : groupCoreSpec (l ++ [n]) bn =
              some ⟨(if slotOf n = some .down then some n else lastSlot l bn .down),
                (if slotOf n = some .up then some n else lastSlot l bn .up),
                (if slotOf n = some .right then some n else lastSlot l bn .right),
                (if slotOf n = some .grd then some n else lastSlot l bn .grd),
                groupMembers l bn ++ [n], wheelOf e₀, none, none⟩ := by
            simp only [groupCoreSpec, hGM, hh2, hlast]
          rw [hspec]
          rcases hs : slotOf n with _ | s
          · simp [addToGroup, alistGet, hs, Group.core, ihd, ihu, ihr, ihg2, ihe, ihw,
              ihl, ihc]
          · cases s <;> simp [addToGroup, alistGet, hs, Group.core, ihd, ihu, ihr, ihg2,
              ihe, ihw, ihl, ihc]
    · -- a different base: the stored group and the spec are both untouched
      rw [alistGet_set_ne _ _ _ _ (fun h => hb h.symm), ih]
      have hbne : ¬baseOf n = b := by rw [hbase]; exact hb
      have hGM : groupMembers (l ++ [n]) b = groupMembers l b := by
        rw [groupMembers_append_single, if_neg hbne, List.append_nil]
      have hlastne : ∀ s : Slot, lastSlot (l ++ [n]) b s = lastSlot l b s := by
        intro s
        rw [lastSlot_append_single]
        simp [hbne]
      simp only [groupCoreSpec, hGM, hlastne]

theorem Group.core_toGroup (g : Group) : g.core.toGroup = g.sansOverrides := by
  cases g; rfl

theorem obsG_sans (g : Group) : obsG g.sansOverrides = obsG g := by
  cases g; rfl

theorem Group.core_sans (g : Group) : g.sansOverrides.core = g.core := by
  cases g; rfl

theorem obs_correlate (b : Str) (g : Group) (vars : List Str) :
    obsCore b g.core vars = obsG (correlateGroup b g vars) := by
  rw [obsCore, Group.core_toGroup, ← correlateGroup_sans, obsG_sans]

theorem obsG_correlate_ignores (b : Str) (vars : List Str) (d u r gr : Option Str)
    (w : Bool) (lv ct : Option Str) (e₁ e₂ : List Str) (o₁ o₂ : List (Str × JVal)) :
    obsG (correlateGroup b ⟨d, u, r, gr, e₁, w, lv, ct, o₁⟩ vars) =
      obsG (correlateGroup b ⟨d, u, r, gr, e₂, w, lv, ct, o₂⟩ vars) := by
  cases w <;> rcases d with _ | dv <;> rcases u with _ | uv <;>
    simp only [correlateGroup, obsG, Option.isSome_some, Option.isSome_none,
      Bool.true_and, Bool.false_and, Bool.and_true, Bool.and_false, Bool.not_true,
      Bool.not_false, if_true, if_false, Bool.false_eq_true] <;>
    first
      | rfl
      | (split <;> rfl)
      | (rcases hf : findLVariable dv vars with _ | v <;> simp [hf])

theorem groupEvents_obs (l : List RawEvent) (vars : List Str) (b : Str) :
    (alistGet (groupEvents l vars) b).map obsG =
      (groupCoreSpec (eventNames l) b).map (fun c => obsCore b c vars) := by
  have h1 : alistGet (groupEvents l vars) b =
      (alistGet (buildState l).groups b).map (fun g => correlateGroup b g vars) := by
    show alistGet ((buildState l).groups.map (fun p => (p.1, correlateGroup p.1 p.2 vars)))
        b = _
    exact alistGet_map _ (fun k g => correlateGroup k g vars) b
  have h2 : (alistGet (buildState l).groups b).map Group.core =
      groupCoreSpec (eventNames l) b := by
    have h3 := alistGet_strip (buildState l).groups b
    have h4 : stripGroups (buildState l).groups = (eventNames l).foldl nameStep [] := by
      have h5 := buildState_strip l ({} : GState)
      simpa [stripGroups, buildState] using h5
    have hstep1 : ∀ o : Option Group,
        o.map Group.core = (o.map Group.sansOverrides).map Group.core := by
      intro o
      rcases o with _ | g
      · rfl
      · show some g.core = some g.sansOverrides.core
        rw [Group.core_sans]
    rw [hstep1, ← h3, h4]
    exact nameFold_core _ _
  rw [h1, Option.map_map, ← h2, Option.map_map]
  congr 1
  funext g
  exact (obs_correlate b g vars).symm

theorem getLast?_eq_of_perm_allEq {α : Type} {l l' : List α} (hp : l.Perm l')
    (hall : ∀ x ∈ l, ∀ y ∈ l, x = y) : l.getLast? = l'.getLast? := by
  by_cases hne : l = []
  · subst hne
    rw [hp.symm.eq_nil]
  · have hne' : l' ≠ [] := fun h => hne (by rw [h] at hp; exact hp.eq_nil)
    rw [List.getLast?_eq_getLast l hne, List.getLast?_eq_getLast l' hne']
    congr 1
    exact hall _ (List.getLast_mem hne) _ (hp.mem_iff.mpr (List.getLast_mem hne'))

theorem groupCoreSpec_obs_perm (names₁ names₂ : List Str) (hp : names₁.Perm names₂)
    (h1 : ∀ x ∈ names₁, ∀ y ∈ names₁, baseOf x = baseOf y →
      slotOf x = slotOf y → slotOf x ≠ none → x = y)
    (h2 : ∀ x ∈ names₁, ∀ y ∈ names₁, baseOf x = baseOf y → wheelOf x = wheelOf y)
    (b : Str) (vars : List Str) :
    (groupCoreSpec names₁ b).map (fun c => obsCore b c vars) =
      (groupCoreSpec names₂ b).map (fun c => obsCore b c vars) := by
  have hmem : (groupMembers names₁ b).Perm (groupMembers names₂ b) :=
    hp.filter _
  have hmem_sub : ∀ x ∈ groupMembers names₁ b, x ∈ names₁ ∧ baseOf x = b := by
    intro x hx
    simp only [groupMembers, List.mem_filter, beq_iff_eq] at hx
    exact hx
  have hslot : ∀ s : Slot, lastSlot names₁ b s = lastSlot names₂ b s := by
    intro s
    apply getLast?_eq_of_perm_allEq (hmem.filter _)
    intro x hx y hy
    simp only [List.mem_filter, beq_iff_eq] at hx hy
    obtain ⟨hx1, hx2⟩ := hx
    obtain ⟨hy1, hy2⟩ := hy
    obtain ⟨hxn, hxb⟩ := hmem_sub x hx1
    obtain ⟨hyn, hyb⟩ := hmem_sub y hy1
    exact h1 x hxn y hyn (hxb.trans hyb.symm) (hx2.trans hy2.symm)
      (by rw [hx2]; exact Option.some_ne_none s)
  rcases hh1 : (groupMembers names₁ b).head? with _ | e₁
  · have hm1 : groupMembers names₁ b = [] := List.head?_eq_none_iff.mp hh1
    have hm2 : groupMembers names₂ b = [] := by
      rw [hm1] at hmem
      exact hmem.symm.eq_nil
    simp [groupCoreSpec, hm1, hm2]
  · have he₁ : e₁ ∈ groupMembers names₁ b := by
      rcases hm : groupMembers names₁ b with _ | ⟨x, xs⟩
      · rw [hm] at hh1; exact absurd hh1 (by simp)
      · rw [hm] at hh1
        simp only [List.head?_cons, Option.some.injEq] at hh1
        rw [hh1]; exact List.mem_cons_self _ _
    have hne2 : groupMembers names₂ b ≠ [] := by
      intro h
      rw [h] at hmem
      have := hmem.eq_nil
      rw [this] at he₁
      exact absurd he₁ (List.not_mem_nil e₁)
    rcases hh2 : (groupMembers names₂ b).head? with _ | e₂
    · exact absurd (List.head?_eq_none_iff.mp hh2) hne2
    · have he₂ : e₂ ∈ groupMembers names₁ b := by
        apply hmem.mem_iff.mpr
        rcases hm : groupMembers names₂ b with _ | ⟨x, xs⟩
        · exact absurd hm hne2
        · rw [hm] at hh2
          simp only [List.head?_cons, Option.some.injEq] at hh2
          rw [hh2]; exact List.mem_cons_self _ _
      have hw : wheelOf e₁ = wheelOf e₂ := by
        obtain ⟨h1n, h1b⟩ := hmem_sub e₁ he₁
        obtain ⟨h2n, h2b⟩ := hmem_sub e₂ he₂
        exact h2 e₁ h1n e₂ h2n (h1b.trans h2b.symm)
      simp only [groupCoreSpec, hh1, hh2]
      rw [hslot .down, hslot .up, hslot .right, hslot .grd, hw]
      simp only [obsCore, GroupCore.toGroup, Option.map_some']
      exact congrArg some (obsG_correlate_ignores b vars _ _ _ _ _ _ _ _ _ _ _)

theorem alistGet_isSome_iff_mem {κ : Type} [DecidableEq κ] {α : Type}
    (m : List (κ × α)) (k : κ) :
    (alistGet m k).isSome = true ↔ k ∈ m.map Prod.fst := by
  induction m with
  | nil => simp [alistGet]
  | cons p rest ih =>
    obtain ⟨k', v⟩ := p
    by_cases h : k' = k
    · subst h; simp [alistGet]
    · simp only [alistGet, if_neg h, List.map_cons, List.mem_cons]
      rw [ih]
      constructor
      · intro hm; exact Or.inr hm
      · rintro (hk | hm)
        · exact absurd hk.symm h
        · exact hm

theorem alistSet_keys {κ : Type} [DecidableEq κ] {α : Type}
    (m : List (κ × α)) (k : κ) (v : α) :
    (alistSet m k v).map Prod.fst =
      if (alistGet m k).isSome then m.map Prod.fst else m.map Prod.fst ++ [k] := by
  induction m with
  | nil => simp [alistGet, alistSet]
  | cons p rest ih =>
    obtain ⟨k', v'⟩ := p
    by_cases h : k' = k
    · subst h; simp [alistGet, alistSet]
    · have hg : alistGet ((k', v') :: rest) k = alistGet rest k := by
        simp [alistGet, h]
      have hset : alistSet ((k', v') :: rest) k v = (k', v') :: alistSet rest k v := by
        simp [alistSet, h]
      rw [hg, hset, List.map_cons, ih]
      by_cases hs : (alistGet rest k).isSome = true <;> simp [hs]

theorem nameFold_keys_nodup (names : List Str) :
    ∀ G : List (Str × Group), (G.map Prod.fst).Nodup →
      (((names.foldl nameStep G)).map Prod.fst).Nodup := by
  induction names with
  | nil => intro G h; exact h
  | cons n rest ih =>
    intro G h
    rw [List.foldl_cons]
    apply ih
    rcases hc : classifyEvent n with ⟨bn, isW⟩
    have hstep : nameStep G n = alistSet G bn
        (addToGroup (match alistGet G bn with
          | some g => g
          | none => { isWheel := isW : Group }) n []) := by
      simp [nameStep, hc]
    rw [hstep, alistSet_keys]
    by_cases hs : (alistGet G bn).isSome = true
    · simpa [hs] using h
    · rw [if_neg (by simp [hs])]
      have hnm : bn ∉ G.map Prod.fst := by
        intro hmem
        exact hs ((alistGet_isSome_iff_mem G bn).mpr hmem)
      simp [List.nodup_append, h, hnm]

theorem pairmap_fst {α β : Type} (m : List (Str × α)) (f : Str → α → β) :
    (m.map (fun p => (p.1, f p.1 p.2))).map Prod.fst = m.map Prod.fst := by
  simp [List.map_map, Function.comp]

theorem strLe_total (a : Str) : ∀ b : Str, strLe a b = true ∨ strLe b a = true := by
  induction a with
  | nil => intro b; left; rfl
  | cons c a' ih =>
    intro b
    cases b with
    | nil => right; rfl
    | cons d b' =>
      by_cases h : c = d
      · subst h
        rcases ih b' with h1 | h1
        · left; simpa [strLe] using h1
        · right; simpa [strLe] using h1
      · rcases lt_or_gt_of_ne h with hlt | hgt
        · left; simp [strLe, h, hlt]
        · right
          have hdc : ¬d = c := fun hh => h hh.symm
          simp [strLe, hdc, hgt]

theorem strLe_trans (a : Str) : ∀ b c : Str, strLe a b = true → strLe b c = true →
    strLe a c = true := by
  induction a with
  | nil => intro b c _ _; rfl
  | cons x a' ih =>
    intro b c hab hbc
    cases b with
    | nil => exact absurd hab (by simp [strLe])
    | cons y b' =>
      cases c with
      | nil => exact absurd hbc (by simp [strLe])
      | cons z c' =>
        by_cases hxy : x = y <;> by_cases hyz : y = z
        · subst hxy; subst hyz
          simp only [strLe, if_pos rfl] at hab hbc ⊢
          exact ih b' c' hab hbc
        · subst hxy
          simp only [strLe, if_pos rfl, if_neg hyz] at hbc
          simp only [strLe, if_neg hyz]
          exact hbc
        · subst hyz
          simp only [strLe, if_neg hxy] at hab
          simp only [strLe, if_neg hxy]
          exact hab
        · simp only [strLe, if_neg hxy] at hab
          simp only [strLe, if_neg hyz] at hbc
          simp only [decide_eq_true_eq] at hab hbc
          by_cases hxz : x = z
          · subst hxz
            exact absurd (lt_trans hab hbc) (lt_irrefl x)
          · simp [strLe, hxz, lt_trans hab hbc]

theorem strLe_antisymm (a : Str) : ∀ b : Str, strLe a b = true → strLe b a = true →
    a = b := by
  induction a with
  | nil =>
    intro b _ hba
    cases b with
    | nil => rfl
    | cons d b' => exact absurd hba (by simp [strLe])
  | cons c a' ih =>
    intro b hab hba
    cases b with
    | nil => exact absurd hab (by simp [strLe])
    | cons d b' =>
      by_cases h : c = d
      · subst h
        simp only [strLe, if_pos rfl] at hab hba
        rw [ih b' hab hba]
      · have hdc : ¬d = c := fun hh => h hh.symm
        simp only [strLe, if_neg h, decide_eq_true_eq] at hab
        simp only [strLe, if_neg hdc, decide_eq_true_eq] at hba
        exact absurd (lt_trans hab hba) (lt_irrefl c)

theorem sortKeys_eq_of_perm {l₁ l₂ : List Str} (h : l₁.Perm l₂) :
    sortKeys l₁ = sortKeys l₂ := by
  haveI : IsTotal Str (fun a b => strLe a b = true) := ⟨strLe_total⟩
  haveI : IsTrans Str (fun a b => strLe a b = true) := ⟨strLe_trans⟩
  haveI : IsAntisymm Str (fun a b => strLe a b = true) := ⟨strLe_antisymm⟩
  exact List.eq_of_perm_of_sorted
    (((List.perm_insertionSort _ l₁).trans h).trans (List.perm_insertionSort _ l₂).symm)
    (List.sorted_insertionSort _ l₁) (List.sorted_insertionSort _ l₂)

/-- Claim C4 (amended) — grouping is order-independent at the level of the
observable group structure: for any permutation of the raw entry list,
provided no two distinct events of the same group fill the same slot and
all events of a group agree on the wheel flag, every base carries the
same slots, wheel flag, correlated variable and control kind, and the
sorted base iteration order is identical.  (The rendered output *text*
is not permutation-invariant — see the counterexample — because each
group's comment is derived from its first member event in input order.) -/
theorem grouping_order_independent
    (l₁ l₂ : List RawEvent) (vars : List Str) (hperm : l₁.Perm l₂)
    (h1 : ∀ x ∈ eventNames l₁, ∀ y ∈ eventNames l₁, baseOf x = baseOf y →
      slotOf x = slotOf y → slotOf x ≠ none → x = y)
    (h2 : ∀ x ∈ eventNames l₁, ∀ y ∈ eventNames l₁, baseOf x = baseOf y →
      wheelOf x = wheelOf y) :
    (∀ b : Str, (alistGet (groupEvents l₁ vars) b).map obsG =
      (alistGet (groupEvents l₂ vars) b).map obsG) ∧
    sortKeys ((groupEvents l₁ vars).map Prod.fst) =
      sortKeys ((groupEvents l₂ vars).map Prod.fst) := by
  have hnames : (eventNames l₁).Perm (eventNames l₂) := (hperm.map _).filter _
  have hobs : ∀ b : Str, (alistGet (groupEvents l₁ vars) b).map obsG =
      (alistGet (groupEvents l₂ vars) b).map obsG := by
    intro b
    rw [groupEvents_obs, groupEvents_obs]
    exact groupCoreSpec_obs_perm _ _ hnames h1 h2 b vars
  refine ⟨hobs, ?_⟩
  apply sortKeys_eq_of_perm
  have hkeys : ∀ l : List RawEvent, (groupEvents l vars).map Prod.fst =
      ((eventNames l).foldl nameStep []).map Prod.fst := by
    intro l
    have ha : (groupEvents l vars).map Prod.fst = (buildState l).groups.map Prod.fst := by
      show ((buildState l).groups.map
        (fun p => (p.1, correlateGroup p.1 p.2 vars))).map Prod.fst = _
      exact pairmap_fst _ (fun k g => correlateGroup k g vars)
    have hb : (stripGroups (buildState l).groups).map Prod.fst =
        (buildState l).groups.map Prod.fst := by
      simp [stripGroups, List.map_map, Function.comp]
    have hcc : stripGroups (buildState l).groups = (eventNames l).foldl nameStep [] := by
      have h5 := buildState_strip l ({} : GState)
      simpa [stripGroups, buildState] using h5
    rw [ha, ← hb, hcc]
  have hnd : ∀ l : List RawEvent, ((groupEvents l vars).map Prod.fst).Nodup := by
    intro l
    rw [hkeys]
    exact nameFold_keys_nodup (eventNames l) [] (by simp)
  rw [List.perm_ext_iff_of_nodup (hnd l₁) (hnd l₂)]
  intro b
  rw [← alistGet_isSome_iff_mem, ← alistGet_isSome_iff_mem]
  have := hobs b
  constructor <;> intro hs
  · have h1s : ((alistGet (groupEvents l₁ vars) b).map obsG).isSome = true := by
      simpa using hs
    rw [this] at h1s
    simpa using h1s
  · have h2s : ((alistGet (groupEvents l₂ vars) b).map obsG).isSome = true := by
      simpa using hs
    rw [← this] at h2s
    simpa using h2s

/-- Counterexample to Claim C4 as stated: the two orderings of the same
press/release pair are permutations of one another, yet the rendered
output text differs (the descriptive comment is taken from the group's
first member event in input order). -/
theorem grouping_output_not_perm_invariant :
    ([RawEvent.plain (S "FOO_BT_LEFT_BUTTON_DOWN"),
      RawEvent.plain (S "FOO_BT_LEFT_BUTTON_UP")].Perm
      [RawEvent.plain (S "FOO_BT_LEFT_BUTTON_UP"),
       RawEvent.plain (S "FOO_BT_LEFT_BUTTON_DOWN")]) ∧
    generateYaml [] [] (S "cat")
        [.plain (S "FOO_BT_LEFT_BUTTON_DOWN"), .plain (S "FOO_BT_LEFT_BUTTON_UP")]
        (S "d") [] true ≠
      generateYaml [] [] (S "cat")
        [.plain (S "FOO_BT_LEFT_BUTTON_UP"), .plain (S "FOO_BT_LEFT_BUTTON_DOWN")]
        (S "d") [] true := by
  constructor
  · exact List.Perm.swap _ _ _
  · decide

/-- Witness for `grouping_order_independent`. -/
theorem grouping_order_independent_witness :
    (alistGet (groupEvents
        [.plain (S "FOO_BT_LEFT_BUTTON_DOWN"), .plain (S "FOO_BT_LEFT_BUTTON_UP")] [])
        (S "FOO_BT")).map obsG =
      (alistGet (groupEvents
        [.plain (S "FOO_BT_LEFT_BUTTON_UP"), .plain (S "FOO_BT_LEFT_BUTTON_DOWN")] [])
        (S "FOO_BT")).map obsG :=
  (grouping_order_independent
    [.plain (S "FOO_BT_LEFT_BUTTON_DOWN"), .plain (S "FOO_BT_LEFT_BUTTON_UP")]
    [.plain (S "FOO_BT_LEFT_BUTTON_UP"), .plain (S "FOO_BT_LEFT_BUTTON_DOWN")]
    [] (List.Perm.swap _ _ _) (by decide) (by decide)).1 (S "FOO_BT")

/-- Claim C1 (code bug) — the full-regeneration merge writes the
recomposed file to disk *before* validating it (source lines 924-933):
on this previously valid document (a multiline double-quoted scalar
whose continuation lines the line-oriented parser silently drops), the
recomposed text is structurally invalid (its opening quote is never
closed), the run exits fatally — and the on-disk document is the
freshly written invalid text, not the previous document. -/
theorem merge_writes_invalid_before_validation :
    validateOk (S "x: \"abc\ninclude:\n  - modules/m.yaml\n  def\"\nshared:\n") = true ∧
    mergeAllRun (some (S "x: \"abc\ninclude:\n  - modules/m.yaml\n  def\"\nshared:\n"))
        [] [] [] [] =
      MergeOutcome.mk (some (S "x: \"abc\n\ninclude:\n  - modules/m.yaml\n\nshared:\n"))
        true ∧
    validateOk (S "x: \"abc\n\ninclude:\n  - modules/m.yaml\n\nshared:\n") = false ∧
    (S "x: \"abc\n\ninclude:\n  - modules/m.yaml\n\nshared:\n") ≠
      (S "x: \"abc\ninclude:\n  - modules/m.yaml\n  def\"\nshared:\n") := by
  exact ⟨by decide, by decide, by decide, by decide⟩

/-- Claim C2 (code bug) — the full-regeneration classifier treats *every*
block containing `set:` as tool-generated: the category-prefix operand
in the source is a nonempty Python tuple (hence always truthy), so a
manually authored block whose write key contains no category-area
prefix and no `L:MD11_` reference is dropped by the merge instead of
surviving it. -/
theorem manual_set_block_dropped_by_full_merge :
    containsSub (S "  -\n    get: L:CUSTOM_VAR\n    set: (>K:MY_CUSTOM_THING)")
        (S "L:MD11_") = false ∧
    (catAreaMarkers.all
      (fun p => !containsSub (S "(>K:MY_CUSTOM_THING)") p)) = true ∧
    isGeneratedBlock (S "  -\n    get: L:CUSTOM_VAR\n    set: (>K:MY_CUSTOM_THING)")
        = true ∧
    mergeAllRun (some (S "# header\ninclude:\n  - modules/m.yaml\nshared:\n  -\n    get: L:CUSTOM_VAR\n    set: (>K:MY_CUSTOM_THING)\n"))
        [] [] [] [] =
      MergeOutcome.mk (some (S "# header\n\ninclude:\n  - modules/m.yaml\n\nshared:\n"))
        false ∧
    containsSub (S "# header\n\ninclude:\n  - modules/m.yaml\n\nshared:\n")
        (S "CUSTOM") = false := by
  exact ⟨by decide, by decide, by decide, by decide, by decide⟩

/-- Counterexample to Claim C8 as stated: an existing document that lacks
the `include:` marker is *not* treated as an empty document — parsing
raises (`ValueError`), the run aborts fatally, and nothing proceeds. -/
theorem nonconforming_doc_not_bootstrapped :
    parseAircraftYaml (some (S "hello")) = .error () ∧
    mergeAllRun (some (S "hello")) [] [] [] [] =
      MergeOutcome.mk (some (S "hello")) true := by
  exact ⟨by rfl, by decide⟩

/-- Claim C8 (amended) — only a *missing* document file is treated as the
empty bootstrap document; an existing document without an `include:`
line makes `parse_aircraft_yaml` raise, so the run aborts fatally with
the on-disk document untouched. -/
theorem missing_file_bootstraps_nonconforming_aborts
    (cats : List Category) (tooltips : List (Str × Str))
    (controls : List (Str × ControlInfo)) (vars : List Str) (content : Str)
    (h : ∀ line ∈ splitLines content, ¬strip line = S "include:") :
    parseAircraftYaml none = .ok defaultParsedDoc ∧
    mergeAllRun (some content) cats tooltips controls vars =
      MergeOutcome.mk (some content) true := by
  constructor
  · rfl
  · have hidx : (splitLines content).findIdx?
        (fun l => strip l = S "include:") = none := by
      rw [List.findIdx?_eq_none_iff]
      intro x hx
      simpa using h x hx
    simp [mergeAllRun, parseAircraftYaml, hidx]

/-- Witness for `missing_file_bootstraps_nonconforming_aborts`. -/
theorem missing_file_bootstraps_nonconforming_aborts_witness :
    parseAircraftYaml none = .ok defaultParsedDoc ∧
    mergeAllRun (some (S "hello")) [] [] [] [] =
      MergeOutcome.mk (some (S "hello")) true :=
  missing_file_bootstraps_nonconforming_aborts [] [] [] [] (S "hello") (by decide)

/-- Claim C3 counterexample — single-category merge is *not* byte-level
idempotent: on `c3Doc` (whose manual entry holds the double-quoted
scalar `"True"`) the first merge re-emits the value as `True` (Python
`str(True)` of the re-typed boolean), and the second merge, reading
`True` back as a boolean, prints it as `true`: the two outputs differ
in bytes.  (`generate.py` lines 1684–1696: existing entries are
re-serialised through `yaml.safe_load` / `format_entry_as_yaml`, which
is not the identity on non-canonical scalar spellings.) -/
theorem single_category_merge_not_byte_idempotent :
    ∃ c₁ c₂ : Str,
      mergeSingle (some c3Doc) c3Cat [] [] [] = .ok (some c₁) ∧
      mergeSingle (some c₁) c3Cat [] [] [] = .ok (some c₂) ∧
      c₁ ≠ c₂ :=
  ⟨c3One, c3Two, rfl, rfl, by decide⟩

/-! ## String-shape infrastructure for the C3 idempotence analysis -/

theorem isPrefixOf_mem {pat s : Str} (h : pat.isPrefixOf s = true) :
    ∀ c ∈ pat, c ∈ s := by
  intro c hc
  obtain ⟨t, ht⟩ := List.isPrefixOf_iff_prefix.mp h
  rw [← ht]
  exact List.mem_append_left _ hc

theorem infixAt_mem {pat s : Str} (h : infixAt pat s = true) : ∀ c ∈ pat, c ∈ s := by
  induction s with
  | nil =>
    intro c hc
    simp only [infixAt, List.isEmpty_iff] at h
    subst h
    exact absurd hc (List.not_mem_nil c)
  | cons a t ih =>
    intro c hc
    simp only [infixAt, Bool.or_eq_true] at h
    rcases h with h | h
    · exact isPrefixOf_mem h c hc
    · exact List.mem_cons_of_mem a (ih h c hc)

theorem ws_not_wordChar {c : Char} (h : isWS c = true) : isWordChar c = false := by
  simp only [isWS, Bool.or_eq_true, decide_eq_true_eq] at h
  rcases h with ((((h | h) | h) | h) | h) | h <;> subst h <;> decide

theorem wordChar_not_ws {c : Char} (h : isWordChar c = true) : isWS c = false := by
  cases hw : isWS c
  · rfl
  · rw [ws_not_wordChar hw] at h
    cases h

theorem wordChar_ne {c d : Char} (h : isWordChar c = true) (hd : isWordChar d = false) :
    c ≠ d := by
  intro he
  rw [he, hd] at h
  cases h

theorem lstrip_cons_ws {c : Char} (h : isWS c = true) (t : Str) :
    lstrip (c :: t) = lstrip t := by
  simp [lstrip, List.dropWhile_cons, h]

theorem lstrip_cons_not_ws {c : Char} (h : isWS c = false) (t : Str) :
    lstrip (c :: t) = c :: t := by
  simp [lstrip, List.dropWhile_cons, h]

theorem lstrip_all_not_ws {s : Str} (h : ∀ c ∈ s, isWS c = false) : lstrip s = s := by
  cases s with
  | nil => rfl
  | cons c t => exact lstrip_cons_not_ws (h c (by simp)) t

theorem rstrip_concat_not_ws {c : Char} (s : Str) (h : isWS c = false) :
    rstrip (s ++ [c]) = s ++ [c] := by
  simp [rstrip, List.dropWhile_cons, h]

theorem rstrip_append_ws {c : Char} (s : Str) (h : isWS c = true) :
    rstrip (s ++ [c]) = rstrip s := by
  simp [rstrip, List.dropWhile_cons, h]

theorem rstrip_all_not_ws {s : Str} (h : ∀ c ∈ s, isWS c = false) : rstrip s = s := by
  unfold rstrip
  rcases hr : s.reverse with _ | ⟨c, t⟩
  · rw [List.reverse_eq_nil_iff.mp hr]
    rfl
  · have hc : c ∈ s := by
      rw [← List.mem_reverse, hr]
      simp
    rw [List.dropWhile_cons, if_neg (by simp [h c hc]), ← hr, List.reverse_reverse]

theorem strip_all_not_ws {s : Str} (h : ∀ c ∈ s, isWS c = false) : strip s = s := by
  unfold strip
  rw [rstrip_all_not_ws h, lstrip_all_not_ws h]

theorem strip_ne_nil {s : Str} {c : Char} (hc : c ∈ s) (hw : isWS c = false) :
    strip s ≠ [] := by
  intro hemp
  unfold strip lstrip at hemp
  have h1 : ∀ x ∈ rstrip s, isWS x = true := by
    intro x hx
    simpa using List.dropWhile_eq_nil_iff.mp hemp x hx
  have h2 : c ∈ s.reverse := List.mem_reverse.mpr hc
  rw [← List.takeWhile_append_dropWhile (p := isWS) (l := s.reverse)] at h2
  rcases List.mem_append.mp h2 with h3 | h3
  · have := List.mem_takeWhile_imp h3
    simp [hw] at this
  · have : c ∈ rstrip s := by
      unfold rstrip
      exact List.mem_reverse.mpr h3
    simp [h1 c this] at hw

theorem isBlankLine_false_of_mem {l : Str} {c : Char} (hc : c ∈ l) (hw : isWS c = false) :
    isBlankLine l = false := by
  have hne := strip_ne_nil hc hw
  unfold isBlankLine
  cases h : (strip l).isEmpty
  · rfl
  · exact absurd (List.isEmpty_iff.mp h) hne

theorem nlc_eq : nlc = '\n' := by decide

theorem splitLinesAux_no_nl {s : Str} (h : ∀ ch ∈ s, ch ≠ nlc) :
    splitLinesAux s = (s, []) := by
  induction s with
  | nil => rfl
  | cons c t ih =>
    have hc : ¬c = '\n' := by
      rw [← nlc_eq]
      exact h c (by simp)
    have ht := ih (fun ch hch => h ch (by simp [hch]))
    simp [splitLinesAux, hc, ht]

theorem splitLines_no_nl {s : Str} (h : ∀ ch ∈ s, ch ≠ nlc) : splitLines s = [s] := by
  unfold splitLines
  rw [splitLinesAux_no_nl h]

theorem splitLinesAux_nl_append (a b : Str) :
    splitLinesAux (a ++ nlc :: b) =
      ((splitLinesAux a).1, (splitLinesAux a).2 ++ splitLines b) := by
  induction a with
  | nil =>
    simp [splitLinesAux, nlc_eq, splitLines]
  | cons c t ih =>
    by_cases hc : c = '\n' <;> simp [splitLinesAux, hc, ih]

theorem splitLines_nl_append (a b : Str) :
    splitLines (a ++ nlc :: b) = splitLines a ++ splitLines b := by
  simp [splitLines, splitLinesAux_nl_append]

theorem splitLines_append_last_nl (x : Str) :
    splitLines (x ++ [nlc]) = splitLines x ++ [[]] := by
  rw [show (x ++ [nlc] : Str) = x ++ nlc :: [] from rfl, splitLines_nl_append]
  rfl

theorem joinLines_single (l : Str) : joinLines [l] = l := by
  simp [joinLines, List.intercalate]

theorem joinLines_cons (l : Str) (ls : List Str) (h : ls ≠ []) :
    joinLines (l :: ls) = l ++ nlc :: joinLines ls := by
  rcases ls with _ | ⟨m, ms⟩
  · exact absurd rfl h
  · simp [joinLines, List.intercalate, nlc_eq]

theorem splitLines_joinLines (L : List Str) (hL : L ≠ [])
    (h : ∀ l ∈ L, ∀ ch ∈ l, ch ≠ nlc) :
    splitLines (joinLines L) = L := by
  induction L with
  | nil => exact absurd rfl hL
  | cons l ls ih =>
    rcases ls with _ | ⟨m, ms⟩
    · rw [joinLines_single, splitLines_no_nl (h l (by simp))]
    · rw [joinLines_cons l _ (by simp), splitLines_nl_append,
        splitLines_no_nl (h l (by simp)),
        ih (by simp) (fun x hx => h x (List.mem_cons_of_mem l hx))]
      rfl

theorem joinLines_splitLines (s : Str) : joinLines (splitLines s) = s := by
  induction s with
  | nil => rfl
  | cons c t ih =>
    by_cases hc : c = '\n'
    · subst hc
      have h1 : splitLines ('\n' :: t) = [] :: splitLines t := by
        simp [splitLines, splitLinesAux]
      rw [h1, joinLines_cons _ _ (by simp [splitLines]), ih]
      simp [nlc_eq]
    · have h1 : splitLines (c :: t) =
          (c :: (splitLinesAux t).1) :: (splitLinesAux t).2 := by
        simp [splitLines, splitLinesAux, hc]
      rw [h1]
      rcases h2 : (splitLinesAux t).2 with _ | ⟨m, ms⟩
      · have ht : (splitLinesAux t).1 = t := by
          have hi := ih
          rw [show splitLines t = [(splitLinesAux t).1] by simp [splitLines, h2],
            joinLines_single] at hi
          exact hi
        rw [joinLines_single, ht]
      · have hI : joinLines ((splitLinesAux t).1 :: m :: ms) = t := by
          have hi := ih
          rw [show splitLines t = (splitLinesAux t).1 :: m :: ms by
            simp [splitLines, h2]] at hi
          exact hi
        rw [joinLines_cons _ _ (by simp)] at hI
        rw [joinLines_cons _ _ (by simp), List.cons_append, hI]

theorem joinLines_append_last (L : List Str) (l : Str) (h : L ≠ []) :
    joinLines (L ++ [l]) = joinLines L ++ nlc :: l := by
  induction L with
  | nil => exact absurd rfl h
  | cons x xs ih =>
    rcases xs with _ | ⟨y, ys⟩
    · rw [joinLines_single]
      show joinLines [x, l] = x ++ nlc :: l
      rw [joinLines_cons _ _ (by simp), joinLines_single]
    · rw [List.cons_append, joinLines_cons _ _ (by simp),
        joinLines_cons _ _ (by simp), ih (by simp), List.append_assoc]
      rfl

theorem splitLines_joinLines_flatten (L : List Str) (hL : L ≠ []) :
    splitLines (joinLines L) = (L.map splitLines).flatten := by
  induction L with
  | nil => exact absurd rfl hL
  | cons x xs ih =>
    rcases xs with _ | ⟨y, ys⟩
    · simp [joinLines_single]
    · rw [joinLines_cons _ _ (by simp), splitLines_nl_append, ih (by simp)]
      simp

theorem dropWhile_head_false {α : Type} (p : α → Bool) (l : List α) :
    ∀ c t, l.dropWhile p = c :: t → p c = false := by
  induction l with
  | nil =>
    intro c t h
    cases h
  | cons a l ih =>
    intro c t h
    rw [List.dropWhile_cons] at h
    by_cases ha : p a = true
    · rw [if_pos (by simp [ha])] at h
      exact ih c t h
    · rw [if_neg (by simp [ha])] at h
      injection h with h1 _
      rw [← h1]
      exact Bool.not_eq_true _ ▸ ha

theorem rstrip_shape (s : Str) :
    rstrip s = [] ∨ ∃ t c, rstrip s = t ++ [c] ∧ isWS c = false := by
  unfold rstrip
  rcases hd : s.reverse.dropWhile isWS with _ | ⟨c, t⟩
  · left
    simp [hd]
  · right
    exact ⟨t.reverse, c, by simp [hd], dropWhile_head_false isWS s.reverse c t hd⟩

theorem rstrip_idem (s : Str) : rstrip (rstrip s) = rstrip s := by
  rcases rstrip_shape s with h | ⟨t, c, h, hw⟩
  · rw [h]
    rfl
  · rw [h, rstrip_concat_not_ws t hw]

/-! ## Scalar resolution lemmas: well-shaped value texts parse to
themselves -/

theorem plainSafeHead_ne {c d : Char} (h : plainSafeHead c = true)
    (hd : plainSafeHead d = false) : c ≠ d := by
  intro he
  rw [he, hd] at h
  cases h

theorem plainSafeHead_not_digit {c : Char} (h : plainSafeHead c = true) :
    isDigitCh c = false := by
  cases hd : isDigitCh c
  · rfl
  · rw [plainSafeHead, hd] at h
    simp at h

theorem plainSafeHead_not_indicator {c : Char} (h : plainSafeHead c = true) :
    yamlIndicator c = false := by
  cases hd : yamlIndicator c
  · rfl
  · rw [plainSafeHead, hd] at h
    simp at h

theorem alistGet_none_of_head {α : Type} (m : List (Str × α)) (v : Str)
    (h : ∀ p ∈ m, p.1.head? ≠ v.head?) : alistGet m v = none := by
  induction m with
  | nil => rfl
  | cons p rest ih =>
    obtain ⟨k, a⟩ := p
    rw [alistGet, if_neg]
    · exact ih (fun q hq => h q (List.mem_cons_of_mem _ hq))
    · intro he
      exact h (k, a) (by simp) (by rw [he])

theorem boolWords_heads :
    ∀ p ∈ boolWords, p.1.head?.all (fun c => !plainSafeHead c) = true := by
  decide

theorem nullWords_heads :
    ∀ w ∈ nullWords, w.head?.all (fun c => !plainSafeHead c) = true := by
  decide

theorem boolWords_none {v : Str} {c₀ : Char} (hv : v.head? = some c₀)
    (hps : plainSafeHead c₀ = true) : alistGet boolWords v = none := by
  apply alistGet_none_of_head
  intro p hp
  have hall := boolWords_heads p hp
  rw [hv]
  intro he
  rw [he] at hall
  simp only [Option.all_some, Bool.not_eq_true'] at hall
  rw [hall] at hps
  cases hps

theorem nullWords_not_mem {v : Str} {c₀ : Char} (hv : v.head? = some c₀)
    (hps : plainSafeHead c₀ = true) : ¬v ∈ nullWords := by
  intro hmem
  have hall := nullWords_heads v hmem
  rw [hv] at hall
  simp only [Option.all_some, Bool.not_eq_true'] at hall
  rw [hall] at hps
  cases hps

theorem resolvePlain_safe {c₀ : Char} {vt : Str} (hps : plainSafeHead c₀ = true)
    (hnc : containsSub (c₀ :: vt) (S ": ") = false)
    (hec : endsWith (c₀ :: vt) (S ":") = false) :
    resolvePlain (c₀ :: vt) = some (.ystr (c₀ :: vt)) := by
  have hv : (c₀ :: vt).head? = some c₀ := rfl
  have hbw := boolWords_none hv hps
  have hnw := nullWords_not_mem hv hps
  have hdig := plainSafeHead_not_digit hps
  have hind := plainSafeHead_not_indicator hps
  have hplus : ¬c₀ = '+' := plainSafeHead_ne hps (by decide)
  have hminus : ¬c₀ = '-' := plainSafeHead_ne hps (by decide)
  have hdot : ¬c₀ = '.' := plainSafeHead_ne hps (by decide)
  have hnullc : ¬(nullWords.contains (c₀ :: vt) = true) := by
    intro h
    exact hnw (by simpa using h)
  rw [resolvePlain, if_neg hnullc, hbw]
  have hnd : allDigits (c₀ :: vt) = false := by
    simp [allDigits, List.all_cons, hdig]
  rw [if_neg (by simp [hnd])]
  rw [if_neg (by simp [hv, hplus, hminus])]
  simp only [hv]
  rw [if_neg (by simp [hdig, hplus, hminus, hdot]), if_neg (by simp [hind]),
    if_neg (by simp [hnc, hec])]

theorem parseScalar_plain {c₀ : Char} {vt : Str} (hps : plainSafeHead c₀ = true)
    (hall : ∀ ch ∈ c₀ :: vt, isWS ch = false)
    (hec : endsWith (c₀ :: vt) (S ":") = false) :
    parseScalar (' ' :: c₀ :: vt) = some (.ystr (c₀ :: vt)) := by
  have hstrip : strip (' ' :: c₀ :: vt) = c₀ :: vt := by
    unfold strip
    have hr : rstrip (' ' :: c₀ :: vt) = ' ' :: c₀ :: vt := by
      rcases List.eq_nil_or_concat (c₀ :: vt) with h | ⟨t, c, h⟩
      · cases h
      · rw [List.concat_eq_append] at h
        have hcm : c ∈ c₀ :: vt := by
          rw [h]
          simp
        rw [h, show (' ' :: (t ++ [c]) : Str) = (' ' :: t) ++ [c] from rfl]
        exact rstrip_concat_not_ws _ (hall c hcm)
    rw [hr, lstrip_cons_ws (by decide), lstrip_cons_not_ws (hall c₀ (by simp))]
  have hhash : containsSub (c₀ :: vt) (S " #") = false := by
    cases h : containsSub (c₀ :: vt) (S " #")
    · rfl
    · have hm := infixAt_mem (show infixAt (S " #") (c₀ :: vt) = true from h) ' ' (by decide)
      exact absurd (hall ' ' hm) (by decide)
  have hcol : containsSub (c₀ :: vt) (S ": ") = false := by
    cases h : containsSub (c₀ :: vt) (S ": ")
    · rfl
    · have hm := infixAt_mem (show infixAt (S ": ") (c₀ :: vt) = true from h) ' ' (by decide)
      exact absurd (hall ' ' hm) (by decide)
  have hdq : ¬c₀ = dqc := plainSafeHead_ne hps (by decide)
  have hsq : ¬c₀ = sqc := plainSafeHead_ne hps (by decide)
  rw [parseScalar]
  simp only [hstrip]
  rw [if_neg (by simp), if_neg (by simp [hdq]), if_neg (by simp [hsq]),
    if_neg (by simp [hhash])]
  exact resolvePlain_safe hps hcol (by exact hec)

theorem parseScalar_quoted (body : Str)
    (hb : ∀ ch ∈ body, ¬ch = dqc ∧ ¬ch = '\\') :
    parseScalar (' ' :: (dqc :: (body ++ [dqc]))) = some (.ystr body) := by
  have hstrip : strip (' ' :: (dqc :: (body ++ [dqc]))) = dqc :: (body ++ [dqc]) := by
    unfold strip
    have hr : rstrip (' ' :: (dqc :: (body ++ [dqc]))) = ' ' :: (dqc :: (body ++ [dqc])) := by
      have h2 := rstrip_concat_not_ws (' ' :: dqc :: body) (c := dqc) (by decide)
      simpa using h2
    rw [hr, lstrip_cons_ws (by decide), lstrip_cons_not_ws (by decide)]
  have h1 : (dqc :: (body ++ [dqc])).length = body.length + 2 := by
    simp
  have h2 : (dqc :: (body ++ [dqc])).getLast? = some dqc := by
    have := List.getLast?_concat (dqc :: body) (a := dqc)
    simpa using this
  have h3 : (body ++ [dqc]).take body.length = body := List.take_left body [dqc]
  have h4 : body.all (fun c => decide (c ≠ dqc) && decide (c ≠ '\\')) = true := by
    rw [List.all_eq_true]
    intro c hc
    simp [(hb c hc).1, (hb c hc).2]
  rw [parseScalar]
  simp only [hstrip]
  rw [if_neg (by simp),
    if_pos (show (dqc :: (body ++ [dqc])).head? = some dqc from rfl), if_pos]
  · show some (YVal.ystr (((dqc :: (body ++ [dqc])).drop 1).take
      ((dqc :: (body ++ [dqc])).length - 2))) = some (YVal.ystr body)
    rw [h1]
    show some (YVal.ystr ((body ++ [dqc]).take (body.length + 2 - 2))) =
      some (YVal.ystr body)
    rw [Nat.add_sub_cancel, h3]
  · rw [h1, h2]
    show (decide (body.length + 2 ≥ 2) && decide ((some dqc : Option Char) = some dqc) &&
      ((body ++ [dqc]).take (body.length + 2 - 2)).all
        (fun c => decide (c ≠ dqc) && decide (c ≠ '\\'))) = true
    have hA : decide (body.length + 2 ≥ 2) = true :=
      decide_eq_true (Nat.le_add_left 2 body.length)
    have hB : decide ((some dqc : Option Char) = some dqc) = true := by simp
    rw [Nat.add_sub_cancel, h3, hA, hB, h4]
    rfl

/-! ## Field-line parsing of shaped lines -/

theorem findIdx_fresh_prefix (p : Char → Bool) (xs : Str) (y : Char) (ys : Str)
    (hxs : ∀ c ∈ xs, p c = false) (hy : p y = true) :
    (xs ++ y :: ys).findIdx p = xs.length := by
  induction xs with
  | nil => simp [List.findIdx_cons, hy]
  | cons c t ih =>
    rw [List.cons_append, List.findIdx_cons, hxs c (by simp)]
    simp only [cond_false]
    rw [ih (fun d hd => hxs d (by simp [hd]))]
    rfl

theorem parseFieldLine_shaped (c₀ : Char) (kt r : Str) (val : YVal)
    (hkw : (c₀ :: kt).all isWordChar = true)
    (hscal : parseScalar (' ' :: r) = some val) :
    parseFieldLine (S "    " ++ (c₀ :: kt) ++ S ": " ++ r) = some (c₀ :: kt, val) := by
  have hc0 : isWordChar c₀ = true := by
    rw [List.all_cons, Bool.and_eq_true] at hkw
    exact hkw.1
  have hktw : ∀ c ∈ c₀ :: kt, isWordChar c = true := List.all_eq_true.mp hkw
  have hshape : S "    " ++ (c₀ :: kt) ++ S ": " ++ r =
      ' ' :: ' ' :: ' ' :: ' ' :: (c₀ :: (kt ++ ':' :: ' ' :: r)) := by
    simp [S]
  rw [hshape, parseFieldLine]
  have hsw : startsWith (' ' :: ' ' :: ' ' :: ' ' :: (c₀ :: (kt ++ ':' :: ' ' :: r)))
      (S "    ") = true := by
    simp [startsWith, S, List.isPrefixOf]
  have hsw5 : startsWith (' ' :: ' ' :: ' ' :: ' ' :: (c₀ :: (kt ++ ':' :: ' ' :: r)))
      (S "     ") = false := by
    have : ¬(' ' = c₀) := fun h => wordChar_ne hc0 (by decide) h.symm
    simp [startsWith, S, List.isPrefixOf, this]
  rw [if_pos (by simp [hsw, hsw5])]
  have hdrop : (' ' :: ' ' :: ' ' :: ' ' :: (c₀ :: (kt ++ ':' :: ' ' :: r))).drop 4 =
      c₀ :: (kt ++ ':' :: ' ' :: r) := rfl
  simp only [hdrop]
  have hfind : (c₀ :: (kt ++ ':' :: ' ' :: r)).findIdx (fun c => c = ':') =
      (c₀ :: kt).length := by
    rw [show (c₀ :: (kt ++ ':' :: ' ' :: r) : Str) = (c₀ :: kt) ++ ':' :: ' ' :: r from rfl]
    refine findIdx_fresh_prefix _ _ _ _ ?_ (by simp)
    intro c hc
    simp only [decide_eq_false_iff_not]
    exact wordChar_ne (hktw c hc) (by decide)
  simp only [hfind]
  have hlen2 : (c₀ :: (kt ++ ':' :: ' ' :: r)).length = (c₀ :: kt).length + 2 + r.length := by
    simp
    omega
  rw [if_neg (by simp [hlen2]; omega)]
  have htake : (c₀ :: (kt ++ ':' :: ' ' :: r)).take (c₀ :: kt).length = c₀ :: kt := by
    rw [show (c₀ :: (kt ++ ':' :: ' ' :: r) : Str) = (c₀ :: kt) ++ ':' :: ' ' :: r from rfl]
    exact List.take_left _ _
  simp only [htake]
  rw [if_neg (by simp [hkw])]
  have hafter : (c₀ :: (kt ++ ':' :: ' ' :: r)).drop ((c₀ :: kt).length + 1) = ' ' :: r := by
    rw [show (c₀ :: (kt ++ ':' :: ' ' :: r) : Str) = ((c₀ :: kt) ++ [':']) ++ ' ' :: r by simp,
      show (c₀ :: kt : Str).length + 1 = ((c₀ :: kt : Str) ++ [':']).length by simp]
    exact List.drop_left _ _
  simp only [hafter]
  rw [if_neg (by simp), if_pos (show (' ' :: r).head? = some ' ' from rfl), hscal]
  rfl

theorem fieldLine_class (c₀ : Char) (kt r : Str)
    (hkw : (c₀ :: kt).all isWordChar = true) :
    isBlankLine (S "    " ++ (c₀ :: kt) ++ S ": " ++ r) = false ∧
    isCommentLine (S "    " ++ (c₀ :: kt) ++ S ": " ++ r) = false ∧
    isDashLine (S "    " ++ (c₀ :: kt) ++ S ": " ++ r) = false := by
  have hc0 : isWordChar c₀ = true := by
    rw [List.all_cons, Bool.and_eq_true] at hkw
    exact hkw.1
  have hshape : S "    " ++ (c₀ :: kt) ++ S ": " ++ r =
      ' ' :: ' ' :: ' ' :: ' ' :: (c₀ :: (kt ++ ':' :: ' ' :: r)) := by
    simp [S]
  rw [hshape]
  refine ⟨?_, ?_, ?_⟩
  · exact isBlankLine_false_of_mem (c := ':') (by simp) (by decide)
  · unfold isCommentLine
    rw [lstrip_cons_ws (by decide), lstrip_cons_ws (by decide), lstrip_cons_ws (by decide),
      lstrip_cons_ws (by decide), lstrip_cons_not_ws (wordChar_not_ws hc0)]
    have : ¬('#' = c₀) := fun h => wordChar_ne hc0 (by decide) h.symm
    simp [startsWith, S, List.isPrefixOf, this]
  · unfold isDashLine
    simp [startsWith, S, List.isPrefixOf]

/-! ## Dash-line facts -/

theorem isDashLine_comment (c : Str) : isDashLine (S "  - # " ++ c) = true := by
  have hshape : S "  - # " ++ c = ' ' :: ' ' :: '-' :: ' ' :: '#' :: ' ' :: c := by
    simp [S]
  rw [hshape]
  unfold isDashLine
  rw [Bool.and_eq_true]
  constructor
  · simp [startsWith, S, List.isPrefixOf]
  · have hdrop : (' ' :: ' ' :: '-' :: ' ' :: '#' :: ' ' :: c).drop 3 =
        ' ' :: '#' :: ' ' :: c := rfl
    rw [hdrop, Bool.or_eq_true]
    right
    rw [lstrip_cons_ws (by decide), lstrip_cons_not_ws (by decide)]
    simp [startsWith, S, List.isPrefixOf]

theorem dash_comment_class (c : Str) :
    isBlankLine (S "  - # " ++ c) = false ∧ isCommentLine (S "  - # " ++ c) = false := by
  have hshape : S "  - # " ++ c = ' ' :: ' ' :: '-' :: ' ' :: '#' :: ' ' :: c := by
    simp [S]
  rw [hshape]
  constructor
  · exact isBlankLine_false_of_mem (c := '-') (by simp) (by decide)
  · unfold isCommentLine
    rw [lstrip_cons_ws (by decide), lstrip_cons_ws (by decide),
      lstrip_cons_not_ws (by decide)]
    simp [startsWith, S, List.isPrefixOf]

theorem dash_plain_facts :
    isDashLine (S "  -") = true ∧ isBlankLine (S "  -") = false ∧
      isCommentLine (S "  -") = false := by
  decide

/-! ## Parsing block-form line lists -/

theorem alistSet_fresh {κ : Type} [DecidableEq κ] {α : Type} (m : List (κ × α)) (k : κ)
    (v : α) (h : ∀ q ∈ m, q.1 ≠ k) : alistSet m k v = m ++ [(k, v)] := by
  induction m with
  | nil => rfl
  | cons p rest ih =>
    obtain ⟨k0, v0⟩ := p
    rw [alistSet, if_neg (h (k0, v0) (by simp)), ih (fun q hq => h q (by simp [hq]))]
    rfl

theorem foldl_alistSet_pairs {κ : Type} [DecidableEq κ] {α : Type} :
    ∀ (ps m : List (κ × α)), (ps.map Prod.fst).Nodup →
      (∀ p ∈ ps, ∀ q ∈ m, q.1 ≠ p.1) →
      ps.foldl (fun a p => alistSet a p.1 p.2) m = m ++ ps := by
  intro ps
  induction ps with
  | nil =>
    intro m _ _
    simp
  | cons p pt ih =>
    intro m hnd hfresh
    rw [List.map_cons, List.nodup_cons] at hnd
    obtain ⟨hpnot, hnd2⟩ := hnd
    rw [List.foldl_cons, alistSet_fresh m p.1 p.2 (fun q hq => hfresh p (by simp) q hq),
      ih (m ++ [(p.1, p.2)]) hnd2]
    · simp
    · intro q hq r hr
      rcases List.mem_append.mp hr with h | h
      · exact hfresh q (by simp [hq]) r h
      · rw [List.mem_singleton] at h
        subst h
        intro he
        exact hpnot (he ▸ List.mem_map_of_mem Prod.fst hq)

theorem foldl_alistSet_fields (fs : List FieldSpec)
    (hnd : (fs.map FieldSpec.key).Nodup) :
    fs.foldl (fun a f => alistSet a f.key f.val) ([] : Entry) = entryOf fs := by
  have h1 : fs.foldl (fun a f => alistSet a f.key f.val) ([] : Entry) =
      (fs.map (fun f => (f.key, f.val))).foldl (fun a p => alistSet a p.1 p.2) [] := by
    rw [List.foldl_map]
  rw [h1, foldl_alistSet_pairs _ [] (by rw [List.map_map]; exact hnd)
    (by intro p hp q hq; cases hq)]
  rfl

theorem parseEntriesAux_fields (fs : List FieldSpec) (hg : ∀ f ∈ fs, GoodField f) :
    ∀ (rest : List Str) (acc : Entry),
      parseEntriesAux (fs.map fieldLineOf ++ rest) (some acc) =
        parseEntriesAux rest (some (fs.foldl (fun a f => alistSet a f.key f.val) acc)) := by
  induction fs with
  | nil =>
    intro rest acc
    simp
  | cons f ft ih =>
    intro rest acc
    obtain ⟨hk, hkw, hpf⟩ := hg f (by simp)
    obtain ⟨c₀, kt, hkey⟩ : ∃ c₀ kt, f.key = c₀ :: kt := by
      rcases hh : f.key with _ | ⟨a, b⟩
      · exact absurd hh hk
      · exact ⟨a, b, rfl⟩
    have hkw2 : (c₀ :: kt).all isWordChar = true := by
      rw [← hkey]
      exact hkw
    have hcls := fieldLine_class c₀ kt f.raw hkw2
    have hline : fieldLineOf f = S "    " ++ (c₀ :: kt) ++ S ": " ++ f.raw := by
      rw [fieldLineOf, hkey]
    have hpf2 : parseFieldLine (S "    " ++ (c₀ :: kt) ++ S ": " ++ f.raw) =
        some (f.key, f.val) := by
      rw [← hline]
      exact hpf
    rw [List.map_cons, List.cons_append, parseEntriesAux, hline, hcls.1, hcls.2.1,
      hcls.2.2]
    simp only [Bool.or_self, Bool.false_eq_true, if_false, hpf2]
    rw [ih (fun g hg2 => hg g (by simp [hg2])) rest (alistSet acc f.key f.val)]
    rfl

theorem blocks_parse {lines : List Str} {specs : List (List FieldSpec)}
    (h : Blocks lines specs) :
    parseEntriesAux lines none = some (specs.map entryOf) ∧
      ∀ e : Entry, e ≠ [] →
        parseEntriesAux lines (some e) = some (e :: specs.map entryOf) := by
  induction h with
  | nil =>
    constructor
    · rfl
    · intro e he
      have hee : e.isEmpty = false := by
        rcases e with _ | _
        · exact absurd rfl he
        · rfl
      simp [parseEntriesAux, hee]
  | blank rest specs hb ih =>
    have hbl : isBlankLine ([] : Str) = true := by decide
    constructor
    · rw [parseEntriesAux, hbl]
      simp only [Bool.true_or, if_true]
      exact ih.1
    · intro e he
      rw [parseEntriesAux, hbl]
      simp only [Bool.true_or, if_true]
      exact ih.2 e he
  | block dash fs rest specs hd hb hc hnl hfs hgood hnd hraw hrest ih =>
    have hene : entryOf fs ≠ [] := by
      rcases fs with _ | ⟨f, ft⟩
      · exact absurd rfl hfs
      · simp [entryOf]
    have hfields := parseEntriesAux_fields fs hgood rest []
    rw [foldl_alistSet_fields fs hnd] at hfields
    have hrest2 := ih.2 (entryOf fs) hene
    constructor
    · rw [parseEntriesAux, hb, hc]
      simp only [Bool.or_self, Bool.false_eq_true, if_false]
      rw [hd]
      simp only [if_true]
      rw [hfields, hrest2]
      rfl
    · intro e he
      have hee : e.isEmpty = false := by
        rcases e with _ | _
        · exact absurd rfl he
        · rfl
      rw [parseEntriesAux, hb, hc]
      simp only [Bool.or_self, Bool.false_eq_true, if_false]
      rw [hd]
      simp only [if_true, hee]
      rw [hfields, hrest2]
      rfl

theorem blocks_append {l₁ l₂ : List Str} {s₁ s₂ : List (List FieldSpec)}
    (h₁ : Blocks l₁ s₁) (h₂ : Blocks l₂ s₂) : Blocks (l₁ ++ l₂) (s₁ ++ s₂) := by
  induction h₁ with
  | nil => simpa using h₂
  | blank rest specs hb ih => exact Blocks.blank _ _ ih
  | block dash fs rest specs hd hb hc hnl hfs hgood hnd hraw hrest ih =>
    have hstep := Blocks.block dash fs (rest ++ l₂) (specs ++ s₂) hd hb hc hnl hfs
      hgood hnd hraw ih
    rw [List.cons_append, List.append_assoc]
    exact hstep

theorem blocks_blank_single : Blocks [[]] [] := Blocks.blank [] [] Blocks.nil

theorem blocks_nl_free {lines : List Str} {specs : List (List FieldSpec)}
    (h : Blocks lines specs) : ∀ l ∈ lines, ∀ ch ∈ l, ch ≠ nlc := by
  induction h with
  | nil =>
    intro l hl
    cases hl
  | blank rest specs hb ih =>
    intro l hl
    rcases List.mem_cons.mp hl with rfl | hl
    · intro ch hch
      cases hch
    · exact ih l hl
  | block dash fs rest specs hd hb hc hnl hfs hgood hnd hraw hrest ih =>
    intro l hl
    rcases List.mem_cons.mp hl with rfl | hl
    · exact hnl
    · rcases List.mem_append.mp hl with hl | hl
      · obtain ⟨f, hf, rfl⟩ := List.mem_map.mp hl
        obtain ⟨hk, hkw, _⟩ := hgood f hf
        obtain ⟨hrnl, _⟩ := hraw f hf
        intro ch hch
        rw [fieldLineOf] at hch
        simp only [S, List.append_assoc, List.mem_append] at hch
        rcases hch with hch | hch | hch | hch
        · intro he
          subst he
          revert hch
          decide
        · have := List.all_eq_true.mp hkw ch hch
          exact wordChar_ne this (by decide)
        · intro he
          subst he
          revert hch
          decide
        · exact hrnl ch hch
      · exact ih l hl

theorem entryOf_set_isSome {fs : List FieldSpec}
    (h : S "set" ∈ fs.map FieldSpec.key) :
    (alistGet (entryOf fs) (S "set")).isSome = true := by
  rw [alistGet_isSome_iff_mem]
  rw [show (entryOf fs).map Prod.fst = fs.map FieldSpec.key from by
    rw [entryOf, List.map_map]; rfl]
  exact h

/-! ## Character preservation through the render-path string functions -/

theorem beforeFirst_subset (pat : Str) : ∀ (s : Str), ∀ c ∈ beforeFirst pat s, c ∈ s := by
  intro s
  induction s with
  | nil =>
    intro c hc
    cases hc
  | cons a t ih =>
    intro c hc
    rw [beforeFirst] at hc
    by_cases h : (pat.isPrefixOf (a :: t) && !pat.isEmpty) = true
    · rw [if_pos h] at hc
      cases hc
    · rw [if_neg h] at hc
      rcases List.mem_cons.mp hc with rfl | hc
      · simp
      · exact List.mem_cons_of_mem _ (ih c hc)

theorem pyReplaceAux_mem (pat rep : Str) (P : Char → Prop) :
    ∀ (fuel : Nat) (s : Str), (∀ c ∈ s, P c) → (∀ c ∈ rep, P c) →
      ∀ c ∈ pyReplaceAux pat rep fuel s, P c := by
  intro fuel
  induction fuel with
  | zero =>
    intro s hs _ c hc
    exact hs c hc
  | succ n ih =>
    intro s hs hrep c hc
    rcases s with _ | ⟨a, t⟩
    · cases hc
    · rw [pyReplaceAux] at hc
      by_cases h : (pat.isPrefixOf (a :: t) && !pat.isEmpty) = true
      · rw [if_pos h] at hc
        rcases List.mem_append.mp hc with h2 | h2
        · exact hrep c h2
        · refine ih _ ?_ hrep c h2
          intro d hd
          exact hs d (List.mem_cons_of_mem a (List.mem_of_mem_drop hd))
      · rw [if_neg h] at hc
        rcases List.mem_cons.mp hc with rfl | h2
        · exact hs c (by simp)
        · exact ih t (fun d hd => hs d (List.mem_cons_of_mem a hd)) hrep c h2

theorem pyReplace_mem (pat rep s : Str) (P : Char → Prop) (hs : ∀ c ∈ s, P c)
    (hrep : ∀ c ∈ rep, P c) : ∀ c ∈ pyReplace pat rep s, P c :=
  pyReplaceAux_mem pat rep P s.length s hs hrep

theorem mem_S_wordChar {c : Char} {lit : String} (hlit : (S lit).all isWordChar = true)
    (h : c ∈ S lit) : isWordChar c = true :=
  List.all_eq_true.mp hlit c h

theorem brtKbBase_wordChar {e : Str} (h : ∀ c ∈ e, isWordChar c = true) :
    ∀ c ∈ brtKbBase e, isWordChar c = true := by
  rw [brtKbBase]
  rcases hm : lazySplit e 8 (fun p => endsWith p (S "_BRT_KB"))
      (fun r => startsWith r (S "_WHEEL_UP") || startsWith r (S "_WHEEL_DOWN")) with _ | i
  · intro c hc
    rcases List.mem_append.mp hc with h2 | h2
    · exact h c (beforeFirst_subset _ e c h2)
    · exact mem_S_wordChar (by decide) h2
  · intro c hc
    exact h c (List.take_subset i e hc)

theorem kbBase_wordChar {e : Str} (h : ∀ c ∈ e, isWordChar c = true) :
    ∀ c ∈ kbBase e, isWordChar c = true := by
  rw [kbBase]
  rcases hm : lazySplit e 4 (fun p => endsWith p (S "_KB"))
      (fun r => startsWith r (S "_WHEEL_UP") || startsWith r (S "_WHEEL_DOWN")) with _ | i
  · rcases hm2 : lazySplit e 1 (fun _ => true)
        (fun r => startsWith r (S "_KB_WHEEL_UP") || startsWith r (S "_KB_WHEEL_DOWN"))
      with _ | i
    · intro c hc
      exact mem_S_wordChar (by decide) hc
    · intro c hc
      rcases List.mem_append.mp hc with h2 | h2
      · exact h c (List.take_subset i e h2)
      · exact mem_S_wordChar (by decide) h2
  · intro c hc
    exact h c (List.take_subset i e hc)

theorem baseOf_wordChar {e : Str} (h : ∀ c ∈ e, isWordChar c = true) :
    ∀ c ∈ baseOf e, isWordChar c = true := by
  rw [baseOf, classifyEvent]
  split_ifs <;>
    first
      | exact brtKbBase_wordChar h
      | exact kbBase_wordChar h
      | exact h
      | (intro c hc
         exact pyReplace_mem _ _ _ (fun d => isWordChar d = true) h
           (fun d hd => mem_S_wordChar (by decide) hd) c hc)

theorem stripStep_subset {e b : Str} (hb : ∀ c ∈ b, c ∈ e) (p₁ p₂ : Str) (n₁ n₂ : Nat) :
    ∀ c ∈ (if endsWith b p₁ = true then b.take n₁
           else if endsWith b p₂ = true then b.take n₂ else b), c ∈ e := by
  split_ifs <;> intro c hc
  · exact hb c (List.take_subset _ _ hc)
  · exact hb c (List.take_subset _ _ hc)
  · exact hb c hc

theorem stripStep_subset_one {e b : Str} (hb : ∀ c ∈ b, c ∈ e) (p₁ : Str) (n₁ : Nat) :
    ∀ c ∈ (if endsWith b p₁ = true then b.take n₁ else b), c ∈ e := by
  split_ifs <;> intro c hc
  · exact hb c (List.take_subset _ _ hc)
  · exact hb c hc

theorem fvBase_subset (e : Str) : ∀ c ∈ fvBase e, c ∈ e := by
  show ∀ c ∈ fvBase e, c ∈ e
  unfold fvBase
  exact stripStep_subset
    (stripStep_subset
      (stripStep_subset_one
        (stripStep_subset
          (stripStep_subset (fun c hc => hc) _ _ _ _) _ _ _ _) _ _)
      _ _ _ _) _ _ _ _

theorem findLVariable_eq (e : Str) (vs : List Str) :
    findLVariable e vs =
      if vs.contains (S "MD11_" ++ fvBase e) then
        some (S "L:" ++ (S "MD11_" ++ fvBase e))
      else none := rfl

/-! ## The comment text contains no newline -/

theorem char_toNat_ofNat {n : Nat} (h : n.isValidChar) : (Char.ofNat n).toNat = n := by
  unfold Char.ofNat
  rw [dif_pos h]
  rfl

theorem toUpper_ne_nlc {c : Char} (h : ¬c = nlc) : ¬c.toUpper = nlc := by
  rw [Char.toUpper]
  split_ifs with hr
  · intro he
    have h1 := congrArg Char.toNat he
    have h2 : (Char.ofNat (c.toNat - 32)).toNat = c.toNat - 32 := by
      apply char_toNat_ofNat
      exact Or.inl (by omega)
    rw [h2] at h1
    have h3 : nlc.toNat = 10 := by decide
    rw [h3] at h1
    omega
  · exact h

theorem toLower_ne_nlc {c : Char} (h : ¬c = nlc) : ¬c.toLower = nlc := by
  rw [Char.toLower]
  split_ifs with hr
  · intro he
    have h1 := congrArg Char.toNat he
    have h2 : (Char.ofNat (c.toNat + 32)).toNat = c.toNat + 32 := by
      apply char_toNat_ofNat
      exact Or.inl (by omega)
    rw [h2] at h1
    have h3 : nlc.toNat = 10 := by decide
    rw [h3] at h1
    omega
  · exact h

theorem pyTitleAux_ne_nlc (b : Bool) (s : Str) (hs : ∀ ch ∈ s, ch ≠ nlc) :
    ∀ ch ∈ pyTitleAux b s, ch ≠ nlc := by
  induction s generalizing b with
  | nil =>
    intro ch hch
    cases hch
  | cons c t ih =>
    intro ch hch
    rw [pyTitleAux] at hch
    rcases List.mem_cons.mp hch with rfl | hch
    · split_ifs with h1 h2
      · exact toLower_ne_nlc (hs c (by simp))
      · exact toUpper_ne_nlc (hs c (by simp))
      · exact hs c (by simp)
    · exact ih c.isAlpha (fun d hd => hs d (by simp [hd])) ch hch

theorem alistGet_mem {κ : Type} [DecidableEq κ] {α : Type} {m : List (κ × α)} {k : κ}
    {v : α} (h : alistGet m k = some v) : (k, v) ∈ m := by
  induction m with
  | nil => cases h
  | cons p rest ih =>
    obtain ⟨k0, v0⟩ := p
    rw [alistGet] at h
    by_cases hk : k0 = k
    · rw [if_pos hk] at h
      injection h with h
      subst hk
      subst h
      simp
    · rw [if_neg hk] at h
      exact List.mem_cons_of_mem _ (ih h)

theorem commentRegexBase_subset {e b : Str} (h : commentRegexBase e = some b) :
    ∀ c ∈ b, c ∈ e := by
  rw [commentRegexBase] at h
  split at h
  · cases h
  · simp only [] at h
    split at h
    · injection h with h
      intro c hc
      rw [← h] at hc
      exact List.take_subset _ _ (List.mem_of_mem_drop hc)
    · cases h

theorem formatCommentName_nl (tooltips : List (Str × Str)) (e : Str)
    (htt : ∀ p ∈ tooltips, ∀ ch ∈ p.2, ch ≠ nlc)
    (he : ∀ c ∈ e, isWordChar c = true) :
    ∀ ch ∈ formatCommentName tooltips e, ch ≠ nlc := by
  have hwne : ∀ c ∈ e, c ≠ nlc := fun c hc => wordChar_ne (he c hc) (by decide)
  rw [formatCommentName]
  rcases hf : commentSuffixes.findSome? (fun suf =>
      if endsWith e suf = true then alistGet tooltips (e.take (e.length - suf.length))
      else none) with _ | t
  · rcases hg : alistGet tooltips e with _ | t
    · rcases hr : commentRegexBase e with _ | bb
      · exact hwne
      · have hb : ∀ c ∈ bb, c ≠ nlc := fun c hc =>
          hwne c (commentRegexBase_subset hr c hc)
        intro ch hch
        refine pyTitleAux_ne_nlc false _ ?_ ch hch
        intro d hd
        exact pyReplace_mem (S "_") (S " ") bb (fun x => x ≠ nlc) hb
          (by intro x hx; rcases List.mem_singleton.mp hx; decide) d hd
    · intro ch hch
      exact htt (e, t) (alistGet_mem hg) ch hch
  · obtain ⟨l₁, suf, l₂, hdec, hsuf, hnone⟩ := List.findSome?_eq_some_iff.mp hf
    rcases ite_eq_iff.mp hsuf with ⟨hcond, hget⟩ | ⟨hcond, hget⟩
    · intro ch hch
      exact htt (_, t) (alistGet_mem hget) ch hch
    · cases hget

/-! ## The rendered value texts and their field specifications -/

theorem endsWith_single_iff (s : Str) (c : Char) :
    endsWith s [c] = true ↔ ∃ t, s = t ++ [c] := by
  unfold endsWith
  rw [List.isSuffixOf_iff_suffix]
  constructor
  · rintro ⟨t, ht⟩
    exact ⟨t, ht.symm⟩
  · rintro ⟨t, rfl⟩
    exact ⟨t, rfl⟩

theorem endsWith_colon_false_of_concat {v t : Str} {c : Char}
    (hv : v = t ++ [c]) (hc : ¬c = ':') : endsWith v (S ":") = false := by
  cases hE : endsWith v (S ":")
  · rfl
  · exfalso
    obtain ⟨r, hr⟩ := (endsWith_single_iff v ':').mp hE
    have g1 : v.getLast? = some ':' := by
      rw [hr]
      exact List.getLast?_concat r
    have g2 : v.getLast? = some c := by
      rw [hv]
      exact List.getLast?_concat t
    rw [g1] at g2
    injection g2 with g2
    exact hc g2.symm

theorem setExprText_shape (e : Str) (hne : e ≠ []) :
    ∃ X : Char, (X = 'K' ∨ X = 'B') ∧
      setExprText e = '(' :: '>' :: X :: ':' :: (e ++ [')']) := by
  have hee : e.isEmpty = false := by
    rcases e with _ | _
    · exact absurd rfl hne
    · rfl
  have hg : genSetExpr e none =
      some (if isStandardMsfsEvent e = true then S "(>K:" ++ e ++ S ")"
            else S "(>B:" ++ e ++ S ")") := by
    rw [genSetExpr, if_neg (by simp [hee])]
  by_cases hstd : isStandardMsfsEvent e = true
  · refine ⟨'K', Or.inl rfl, ?_⟩
    rw [setExprText, hg, if_pos hstd]
    simp [S]
  · refine ⟨'B', Or.inr rfl, ?_⟩
    rw [setExprText, hg, if_neg hstd]
    simp [S]

theorem setExprText_facts (e : Str) (hne : e ≠ []) (hw : ∀ c ∈ e, isWordChar c = true) :
    (∀ ch ∈ setExprText e,
      isWS ch = false ∧ ch ≠ dqc ∧ ch ≠ '\\' ∧ ch ≠ nlc ∧ ch ≠ sqc) ∧
    (∃ vt, setExprText e = '(' :: vt ∧ plainSafeHead '(' = true) ∧
    endsWith (setExprText e) (S ":") = false ∧
    (∃ r c, setExprText e = r ++ [c] ∧ isWS c = false) := by
  obtain ⟨X, hX, hsh⟩ := setExprText_shape e hne
  have hconcat : setExprText e = ('(' :: '>' :: X :: ':' :: e) ++ [')'] := by
    rw [hsh]
    simp
  refine ⟨?_, ⟨'>' :: X :: ':' :: (e ++ [')']), by rw [hsh], by decide⟩,
    endsWith_colon_false_of_concat hconcat (by decide), _, ')', hconcat, by decide⟩
  intro ch hch
  rw [hsh] at hch
  simp only [List.mem_cons, List.mem_append, List.mem_singleton, List.not_mem_nil,
    or_false] at hch
  rcases hch with rfl | rfl | rfl | rfl | hch | rfl
  · decide
  · decide
  · rcases hX with rfl | rfl <;> decide
  · decide
  · have hwc := hw ch hch
    exact ⟨wordChar_not_ws hwc, wordChar_ne hwc (by decide), wordChar_ne hwc (by decide),
      wordChar_ne hwc (by decide), wordChar_ne hwc (by decide)⟩
  · decide

theorem setExpr_field_good (e : Str) (hne : e ≠ []) (hw : ∀ c ∈ e, isWordChar c = true) :
    GoodField ⟨S "set", setExprText e, .ystr (setExprText e)⟩ ∧
      FieldRawOK ⟨S "set", setExprText e, .ystr (setExprText e)⟩ := by
  obtain ⟨hchars, ⟨vt, hcv, hps⟩, hec, hconcat⟩ := setExprText_facts e hne hw
  constructor
  · refine ⟨by show S "set" ≠ []; decide, by show (S "set").all isWordChar = true; decide, ?_⟩
    have hscal : parseScalar (' ' :: setExprText e) = some (.ystr (setExprText e)) := by
      rw [hcv]
      exact parseScalar_plain hps
        (by rw [← hcv]; intro ch hch; exact (hchars ch hch).1)
        (by rw [← hcv]; exact hec)
    exact parseFieldLine_shaped 's' (S "et") (setExprText e) _ (by decide) hscal
  · exact ⟨fun ch hch => (hchars ch hch).2.2.2.1, hconcat⟩

theorem lvar_get_field_good (w : Str) (hne : w ≠ []) (hw : ∀ c ∈ w, isWordChar c = true) :
    GoodField ⟨S "get", S "L:" ++ w, .ystr (S "L:" ++ w)⟩ ∧
      FieldRawOK ⟨S "get", S "L:" ++ w, .ystr (S "L:" ++ w)⟩ := by
  obtain ⟨t, c, htc⟩ : ∃ t c, w = t ++ [c] := by
    rcases List.eq_nil_or_concat w with h | ⟨t, c, h⟩
    · exact absurd h hne
    · exact ⟨t, c, by rw [h, List.concat_eq_append]⟩
  have hcw : isWordChar c = true := hw c (by rw [htc]; simp)
  have hshape : S "L:" ++ w = 'L' :: ':' :: w := by simp [S]
  have hconcat : S "L:" ++ w = ('L' :: ':' :: t) ++ [c] := by
    rw [hshape, htc]
    simp
  have hall : ∀ ch ∈ S "L:" ++ w, isWS ch = false := by
    intro ch hch
    rw [hshape] at hch
    rcases List.mem_cons.mp hch with rfl | hch
    · decide
    rcases List.mem_cons.mp hch with rfl | hch
    · decide
    · exact wordChar_not_ws (hw ch hch)
  constructor
  · refine ⟨by show S "get" ≠ []; decide, by show (S "get").all isWordChar = true; decide, ?_⟩
    have hscal : parseScalar (' ' :: (S "L:" ++ w)) = some (.ystr (S "L:" ++ w)) := by
      rw [hshape]
      refine parseScalar_plain (by decide) ?_ ?_
      · rw [show ('L' :: ':' :: w : Str) = S "L:" ++ w from hshape.symm]
        exact hall
      · rw [show ('L' :: ':' :: w : Str) = S "L:" ++ w from hshape.symm]
        exact endsWith_colon_false_of_concat hconcat (wordChar_ne hcw (by decide))
    exact parseFieldLine_shaped 'g' (S "et") _ _ (by decide) hscal
  · refine ⟨?_, 'L' :: ':' :: t, c, hconcat, wordChar_not_ws hcw⟩
    intro ch hch
    rw [hshape] at hch
    rcases List.mem_cons.mp hch with rfl | hch
    · decide
    rcases List.mem_cons.mp hch with rfl | hch
    · decide
    · exact wordChar_ne (hw ch hch) (by decide)

theorem quoted_set_field_good (raw body : Str) (hraw : raw = dqc :: (body ++ [dqc]))
    (hb : ∀ ch ∈ body, ¬ch = dqc ∧ ¬ch = '\\' ∧ ch ≠ nlc) :
    GoodField ⟨S "set", raw, .ystr body⟩ ∧ FieldRawOK ⟨S "set", raw, .ystr body⟩ := by
  constructor
  · refine ⟨by show S "set" ≠ []; decide, by show (S "set").all isWordChar = true; decide, ?_⟩
    have hscal : parseScalar (' ' :: raw) = some (.ystr body) := by
      rw [hraw]
      exact parseScalar_quoted body (fun ch hch => ⟨(hb ch hch).1, (hb ch hch).2.1⟩)
    exact parseFieldLine_shaped 's' (S "et") raw _ (by decide) hscal
  · constructor
    · intro ch hch
      rw [hraw] at hch
      rcases List.mem_cons.mp hch with rfl | hch
      · decide
      rcases List.mem_append.mp hch with hch | hch
      · exact (hb ch hch).2.2
      · rcases List.mem_singleton.mp hch with rfl
        decide
    · exact ⟨dqc :: body, dqc, by rw [hraw]; simp, by decide⟩

theorem dash_comment_nl (cmt : Str) (hcm : ∀ ch ∈ cmt, ch ≠ nlc) :
    ∀ ch ∈ S "  - # " ++ cmt, ch ≠ nlc := by
  intro ch hch
  rcases List.mem_append.mp hch with h | h
  · intro he
    subst he
    revert h
    decide
  · exact hcm ch h

theorem blocks_cons_entry (dash : Str) (fs : List FieldSpec) (lines rest : List Str)
    (specs : List (List FieldSpec))
    (hl : lines = dash :: (fs.map fieldLineOf ++ rest))
    (hd : isDashLine dash = true) (hb : isBlankLine dash = false)
    (hc : isCommentLine dash = false) (hnl : ∀ ch ∈ dash, ch ≠ nlc)
    (hfs : fs ≠ []) (hgood : ∀ f ∈ fs, GoodField f)
    (hnd : (fs.map FieldSpec.key).Nodup) (hraw : ∀ f ∈ fs, FieldRawOK f)
    (hrest : Blocks rest specs) :
    Blocks lines (fs :: specs) := by
  rw [hl]
  exact Blocks.block dash fs rest specs hd hb hc hnl hfs hgood hnd hraw hrest

/-! ## Atomic rendered blocks -/

theorem atom_one (dash : Str) (f : FieldSpec)
    (hd : isDashLine dash = true) (hb : isBlankLine dash = false)
    (hc : isCommentLine dash = false) (hnl : ∀ ch ∈ dash, ch ≠ nlc)
    (hgf : GoodField f) (hrf : FieldRawOK f) :
    Blocks [dash, fieldLineOf f, []] [[f]] ∧ RenderShape [dash, fieldLineOf f, []] := by
  constructor
  · exact Blocks.block dash [f] [[]] [] hd hb hc hnl (by simp)
      (by intro x hx; rw [List.mem_singleton] at hx; rw [hx]; exact hgf)
      (by simp)
      (by intro x hx; rw [List.mem_singleton] at hx; rw [hx]; exact hrf)
      blocks_blank_single
  · right
    exact ⟨[dash, fieldLineOf f], f, rfl, rfl, hrf⟩

theorem atom_two (dash : Str) (f1 f2 : FieldSpec)
    (hd : isDashLine dash = true) (hb : isBlankLine dash = false)
    (hc : isCommentLine dash = false) (hnl : ∀ ch ∈ dash, ch ≠ nlc)
    (hgf1 : GoodField f1) (hrf1 : FieldRawOK f1)
    (hgf2 : GoodField f2) (hrf2 : FieldRawOK f2) (hk : f1.key ≠ f2.key) :
    Blocks [dash, fieldLineOf f1, fieldLineOf f2, []] [[f1, f2]] ∧
      RenderShape [dash, fieldLineOf f1, fieldLineOf f2, []] := by
  constructor
  · refine Blocks.block dash [f1, f2] [[]] [] hd hb hc hnl (by simp) ?_ (by simp [hk]) ?_
      blocks_blank_single
    · intro x hx
      rcases List.mem_cons.mp hx with rfl | hx
      · exact hgf1
      · rw [List.mem_singleton] at hx
        rw [hx]
        exact hgf2
    · intro x hx
      rcases List.mem_cons.mp hx with rfl | hx
      · exact hrf1
      · rw [List.mem_singleton] at hx
        rw [hx]
        exact hrf2
  · right
    exact ⟨[dash, fieldLineOf f1, fieldLineOf f2], f2, rfl, rfl, hrf2⟩

theorem set_block (cx : Str) (e : Str) (hcx : ∀ ch ∈ cx, ch ≠ nlc) (hne : e ≠ [])
    (hw : ∀ c ∈ e, isWordChar c = true) :
    Blocks [S "  - # " ++ cx, S "    set: " ++ setExprText e, []]
        [[⟨S "set", setExprText e, .ystr (setExprText e)⟩]] ∧
      RenderShape [S "  - # " ++ cx, S "    set: " ++ setExprText e, []] := by
  obtain ⟨hgf, hrf⟩ := setExpr_field_good e hne hw
  exact atom_one _ _ (isDashLine_comment cx) (dash_comment_class cx).1
    (dash_comment_class cx).2 (dash_comment_nl cx hcx) hgf hrf

theorem shape_nil : RenderShape [] := Or.inl rfl

theorem shape_append {L₁ L₂ : List Str} (h₁ : RenderShape L₁) (h₂ : RenderShape L₂) :
    RenderShape (L₁ ++ L₂) := by
  rcases h₂ with rfl | ⟨B, f, rfl, hlast, hro⟩
  · simpa using h₁
  · right
    refine ⟨L₁ ++ B, f, by simp, ?_, hro⟩
    have hBne : B ≠ [] := by
      intro h
      rw [h] at hlast
      cases hlast
    exact (List.getLast?_append_of_ne_nil L₁ hBne).trans hlast

theorem set_mem_append {s₁ s₂ : List (List FieldSpec)}
    (h₁ : ∀ fs ∈ s₁, S "set" ∈ fs.map FieldSpec.key)
    (h₂ : ∀ fs ∈ s₂, S "set" ∈ fs.map FieldSpec.key) :
    ∀ fs ∈ s₁ ++ s₂, S "set" ∈ fs.map FieldSpec.key := by
  intro fs hfs
  rcases List.mem_append.mp hfs with h | h
  · exact h₁ fs h
  · exact h₂ fs h

theorem comment_suffix_nl {cmt : Str} (suf : Str) (hcm : ∀ ch ∈ cmt, ch ≠ nlc)
    (hsuf : ∀ ch ∈ suf, ch ≠ nlc) : ∀ ch ∈ cmt ++ suf, ch ≠ nlc := by
  intro ch hch
  rcases List.mem_append.mp hch with h | h
  · exact hcm ch h
  · exact hsuf ch h

/-! ## The duplicate-singleton sub-branch -/

theorem dup_blocks (cmt : Str) (hcm : ∀ ch ∈ cmt, ch ≠ nlc) (fullevs : List Str) :
    ∀ (evs : List Str), (∀ e ∈ evs, e ≠ [] ∧ ∀ c ∈ e, isWordChar c = true) →
    ∀ (rest : List Str) (specs : List (List FieldSpec)), Blocks rest specs →
    ∃ specs2,
      Blocks ((evs.map (fun e =>
          (if fullevs.indexOf e > 0 then [([] : Str)] else []) ++
            [S "  - # " ++ cmt, S "    set: " ++ setExprText e])).flatten ++ rest)
        (specs2 ++ specs) ∧
      ∀ fs ∈ specs2, S "set" ∈ fs.map FieldSpec.key := by
  intro evs
  induction evs with
  | nil =>
    intro _ rest specs hrest
    exact ⟨[], by simpa using hrest, fun fs hfs => absurd hfs (List.not_mem_nil fs)⟩
  | cons e et ih =>
    intro hev rest specs hrest
    obtain ⟨specs2, hbl, hset⟩ := ih (fun x hx => hev x (by simp [hx])) rest specs hrest
    obtain ⟨hgf, hrf⟩ := setExpr_field_good e (hev e (by simp)).1 (hev e (by simp)).2
    refine ⟨[⟨S "set", setExprText e, .ystr (setExprText e)⟩] :: specs2, ?_, ?_⟩
    · rw [List.map_cons, List.flatten_cons, List.append_assoc]
      have hblock : Blocks ((S "  - # " ++ cmt) ::
          ([(⟨S "set", setExprText e, .ystr (setExprText e)⟩ : FieldSpec)].map
              fieldLineOf ++
            ((et.map (fun e =>
              (if fullevs.indexOf e > 0 then [([] : Str)] else []) ++
                [S "  - # " ++ cmt, S "    set: " ++ setExprText e])).flatten ++ rest)))
          ([(⟨S "set", setExprText e, .ystr (setExprText e)⟩ : FieldSpec)] ::
            (specs2 ++ specs)) :=
        Blocks.block _ _ _ _ (isDashLine_comment cmt) (dash_comment_class cmt).1
          (dash_comment_class cmt).2 (dash_comment_nl cmt hcm) (by simp)
          (by intro x hx; rw [List.mem_singleton] at hx; rw [hx]; exact hgf)
          (by simp)
          (by intro x hx; rw [List.mem_singleton] at hx; rw [hx]; exact hrf) hbl
      by_cases hidx : fullevs.indexOf e > 0
      · rw [if_pos hidx]
        exact Blocks.blank _ _ hblock
      · rw [if_neg hidx]
        exact hblock
    · intro fs hfs
      rcases List.mem_cons.mp hfs with rfl | hfs
      · show S "set" ∈ [S "set"]
        decide
      · exact hset fs hfs

theorem dup_last (cmt : Str) (fullevs : List Str) (evs : List Str)
    (hev : ∀ e ∈ evs, e ≠ [] ∧ ∀ c ∈ e, isWordChar c = true) (hne : evs ≠ []) :
    ∃ f, ((evs.map (fun e =>
        (if fullevs.indexOf e > 0 then [([] : Str)] else []) ++
          [S "  - # " ++ cmt, S "    set: " ++ setExprText e])).flatten).getLast? =
      some (fieldLineOf f) ∧ FieldRawOK f := by
  induction evs using List.reverseRecOn with
  | nil => exact absurd rfl hne
  | append_singleton l e ih =>
    obtain ⟨hgf, hrf⟩ := setExpr_field_good e (hev e (by simp)).1 (hev e (by simp)).2
    refine ⟨⟨S "set", setExprText e, .ystr (setExprText e)⟩, ?_, hrf⟩
    have h2 : ((if fullevs.indexOf e > 0 then [([] : Str)] else []) ++
        [S "  - # " ++ cmt, S "    set: " ++ setExprText e]) ≠ [] := by
      by_cases h : fullevs.indexOf e > 0 <;> simp [h]
    have h3 : ((if fullevs.indexOf e > 0 then [([] : Str)] else []) ++
        [S "  - # " ++ cmt, S "    set: " ++ setExprText e]).getLast? =
        some (S "    set: " ++ setExprText e) := by
      by_cases h : fullevs.indexOf e > 0
      · rw [if_pos h]
        rfl
      · rw [if_neg h]
        rfl
    simp only [List.map_append, List.flatten_append, List.map_cons, List.map_nil,
      List.flatten_cons, List.flatten_nil, List.append_nil]
    rw [List.getLast?_append_of_ne_nil _ h2, h3]
    rfl

/-! ## The slot-by-slot else branch of the renderer -/

theorem sufPiece_blocks (cx suf : Str) (hcx : ∀ ch ∈ cx, ch ≠ nlc)
    (hsuf : ∀ ch ∈ suf, ch ≠ nlc) (o : Option Str) (ho : SlotOK o) :
    ∃ s, Blocks (sufPiece cx suf o) s ∧ (∀ fs ∈ s, S "set" ∈ fs.map FieldSpec.key) ∧
      RenderShape (sufPiece cx suf o) := by
  rcases o with _ | r
  · exact ⟨[], Blocks.nil, fun fs hfs => absurd hfs (List.not_mem_nil fs), shape_nil⟩
  · obtain ⟨hrne, hrw⟩ := ho r rfl
    have hps : sufPiece cx suf (some r) =
        [S "  - # " ++ (cx ++ suf), S "    set: " ++ setExprText r, []] := by
      rw [sufPiece]
      simp
    rw [hps]
    obtain ⟨hbl, hsh⟩ := set_block (cx ++ suf) r (comment_suffix_nl _ hcx hsuf) hrne hrw
    refine ⟨_, hbl, ?_, hsh⟩
    intro fs hfs
    rw [List.mem_singleton] at hfs
    rw [hfs]
    show S "set" ∈ [S "set"]
    decide

theorem uPiece_blocks (cx : Str) (hcx : ∀ ch ∈ cx, ch ≠ nlc) (dSome lvSome : Bool)
    (o : Option Str) (ho : SlotOK o) :
    ∃ s, Blocks (uPiece cx dSome lvSome o) s ∧
      (∀ fs ∈ s, S "set" ∈ fs.map FieldSpec.key) ∧
      RenderShape (uPiece cx dSome lvSome o) := by
  rcases o with _ | u
  · exact ⟨[], Blocks.nil, fun fs hfs => absurd hfs (List.not_mem_nil fs), shape_nil⟩
  · obtain ⟨hune, huw⟩ := ho u rfl
    cases lvSome
    · cases dSome
      · have hps : uPiece cx false false (some u) =
            [S "  - # " ++ cx, S "    set: " ++ setExprText u, []] := by
          rw [uPiece]
          simp
        rw [hps]
        obtain ⟨hbl, hsh⟩ := set_block cx u hcx hune huw
        refine ⟨_, hbl, ?_, hsh⟩
        intro fs hfs
        rw [List.mem_singleton] at hfs
        rw [hfs]
        show S "set" ∈ [S "set"]
        decide
      · have hps : uPiece cx true false (some u) =
            [S "  - # " ++ (cx ++ S " (Up)"), S "    set: " ++ setExprText u, []] := by
          rw [uPiece]
          simp
        rw [hps]
        obtain ⟨hbl, hsh⟩ := set_block (cx ++ S " (Up)") u
          (comment_suffix_nl _ hcx (by decide)) hune huw
        refine ⟨_, hbl, ?_, hsh⟩
        intro fs hfs
        rw [List.mem_singleton] at hfs
        rw [hfs]
        show S "set" ∈ [S "set"]
        decide
    · have hps : uPiece cx dSome true (some u) = [] := by
        rw [uPiece]
        simp
      rw [hps]
      exact ⟨[], Blocks.nil, fun fs hfs => absurd hfs (List.not_mem_nil fs), shape_nil⟩

theorem dupPiece_blocks (allNone : Bool) (cx : Str) (hcx : ∀ ch ∈ cx, ch ≠ nlc)
    (evs : List Str) (hev : ∀ e ∈ evs, e ≠ [] ∧ ∀ c ∈ e, isWordChar c = true) :
    ∃ s, Blocks (dupPiece allNone cx evs) s ∧
      (∀ fs ∈ s, S "set" ∈ fs.map FieldSpec.key) ∧
      RenderShape (dupPiece allNone cx evs) := by
  cases allNone
  · have hps : dupPiece false cx evs = [] := by
      rw [dupPiece]
      simp
    rw [hps]
    exact ⟨[], Blocks.nil, fun fs hfs => absurd hfs (List.not_mem_nil fs), shape_nil⟩
  · rcases hevs : evs with _ | ⟨e0, et⟩
    · have hps : dupPiece true cx [] = [] := by
        rw [dupPiece]
        simp
      rw [hps]
      exact ⟨[], Blocks.nil, fun fs hfs => absurd hfs (List.not_mem_nil fs), shape_nil⟩
    · rw [← hevs]
      have hps : dupPiece true cx evs =
          (evs.map (fun e => (if evs.indexOf e > 0 then [([] : Str)] else []) ++
             [S "  - # " ++ cx, S "    set: " ++ setExprText e])).flatten ++ [[]] := by
        rw [dupPiece]
        rw [if_pos rfl, show evs.isEmpty = false from by rw [hevs]; rfl]
        rfl
      rw [hps]
      obtain ⟨specs2, hbl, hset⟩ := dup_blocks cx hcx evs evs hev [[]] [] blocks_blank_single
      obtain ⟨f, hlast, hrf⟩ := dup_last cx evs evs hev (by rw [hevs]; simp)
      refine ⟨specs2 ++ [], hbl, ?_, Or.inr ⟨_, f, rfl, hlast, hrf⟩⟩
      intro fs hfs
      rw [List.append_nil] at hfs
      exact hset fs hfs

theorem slot_blocks (cx : Str) (hcx : ∀ ch ∈ cx, ch ≠ nlc)
    (dOpt uOpt rOpt gOpt : Option Str) (lvSome : Bool) (evs : List Str)
    (lines : List Str)
    (hl : lines =
      sufPiece cx [] dOpt ++ uPiece cx dOpt.isSome lvSome uOpt ++
        sufPiece cx (S " (Right)") rOpt ++ sufPiece cx (S " (Guard)") gOpt ++
        dupPiece (dOpt.isNone && uOpt.isNone && rOpt.isNone && gOpt.isNone) cx evs)
    (hsd : SlotOK dOpt) (hsu : SlotOK uOpt) (hsr : SlotOK rOpt) (hsg : SlotOK gOpt)
    (hev : ∀ e ∈ evs, e ≠ [] ∧ ∀ c ∈ e, isWordChar c = true) :
    ∃ specs, Blocks lines specs ∧ (∀ fs ∈ specs, S "set" ∈ fs.map FieldSpec.key) ∧
      RenderShape lines := by
  obtain ⟨s1, b1, m1, sh1⟩ :=
    sufPiece_blocks cx [] hcx (fun ch hch => absurd hch (List.not_mem_nil ch)) dOpt hsd
  obtain ⟨s2, b2, m2, sh2⟩ := uPiece_blocks cx hcx dOpt.isSome lvSome uOpt hsu
  obtain ⟨s3, b3, m3, sh3⟩ := sufPiece_blocks cx (S " (Right)") hcx (by decide) rOpt hsr
  obtain ⟨s4, b4, m4, sh4⟩ := sufPiece_blocks cx (S " (Guard)") hcx (by decide) gOpt hsg
  obtain ⟨s5, b5, m5, sh5⟩ :=
    dupPiece_blocks (dOpt.isNone && uOpt.isNone && rOpt.isNone && gOpt.isNone) cx hcx
      evs hev
  refine ⟨((s1 ++ s2) ++ s3) ++ s4 ++ s5, ?_, ?_, ?_⟩
  · rw [hl]
    exact blocks_append (blocks_append (blocks_append (blocks_append b1 b2) b3) b4) b5
  · exact set_mem_append (set_mem_append (set_mem_append (set_mem_append m1 m2) m3) m4) m5
  · rw [hl]
    exact shape_append (shape_append (shape_append (shape_append sh1 sh2) sh3) sh4) sh5

/-! ## `renderGroup` produces well-formed blocks -/

theorem renderGroup_else_eq (tooltips : List (Str × Str))
    (controls : List (Str × ControlInfo)) (b : Str) (g : Group)
    (hW : g.isWheel = false)
    (hC : (g.lVariable.isSome && g.down.isSome && g.up.isSome) = false) :
    renderGroup tooltips controls b g =
      sufPiece (commentOf tooltips b g) [] g.down ++
        uPiece (commentOf tooltips b g) g.down.isSome g.lVariable.isSome g.up ++
        sufPiece (commentOf tooltips b g) (S " (Right)") g.right ++
        sufPiece (commentOf tooltips b g) (S " (Guard)") g.grd ++
        dupPiece (g.down.isNone && g.up.isNone && g.right.isNone && g.grd.isNone)
          (commentOf tooltips b g) g.events := by
  rcases g with ⟨d0, u0, r0, g0, evs, isW, lv, ct, ov⟩
  have hW2 : isW = false := hW
  subst hW2
  rcases d0 with _ | d <;> rcases u0 with _ | u <;> rcases r0 with _ | r <;>
    rcases g0 with _ | x <;> rcases lv with _ | v <;>
    first
      | (exfalso
         revert hC
         simp
         done)
      | (simp [renderGroup, sufPiece, uPiece, dupPiece, commentOf]
         done)

theorem renderGroup_blocks (tooltips : List (Str × Str))
    (controls : List (Str × ControlInfo)) (b : Str) (g : Group) (hok : GroupOK g)
    (hcm : ∀ ch ∈ commentOf tooltips b g, ch ≠ nlc) :
    ∃ specs, Blocks (renderGroup tooltips controls b g) specs ∧
      (∀ fs ∈ specs, S "set" ∈ fs.map FieldSpec.key) ∧
      RenderShape (renderGroup tooltips controls b g) := by
  obtain ⟨hdok, huok, hrok, hgok, heok, hlok⟩ := hok
  cases hW : g.isWheel
  · -- non-wheel
    by_cases hC : (g.lVariable.isSome && g.down.isSome && g.up.isSome) = true
    · -- Toggle / SingleEvent branch
      rcases hLV : g.lVariable with _ | v
      · rw [hLV] at hC
        simp at hC
      rcases hD : g.down with _ | d
      · rw [hD] at hC
        simp at hC
      rcases hU : g.up with _ | u
      · rw [hU] at hC
        simp at hC
      obtain ⟨w, hvw, hwne, hww⟩ := hlok v hLV
      obtain ⟨hdne, hdw⟩ := hdok d hD
      obtain ⟨hune, huw⟩ := huok u hU
      obtain ⟨hgfg, hrfg⟩ := lvar_get_field_good w hwne hww
      have hcondbody : ∀ ch ∈ (S "value ? " ++ [sqc] ++ setExprText u ++ [sqc] ++
          S " : " ++ [sqc] ++ setExprText d ++ [sqc] : Str),
          ¬ch = dqc ∧ ¬ch = '\\' ∧ ch ≠ nlc := by
        have hlit1 : ∀ ch ∈ S "value ? ", ¬ch = dqc ∧ ¬ch = '\\' ∧ ch ≠ nlc := by decide
        have hlit2 : ∀ ch ∈ S " : ", ¬ch = dqc ∧ ¬ch = '\\' ∧ ch ≠ nlc := by decide
        have hlit3 : ∀ ch ∈ ([sqc] : Str), ¬ch = dqc ∧ ¬ch = '\\' ∧ ch ≠ nlc := by decide
        have hu2 := (setExprText_facts u hune huw).1
        have hd2 := (setExprText_facts d hdne hdw).1
        intro ch hch
        simp only [List.mem_append] at hch
        rcases hch with ((((((hch | hch) | hch) | hch) | hch) | hch) | hch) | hch
        · exact hlit1 ch hch
        · exact hlit3 ch hch
        · exact ⟨(hu2 ch hch).2.1, (hu2 ch hch).2.2.1, (hu2 ch hch).2.2.2.1⟩
        · exact hlit3 ch hch
        · exact hlit2 ch hch
        · exact hlit3 ch hch
        · exact ⟨(hd2 ch hch).2.1, (hd2 ch hch).2.2.1, (hd2 ch hch).2.2.2.1⟩
        · exact hlit3 ch hch
      have hcond :
          ∃ specs, Blocks
            [S "  - # " ++ commentOf tooltips b g,
             S "    get: " ++ (S "L:" ++ w),
             S "    set: " ++ ([dqc] ++ S "value ? " ++ [sqc] ++ setExprText u ++ [sqc] ++
               S " : " ++ [sqc] ++ setExprText d ++ [sqc] ++ [dqc]), []] specs ∧
            (∀ fs ∈ specs, S "set" ∈ fs.map FieldSpec.key) ∧
            RenderShape
            [S "  - # " ++ commentOf tooltips b g,
             S "    get: " ++ (S "L:" ++ w),
             S "    set: " ++ ([dqc] ++ S "value ? " ++ [sqc] ++ setExprText u ++ [sqc] ++
               S " : " ++ [sqc] ++ setExprText d ++ [sqc] ++ [dqc]), []] := by
        obtain ⟨hgfs, hrfs⟩ := quoted_set_field_good
          ([dqc] ++ S "value ? " ++ [sqc] ++ setExprText u ++ [sqc] ++
            S " : " ++ [sqc] ++ setExprText d ++ [sqc] ++ [dqc])
          (S "value ? " ++ [sqc] ++ setExprText u ++ [sqc] ++
            S " : " ++ [sqc] ++ setExprText d ++ [sqc])
          (by simp) hcondbody
        obtain ⟨hbl, hsh⟩ := atom_two (S "  - # " ++ commentOf tooltips b g)
          ⟨S "get", S "L:" ++ w, .ystr (S "L:" ++ w)⟩
          ⟨S "set", [dqc] ++ S "value ? " ++ [sqc] ++ setExprText u ++ [sqc] ++
            S " : " ++ [sqc] ++ setExprText d ++ [sqc] ++ [dqc],
            .ystr (S "value ? " ++ [sqc] ++ setExprText u ++ [sqc] ++
              S " : " ++ [sqc] ++ setExprText d ++ [sqc])⟩
          (isDashLine_comment _) (dash_comment_class _).1 (dash_comment_class _).2
          (dash_comment_nl _ hcm) hgfg hrfg hgfs hrfs
          (by show S "get" ≠ S "set"; decide)
        refine ⟨_, hbl, ?_, hsh⟩
        intro fs hfs
        rw [List.mem_singleton] at hfs
        rw [hfs]
        show S "set" ∈ [S "get", S "set"]
        decide
      rcases hci : alistGet controls b with _ | ci
      · have hr : renderGroup tooltips controls b g =
            [S "  - # " ++ commentOf tooltips b g,
             S "    get: " ++ (S "L:" ++ w),
             S "    set: " ++ ([dqc] ++ S "value ? " ++ [sqc] ++ setExprText u ++ [sqc] ++
               S " : " ++ [sqc] ++ setExprText d ++ [sqc] ++ [dqc]), []] := by
          simp [renderGroup, hW, hLV, hD, hU, hci, hvw, commentOf]
        rw [hr]
        exact hcond
      · by_cases hse : (ci.numStates == some 1) = true
        · have hr : renderGroup tooltips controls b g =
              [S "  - # " ++ commentOf tooltips b g,
               S "    get: " ++ (S "L:" ++ w),
               S "    set: " ++ setExprText d, []] := by
            simp [renderGroup, hW, hLV, hD, hU, hci, hse, hvw, commentOf]
          rw [hr]
          obtain ⟨hgfs, hrfs⟩ := setExpr_field_good d hdne hdw
          obtain ⟨hbl, hsh⟩ := atom_two (S "  - # " ++ commentOf tooltips b g)
            ⟨S "get", S "L:" ++ w, .ystr (S "L:" ++ w)⟩
            ⟨S "set", setExprText d, .ystr (setExprText d)⟩
            (isDashLine_comment _) (dash_comment_class _).1 (dash_comment_class _).2
            (dash_comment_nl _ hcm) hgfg hrfg hgfs hrfs
            (by show S "get" ≠ S "set"; decide)
          refine ⟨_, hbl, ?_, hsh⟩
          intro fs hfs
          rw [List.mem_singleton] at hfs
          rw [hfs]
          show S "set" ∈ [S "get", S "set"]
          decide
        · have hr : renderGroup tooltips controls b g =
              [S "  - # " ++ commentOf tooltips b g,
               S "    get: " ++ (S "L:" ++ w),
               S "    set: " ++ ([dqc] ++ S "value ? " ++ [sqc] ++ setExprText u ++ [sqc] ++
                 S " : " ++ [sqc] ++ setExprText d ++ [sqc] ++ [dqc]), []] := by
            simp [renderGroup, hW, hLV, hD, hU, hci, hse, hvw, commentOf]
          rw [hr]
          exact hcond
    · -- slot-by-slot branch
      have hC2 : (g.lVariable.isSome && g.down.isSome && g.up.isSome) = false := by
        cases hx : (g.lVariable.isSome && g.down.isSome && g.up.isSome)
        · rfl
        · exact absurd hx hC
      exact slot_blocks (commentOf tooltips b g) hcm g.down g.up g.right g.grd
        g.lVariable.isSome g.events _
        (renderGroup_else_eq tooltips controls b g hW hC2) hdok huok hrok hgok heok
  · -- wheel
    rcases hLV : g.lVariable with _ | v
    · rcases hU : g.up with _ | u <;> rcases hD : g.down with _ | d
      · have hr : renderGroup tooltips controls b g = [] := by
          simp [renderGroup, hW, hLV, hU, hD]
        rw [hr]
        exact ⟨[], Blocks.nil, fun fs hfs => absurd hfs (List.not_mem_nil fs), shape_nil⟩
      · obtain ⟨hdne, hdw⟩ := hdok d hD
        have hr : renderGroup tooltips controls b g =
            [S "  - # " ++ (commentOf tooltips b g ++ S " (Wheel Down)"),
             S "    set: " ++ setExprText d, []] := by
          simp [renderGroup, hW, hLV, hU, hD, commentOf]
        rw [hr]
        obtain ⟨hbl, hsh⟩ := set_block _ d (comment_suffix_nl (S " (Wheel Down)") hcm (by decide)) hdne hdw
        refine ⟨_, hbl, ?_, hsh⟩
        intro fs hfs
        rw [List.mem_singleton] at hfs
        rw [hfs]
        show S "set" ∈ [S "set"]
        decide
      · obtain ⟨hune, huw⟩ := huok u hU
        have hr : renderGroup tooltips controls b g =
            [S "  - # " ++ (commentOf tooltips b g ++ S " (Wheel Up)"),
             S "    set: " ++ setExprText u, []] := by
          simp [renderGroup, hW, hLV, hU, hD, commentOf]
        rw [hr]
        obtain ⟨hbl, hsh⟩ := set_block _ u (comment_suffix_nl (S " (Wheel Up)") hcm (by decide)) hune huw
        refine ⟨_, hbl, ?_, hsh⟩
        intro fs hfs
        rw [List.mem_singleton] at hfs
        rw [hfs]
        show S "set" ∈ [S "set"]
        decide
      · obtain ⟨hdne, hdw⟩ := hdok d hD
        obtain ⟨hune, huw⟩ := huok u hU
        have hr : renderGroup tooltips controls b g =
            [S "  - # " ++ (commentOf tooltips b g ++ S " (Wheel Up)"),
             S "    set: " ++ setExprText u, []] ++
            [S "  - # " ++ (commentOf tooltips b g ++ S " (Wheel Down)"),
             S "    set: " ++ setExprText d, []] := by
          simp [renderGroup, hW, hLV, hU, hD, commentOf]
        rw [hr]
        obtain ⟨hblu, hshu⟩ := set_block _ u (comment_suffix_nl (S " (Wheel Up)") hcm (by decide)) hune huw
        obtain ⟨hbld, hshd⟩ := set_block _ d (comment_suffix_nl (S " (Wheel Down)") hcm (by decide)) hdne hdw
        refine ⟨_, blocks_append hblu hbld, ?_, shape_append hshu hshd⟩
        refine set_mem_append ?_ ?_ <;>
          (intro fs hfs
           rw [List.mem_singleton] at hfs
           rw [hfs]
           show S "set" ∈ [S "set"]
           decide)
    · rcases hD : g.down with _ | d <;> rcases hU : g.up with _ | u
      · have hr : renderGroup tooltips controls b g = [] := by
          simp [renderGroup, hW, hLV, hU, hD]
        rw [hr]
        exact ⟨[], Blocks.nil, fun fs hfs => absurd hfs (List.not_mem_nil fs), shape_nil⟩
      · obtain ⟨hune, huw⟩ := huok u hU
        have hr : renderGroup tooltips controls b g =
            [S "  - # " ++ (commentOf tooltips b g ++ S " (Wheel Up)"),
             S "    set: " ++ setExprText u, []] := by
          simp [renderGroup, hW, hLV, hU, hD, commentOf]
        rw [hr]
        obtain ⟨hbl, hsh⟩ := set_block _ u (comment_suffix_nl (S " (Wheel Up)") hcm (by decide)) hune huw
        refine ⟨_, hbl, ?_, hsh⟩
        intro fs hfs
        rw [List.mem_singleton] at hfs
        rw [hfs]
        show S "set" ∈ [S "set"]
        decide
      · obtain ⟨hdne, hdw⟩ := hdok d hD
        have hr : renderGroup tooltips controls b g =
            [S "  - # " ++ (commentOf tooltips b g ++ S " (Wheel Down)"),
             S "    set: " ++ setExprText d, []] := by
          simp [renderGroup, hW, hLV, hU, hD, commentOf]
        rw [hr]
        obtain ⟨hbl, hsh⟩ := set_block _ d (comment_suffix_nl (S " (Wheel Down)") hcm (by decide)) hdne hdw
        refine ⟨_, hbl, ?_, hsh⟩
        intro fs hfs
        rw [List.mem_singleton] at hfs
        rw [hfs]
        show S "set" ∈ [S "set"]
        decide
      · -- wheel with correlated variable: the write-back entry
        obtain ⟨w, hvw, hwne, hww⟩ := hlok v hLV
        have hwcl : containsSub w (S "L:") = false := by
          cases h : containsSub w (S "L:")
          · rfl
          · have hm := infixAt_mem (show infixAt (S "L:") w = true from h) ':' (by decide)
            exact absurd (hww ':' hm) (by decide)
        have hpr : pyReplace (S "L:") [] (S "L:" ++ w) = w :=
          pyReplace_lvar_cancel w hwcl
        have hr : renderGroup tooltips controls b g =
            [S "  - # " ++ commentOf tooltips b g,
             S "    get: " ++ (S "L:" ++ w),
             S "    set: " ++ ([dqc, btc] ++ S "${value} (>L:" ++ w ++ [')'] ++
               [btc, dqc]), []] := by
          simp [renderGroup, hW, hLV, hD, hU, hpr, hvw, commentOf]
        rw [hr]
        obtain ⟨hgfg, hrfg⟩ := lvar_get_field_good w hwne hww
        have hbody : ∀ ch ∈ ([btc] ++ S "${value} (>L:" ++ w ++ [')'] ++ [btc] : Str),
            ¬ch = dqc ∧ ¬ch = '\\' ∧ ch ≠ nlc := by
          have hlit : ∀ ch ∈ S "${value} (>L:", ¬ch = dqc ∧ ¬ch = '\\' ∧ ch ≠ nlc := by
            decide
          have hbt : ∀ ch ∈ ([btc] : Str), ¬ch = dqc ∧ ¬ch = '\\' ∧ ch ≠ nlc := by decide
          have hpar : ∀ ch ∈ ([')'] : Str), ¬ch = dqc ∧ ¬ch = '\\' ∧ ch ≠ nlc := by decide
          intro ch hch
          simp only [List.mem_append] at hch
          rcases hch with (((hch | hch) | hch) | hch) | hch
          · exact hbt ch hch
          · exact hlit ch hch
          · exact ⟨wordChar_ne (hww ch hch) (by decide), wordChar_ne (hww ch hch) (by decide),
              wordChar_ne (hww ch hch) (by decide)⟩
          · exact hpar ch hch
          · exact hbt ch hch
        obtain ⟨hgfs, hrfs⟩ := quoted_set_field_good
          ([dqc, btc] ++ S "${value} (>L:" ++ w ++ [')'] ++ [btc, dqc])
          ([btc] ++ S "${value} (>L:" ++ w ++ [')'] ++ [btc])
          (by simp) hbody
        obtain ⟨hbl, hsh⟩ := atom_two (S "  - # " ++ commentOf tooltips b g)
          ⟨S "get", S "L:" ++ w, .ystr (S "L:" ++ w)⟩
          ⟨S "set", [dqc, btc] ++ S "${value} (>L:" ++ w ++ [')'] ++ [btc, dqc],
            .ystr ([btc] ++ S "${value} (>L:" ++ w ++ [')'] ++ [btc])⟩
          (isDashLine_comment _) (dash_comment_class _).1 (dash_comment_class _).2
          (dash_comment_nl _ hcm) hgfg hrfg hgfs hrfs
          (by show S "get" ≠ S "set"; decide)
        refine ⟨_, hbl, ?_, hsh⟩
        intro fs hfs
        rw [List.mem_singleton] at hfs
        rw [hfs]
        show S "set" ∈ [S "get", S "set"]
        decide

/-! ## `group_events` builds well-formed groups from word-character names -/

theorem head?_mem {α : Type} {l : List α} {a : α} (h : l.head? = some a) : a ∈ l := by
  cases l with
  | nil => cases h
  | cons x t =>
    injection h with h
    rw [← h]
    simp

theorem getLast?_concat_shape {α : Type} {l : List α} {a : α}
    (h : l.getLast? = some a) : ∃ t, l = t ++ [a] := by
  rw [List.getLast?_eq_head?_reverse] at h
  rcases hr : l.reverse with _ | ⟨x, t⟩
  · rw [hr] at h
    cases h
  · rw [hr] at h
    injection h with h
    refine ⟨t.reverse, ?_⟩
    have h2 := congrArg List.reverse hr
    rw [List.reverse_reverse] at h2
    rw [h2, List.reverse_cons, h]

theorem lastSlot_mem {names : List Str} {b : Str} {sl : Slot} {s : Str}
    (h : lastSlot names b sl = some s) : s ∈ names := by
  unfold lastSlot at h
  obtain ⟨t, ht⟩ := getLast?_concat_shape h
  have h1 : s ∈ (groupMembers names b).filter (fun n => slotOf n == some sl) := by
    rw [ht]
    simp
  have h2 := List.mem_of_mem_filter h1
  rw [groupMembers] at h2
  exact List.mem_of_mem_filter h2

theorem eventNames_ne_nil (l : List RawEvent) : ∀ n ∈ eventNames l, n ≠ [] := by
  intro n hn
  unfold eventNames at hn
  have h1 := List.of_mem_filter hn
  intro he
  rw [he] at h1
  cases h1

theorem groupMembers_spec {names : List Str} {b e : Str} (h : e ∈ groupMembers names b) :
    baseOf e = b ∧ e ∈ names := by
  rw [groupMembers] at h
  refine ⟨?_, List.mem_of_mem_filter h⟩
  have h1 := List.of_mem_filter h
  exact eq_of_beq h1

theorem correlate_preserves (b : Str) (g : Group) (vars : List Str) :
    (correlateGroup b g vars).down = g.down ∧ (correlateGroup b g vars).up = g.up ∧
    (correlateGroup b g vars).right = g.right ∧ (correlateGroup b g vars).grd = g.grd ∧
    (correlateGroup b g vars).events = g.events ∧
    (correlateGroup b g vars).isWheel = g.isWheel := by
  rcases g with ⟨down, up, right, grd, events, isW, lv, ct, ov⟩
  cases isW <;> rcases down with _ | d <;> rcases up with _ | u <;>
    simp only [correlateGroup, Option.isSome_some, Option.isSome_none, Bool.true_and,
      Bool.false_and, Bool.and_true, Bool.and_false, Bool.not_true, Bool.not_false,
      if_true, if_false, Bool.false_eq_true] <;>
    first
      | (simp; done)
      | (split <;> simp)
      | (rcases hf : findLVariable d vars with _ | v <;> simp [hf])

theorem correlate_lvar (b : Str) (g : Group) (vars : List Str)
    (hlv : g.lVariable = none) :
    (correlateGroup b g vars).lVariable = none ∨
    (correlateGroup b g vars).lVariable = some (S "L:" ++ (S "MD11_" ++ b)) ∨
    (∃ d, g.down = some d ∧
      (correlateGroup b g vars).lVariable = some (S "L:" ++ (S "MD11_" ++ fvBase d))) := by
  rcases g with ⟨down, up, right, grd, events, isW, lv, ct, ov⟩
  have hlv2 : lv = none := hlv
  subst hlv2
  cases isW <;> rcases down with _ | d <;> rcases up with _ | u <;>
    simp only [correlateGroup, Option.isSome_some, Option.isSome_none, Bool.true_and,
      Bool.false_and, Bool.and_true, Bool.and_false, Bool.not_true, Bool.not_false,
      if_true, if_false, Bool.false_eq_true] <;>
    first
      | exact Or.inl rfl
      | exact Or.inl trivial
      | (rcases hf : findLVariable d vars with _ | v
         · simp only [hf]
           first
             | exact Or.inl rfl
             | exact Or.inl trivial
         · simp only [hf]
           rw [findLVariable_eq] at hf
           split at hf
           · injection hf with hf
             subst hf
             exact Or.inr (Or.inr ⟨d, rfl, rfl⟩)
           · cases hf)
      | (split
         · exact Or.inr (Or.inl rfl)
         · exact Or.inl rfl)

theorem groupEvents_get_ok (l : List RawEvent) (vars : List Str) (b : Str) (g : Group)
    (hn : ∀ n ∈ eventNames l, ∀ c ∈ n, isWordChar c = true)
    (hget : alistGet (groupEvents l vars) b = some g) :
    GroupOK g ∧ ∃ e₀, g.events.head? = some e₀ ∧ e₀ ∈ eventNames l := by
  have hmap : alistGet (groupEvents l vars) b =
      (alistGet (buildState l).groups b).map (fun g => correlateGroup b g vars) :=
    alistGet_map (buildState l).groups (fun b g => correlateGroup b g vars) b
  rw [hmap] at hget
  rcases hg0 : alistGet (buildState l).groups b with _ | g₀
  · rw [hg0] at hget
    cases hget
  rw [hg0] at hget
  injection hget with hget
  have hstrip := alistGet_strip (buildState l).groups b
  have hbs : stripGroups (buildState l).groups = (eventNames l).foldl nameStep [] := by
    have h1 := buildState_strip l ({} : GState)
    simpa using h1
  have hcore := nameFold_core (eventNames l) b
  rw [← hbs, hstrip, hg0] at hcore
  rw [groupCoreSpec] at hcore
  rcases hh : (groupMembers (eventNames l) b).head? with _ | e₀
  · rw [hh] at hcore
    cases hcore
  rw [hh] at hcore
  simp only [Option.map_some] at hcore
  injection hcore with hcore
  rw [Group.core_sans] at hcore
  have hdown : g₀.down = lastSlot (eventNames l) b .down := congrArg GroupCore.down hcore
  have hup : g₀.up = lastSlot (eventNames l) b .up := congrArg GroupCore.up hcore
  have hright : g₀.right = lastSlot (eventNames l) b .right := congrArg GroupCore.right hcore
  have hgrd : g₀.grd = lastSlot (eventNames l) b .grd := congrArg GroupCore.grd hcore
  have hevents : g₀.events = groupMembers (eventNames l) b :=
    congrArg GroupCore.events hcore
  have hlv0 : g₀.lVariable = none := congrArg GroupCore.lVariable hcore
  obtain ⟨hbase, he0mem⟩ := groupMembers_spec (head?_mem hh)
  have hbw : ∀ c ∈ b, isWordChar c = true := by
    rw [← hbase]
    exact baseOf_wordChar (hn e₀ he0mem)
  have hnn := eventNames_ne_nil l
  obtain ⟨hpd, hpu, hpr, hpg, hpe, hpw⟩ := correlate_preserves b g₀ vars
  subst hget
  have hslot : ∀ (o : Option Str) (sl : Slot),
      o = lastSlot (eventNames l) b sl → SlotOK o := by
    intro o sl ho s hs
    rw [ho] at hs
    have hmem := lastSlot_mem hs
    exact ⟨hnn s hmem, hn s hmem⟩
  refine ⟨⟨?_, ?_, ?_, ?_, ?_, ?_⟩, ⟨e₀, ?_, he0mem⟩⟩
  · exact hslot _ .down (hpd.trans hdown)
  · exact hslot _ .up (hpu.trans hup)
  · exact hslot _ .right (hpr.trans hright)
  · exact hslot _ .grd (hpg.trans hgrd)
  · intro e he
    rw [hpe, hevents] at he
    obtain ⟨_, hmem⟩ := groupMembers_spec he
    exact ⟨hnn e hmem, hn e hmem⟩
  · intro v hv
    rcases correlate_lvar b g₀ vars hlv0 with h | h | ⟨d, hd, h⟩
    · rw [hv] at h
      cases h
    · rw [hv] at h
      injection h with h
      refine ⟨S "MD11_" ++ b, h, by simp [S], ?_⟩
      intro c hc
      rcases List.mem_append.mp hc with hc | hc
      · exact mem_S_wordChar (by decide) hc
      · exact hbw c hc
    · rw [hv] at h
      injection h with h
      have hdmem : d ∈ eventNames l := by
        have h2 : lastSlot (eventNames l) b .down = some d := by
          rw [← hdown, hd]
        exact lastSlot_mem h2
      refine ⟨S "MD11_" ++ fvBase d, h, by simp [S], ?_⟩
      intro c hc
      rcases List.mem_append.mp hc with hc | hc
      · exact mem_S_wordChar (by decide) hc
      · exact hn d hdmem c (fvBase_subset d c hc)
  · rw [hpe, hevents, hh]

/-! ## Assembling the full generated shared content -/

theorem render_flatten (tooltips : List (Str × Str)) (controls : List (Str × ControlInfo))
    (grouped : List (Str × Group)) (htt : ∀ p ∈ tooltips, ∀ ch ∈ p.2, ch ≠ nlc)
    (hok : ∀ b g, alistGet grouped b = some g → GroupOK g ∧
      ∃ e₀, g.events.head? = some e₀ ∧ ∀ c ∈ e₀, isWordChar c = true)
    (bs : List Str) :
    ∃ specs,
      Blocks ((bs.map (fun b =>
        match alistGet grouped b with
        | some g => renderGroup tooltips controls b g
        | none => [])).flatten) specs ∧
      (∀ fs ∈ specs, S "set" ∈ fs.map FieldSpec.key) ∧
      RenderShape ((bs.map (fun b =>
        match alistGet grouped b with
        | some g => renderGroup tooltips controls b g
        | none => [])).flatten) := by
  induction bs with
  | nil =>
    refine ⟨[], Blocks.nil, ?_, shape_nil⟩
    intro fs hfs
    cases hfs
  | cons b bt ih =>
    obtain ⟨specs, hbl, hset, hsh⟩ := ih
    rcases hg : alistGet grouped b with _ | g
    · refine ⟨specs, ?_, hset, ?_⟩
      · simp only [List.map_cons, List.flatten_cons, hg, List.nil_append]
        exact hbl
      · simp only [List.map_cons, List.flatten_cons, hg, List.nil_append]
        exact hsh
    · obtain ⟨hgok, e₀, hhead, he₀w⟩ := hok b g hg
      have hcm : ∀ ch ∈ commentOf tooltips b g, ch ≠ nlc := by
        rw [commentOf]
        rcases hev : g.events with _ | ⟨e, t⟩
        · rw [hev] at hhead
          cases hhead
        · rw [hev] at hhead
          injection hhead with hh
          subst hh
          simp only []
          exact formatCommentName_nl tooltips e htt he₀w
      obtain ⟨gs, hgbl, hgset, hgsh⟩ := renderGroup_blocks tooltips controls b g hgok hcm
      refine ⟨gs ++ specs, ?_, set_mem_append hgset hset, ?_⟩
      · simp only [List.map_cons, List.flatten_cons, hg]
        exact blocks_append hgbl hbl
      · simp only [List.map_cons, List.flatten_cons, hg]
        exact shape_append hgsh hsh

theorem joinLines_last_char {L : List Str} {x : Str} {c : Char}
    (h : L.getLast? = some (x ++ [c])) : ∃ Y, joinLines L = Y ++ [c] := by
  obtain ⟨t, rfl⟩ := getLast?_concat_shape h
  cases t with
  | nil => exact ⟨x, by rw [List.nil_append, joinLines_single]⟩
  | cons y ys =>
    refine ⟨joinLines (y :: ys) ++ nlc :: x, ?_⟩
    rw [joinLines_append_last (y :: ys) _ (by simp)]
    simp

theorem gen_assemble (flat : List Str) (specs : List (List FieldSpec))
    (hbl : Blocks flat specs) (hsh : RenderShape flat) :
    Blocks (splitLines (rstrip (if flat.isEmpty then [] else
        rstrip (joinLines flat) ++ [nlc])) ++ [[]]) specs ∧
    (rstrip (if flat.isEmpty then [] else rstrip (joinLines flat) ++ [nlc]) = [] ∨
      ∃ r c, rstrip (if flat.isEmpty then [] else rstrip (joinLines flat) ++ [nlc]) =
        r ++ [c] ∧ isWS c = false) := by
  rcases hsh with rfl | ⟨B, f, rfl, hlast, hro⟩
  · cases hbl
    constructor
    · show Blocks ([[]] ++ [[]]) []
      exact Blocks.blank [[]] [] blocks_blank_single
    · left
      rfl
  · obtain ⟨hrnl, r, c, hrc, hcw⟩ := hro
    have hBne : B ≠ [] := by
      intro h
      rw [h] at hlast
      cases hlast
    have hie : (B ++ [([] : Str)]).isEmpty = false := by
      cases B with
      | nil => exact absurd rfl hBne
      | cons x xs => rfl
    simp only [hie, Bool.false_eq_true, if_false]
    have hjl : joinLines (B ++ [([] : Str)]) = joinLines B ++ [nlc] :=
      joinLines_append_last B [] hBne
    have hfl : fieldLineOf f = (S "    " ++ f.key ++ S ": " ++ r) ++ [c] := by
      rw [fieldLineOf, hrc, ← List.append_assoc]
    have hlast2 : B.getLast? = some ((S "    " ++ f.key ++ S ": " ++ r) ++ [c]) := by
      rw [hlast, hfl]
    obtain ⟨Y, hY⟩ := joinLines_last_char hlast2
    have hrs : rstrip (joinLines B) = joinLines B := by
      rw [hY]
      exact rstrip_concat_not_ws Y hcw
    rw [hjl, rstrip_append_ws (joinLines B) (by decide), hrs,
      rstrip_append_ws (joinLines B) (by decide), hrs]
    have hsplit : splitLines (joinLines B) = B := by
      refine splitLines_joinLines B hBne ?_
      intro l hl
      exact blocks_nl_free hbl l (List.mem_append_left _ hl)
    rw [hsplit]
    exact ⟨hbl, Or.inr ⟨Y, c, hY, hcw⟩⟩

theorem generated_blocks (tooltips : List (Str × Str))
    (controls : List (Str × ControlInfo)) (catName : Str) (evs : List RawEvent)
    (desc : Str) (vars : List Str)
    (hn : ∀ n ∈ eventNames evs, ∀ c ∈ n, isWordChar c = true)
    (htt : ∀ p ∈ tooltips, ∀ ch ∈ p.2, ch ≠ nlc) :
    ∃ specs,
      Blocks (splitLines (generateSharedContent tooltips controls catName evs desc vars)
        ++ [[]]) specs ∧
      (∀ fs ∈ specs, S "set" ∈ fs.map FieldSpec.key) ∧
      (generateSharedContent tooltips controls catName evs desc vars = [] ∨
        ∃ r c, generateSharedContent tooltips controls catName evs desc vars = r ++ [c] ∧
          isWS c = false) := by
  have hok : ∀ b g, alistGet (groupEvents evs vars) b = some g → GroupOK g ∧
      ∃ e₀, g.events.head? = some e₀ ∧ ∀ c ∈ e₀, isWordChar c = true := by
    intro b g hg
    obtain ⟨h1, e₀, h2, h3⟩ := groupEvents_get_ok evs vars b g hn hg
    exact ⟨h1, e₀, h2, hn e₀ h3⟩
  obtain ⟨specs, hbl, hset, hsh⟩ := render_flatten tooltips controls (groupEvents evs vars)
    htt hok (sortKeys ((groupEvents evs vars).map (·.1)))
  have hgen : generateYaml tooltips controls catName evs desc vars true =
      (if (((sortKeys ((groupEvents evs vars).map (·.1))).map (fun b =>
          match alistGet (groupEvents evs vars) b with
          | some g => renderGroup tooltips controls b g
          | none => [])).flatten).isEmpty then []
        else rstrip (joinLines (((sortKeys ((groupEvents evs vars).map (·.1))).map (fun b =>
          match alistGet (groupEvents evs vars) b with
          | some g => renderGroup tooltips controls b g
          | none => [])).flatten)) ++ [nlc]) := by
    simp only [generateYaml, if_true, List.nil_append]
  have hmain := gen_assemble _ specs hbl hsh
  rw [← hgen] at hmain
  refine ⟨specs, ?_, hset, ?_⟩
  · rw [generateSharedContent]
    exact hmain.1
  · rw [generateSharedContent]
    exact hmain.2

/-! ## String utilities for the document reassembly argument -/

theorem startsWith_shape {x p : Str} (h : startsWith x p = true) : ∃ t, x = p ++ t := by
  rw [startsWith, List.isPrefixOf_iff_prefix] at h
  obtain ⟨t, ht⟩ := h
  exact ⟨t, ht.symm⟩

theorem rstrip_prefix (s : Str) : ∃ u, rstrip s ++ u = s := by
  rw [rstrip]
  obtain ⟨u, hu⟩ := List.dropWhile_suffix (l := s.reverse) (p := isWS)
  refine ⟨u.reverse, ?_⟩
  have h2 := congrArg List.reverse hu
  rw [List.reverse_append, List.reverse_reverse] at h2
  exact h2

theorem strip_cons_ws {c : Char} (hc : isWS c = true) (s : Str) :
    strip (c :: s) = strip s := by
  rw [strip, strip]
  rcases hrs : rstrip s with _ | ⟨a, t⟩
  · have h1 : s.reverse.dropWhile isWS = [] := by
      rw [rstrip] at hrs
      exact List.reverse_eq_nil_iff.mp hrs
    have h2 : rstrip (c :: s) = [] := by
      rw [rstrip, show (c :: s).reverse = s.reverse ++ [c] from by simp,
        List.dropWhile_append, if_pos (by rw [h1]; rfl)]
      simp [List.dropWhile_cons, hc]
    rw [h2]
  · have h3 : (s.reverse.dropWhile isWS).isEmpty = false := by
      rcases hie : (s.reverse.dropWhile isWS).isEmpty with _ | _
      · rfl
      · rw [List.isEmpty_iff] at hie
        rw [rstrip, hie] at hrs
        cases hrs
    have h2 : rstrip (c :: s) = c :: rstrip s := by
      rw [rstrip, rstrip, show (c :: s).reverse = s.reverse ++ [c] from by simp,
        List.dropWhile_append, if_neg (by rw [h3]; simp)]
      simp
    rw [h2, lstrip_cons_ws hc, hrs]

theorem strip_cons_not_ws {c : Char} (hc : isWS c = false) (s : Str) :
    ∃ u, strip (c :: s) = c :: u := by
  rw [strip]
  rcases hrs : rstrip s with _ | ⟨a, t⟩
  · have h1 : s.reverse.dropWhile isWS = [] := by
      rw [rstrip] at hrs
      exact List.reverse_eq_nil_iff.mp hrs
    have h2 : rstrip (c :: s) = [c] := by
      rw [rstrip, show (c :: s).reverse = s.reverse ++ [c] from by simp,
        List.dropWhile_append, if_pos (by rw [h1]; rfl)]
      simp [List.dropWhile_cons, hc]
    rw [h2, lstrip_cons_not_ws hc]
    exact ⟨[], rfl⟩
  · have h3 : (s.reverse.dropWhile isWS).isEmpty = false := by
      rcases hie : (s.reverse.dropWhile isWS).isEmpty with _ | _
      · rfl
      · rw [List.isEmpty_iff] at hie
        rw [rstrip, hie] at hrs
        cases hrs
    have h2 : rstrip (c :: s) = c :: rstrip s := by
      rw [rstrip, rstrip, show (c :: s).reverse = s.reverse ++ [c] from by simp,
        List.dropWhile_append, if_neg (by rw [h3]; simp)]
      simp
    rw [h2, lstrip_cons_not_ws hc]
    exact ⟨rstrip s, rfl⟩

theorem strip_dash_head {l : Str} (h : isDashLine l = true) :
    ∃ u, strip l = '-' :: u := by
  have h1 : startsWith l (S "  -") = true := by
    rw [isDashLine] at h
    exact ((Bool.and_eq_true _ _).mp h).1
  obtain ⟨t, ht⟩ := startsWith_shape h1
  rw [ht, show S "  -" ++ t = ' ' :: ' ' :: '-' :: t from rfl,
    strip_cons_ws (by decide), strip_cons_ws (by decide)]
  exact strip_cons_not_ws (by decide) t

theorem strip_dash_ne_master {l : Str} (h : isDashLine l = true) :
    strip l ≠ S "master:" := by
  obtain ⟨u, hu⟩ := strip_dash_head h
  rw [hu]
  intro heq
  have h2 := congrArg List.head? heq
  simp at h2
  exact absurd h2 (by decide)

theorem strip_fieldLineOf {f : FieldSpec} (hk : f.key ≠ [])
    (hkw : f.key.all isWordChar = true) (hro : FieldRawOK f) :
    strip (fieldLineOf f) = f.key ++ (S ": " ++ f.raw) := by
  obtain ⟨hrnl, r, c, hrc, hcw⟩ := hro
  have h1 : fieldLineOf f = (S "    " ++ f.key ++ S ": " ++ r) ++ [c] := by
    rw [fieldLineOf, hrc, ← List.append_assoc]
  have h2 : rstrip (fieldLineOf f) = fieldLineOf f := by
    rw [h1, rstrip_concat_not_ws _ hcw]
  rw [strip, h2]
  have h3 : fieldLineOf f = ' ' :: ' ' :: ' ' :: ' ' :: (f.key ++ (S ": " ++ f.raw)) := by
    rw [fieldLineOf, List.append_assoc, List.append_assoc]
    rfl
  rcases hkey : f.key with _ | ⟨k₀, kt⟩
  · exact absurd hkey hk
  have hk₀ : isWordChar k₀ = true :=
    List.all_eq_true.mp hkw k₀ (by rw [hkey]; simp)
  rw [h3, lstrip_cons_ws (by decide), lstrip_cons_ws (by decide),
    lstrip_cons_ws (by decide), lstrip_cons_ws (by decide), hkey, List.cons_append,
    lstrip_cons_not_ws (wordChar_not_ws hk₀)]

theorem strip_fieldLine_ne_master {f : FieldSpec} (hk : f.key ≠ [])
    (hkw : f.key.all isWordChar = true) (hro : FieldRawOK f) :
    strip (fieldLineOf f) ≠ S "master:" := by
  rw [strip_fieldLineOf hk hkw hro]
  intro heq
  have hsp : ' ' ∈ f.key ++ (S ": " ++ f.raw) := by
    refine List.mem_append_right _ ?_
    show ' ' ∈ ':' :: ' ' :: f.raw
    simp
  rw [heq] at hsp
  revert hsp
  decide

theorem blocks_no_master {lines : List Str} {specs : List (List FieldSpec)}
    (h : Blocks lines specs) : ∀ l ∈ lines, strip l ≠ S "master:" := by
  induction h with
  | nil =>
    intro l hl
    cases hl
  | blank rest specs hb ih =>
    intro l hl
    rcases List.mem_cons.mp hl with rfl | hl
    · decide
    · exact ih l hl
  | block dash fs rest specs hd hb hc hnl hfs hgood hnd hraw hrest ih =>
    intro l hl
    rcases List.mem_cons.mp hl with rfl | hl
    · exact strip_dash_ne_master hd
    · rcases List.mem_append.mp hl with hl | hl
      · obtain ⟨f, hf, rfl⟩ := List.mem_map.mp hl
        obtain ⟨h1, h2, h3⟩ := hgood f hf
        exact strip_fieldLine_ne_master h1 h2 (hraw f hf)
      · exact ih l hl

theorem includeStop_of_indented {l : Str} (h1 : startsWith l (S " ") = true)
    (h2 : startsWith (strip l) (S "- ") = true) : includeStop l = false := by
  obtain ⟨t, ht⟩ := startsWith_shape h2
  have h3 : (strip l == S "shared:") = false := by
    rw [beq_eq_false_iff_ne]
    rw [ht]
    intro heq
    have h4 := congrArg List.head? heq
    simp [show S "- " ++ t = '-' :: ' ' :: t from rfl] at h4
    exact absurd h4 (by decide)
  rw [includeStop, h3, h1]
  simp

theorem findIdx?_append_found {α : Type} (p : α → Bool) (A B : List α) (x : α)
    (hA : ∀ l ∈ A, p l = false) (hx : p x = true) :
    (A ++ x :: B).findIdx? p = some A.length := by
  rw [List.findIdx?_append, List.findIdx?_eq_none_iff.mpr hA, Option.none_or,
    List.findIdx?_cons, if_pos hx]
  simp

theorem drop_after {α : Type} (A B : List α) (x : α) :
    (A ++ x :: B).drop (A.length + 1) = B := by
  rw [show A ++ x :: B = (A ++ [x]) ++ B from by simp,
    show A.length + 1 = (A ++ [x]).length from by simp]
  exact List.drop_left _ _

theorem splitLines_ne_nil (s : Str) : splitLines s ≠ [] := by
  rw [splitLines]
  simp

theorem flatten_map_singleton {L : List Str} (h : ∀ l ∈ L, ∀ ch ∈ l, ch ≠ nlc) :
    (L.map splitLines).flatten = L := by
  induction L with
  | nil => rfl
  | cons x xs ih =>
    rw [List.map_cons, List.flatten_cons, splitLines_no_nl (h x (by simp)),
      ih (fun l hl => h l (by simp [hl]))]
    rfl

theorem alistGet_alistSet {κ : Type} [DecidableEq κ] {α : Type} (m : List (κ × α))
    (k k' : κ) (v : α) :
    alistGet (alistSet m k v) k' = if k = k' then some v else alistGet m k' := by
  induction m with
  | nil => rfl
  | cons p rest ih =>
    obtain ⟨k₀, v₀⟩ := p
    rw [alistSet]
    by_cases h0 : k₀ = k
    · subst h0
      rw [if_pos rfl]
      by_cases h1 : k₀ = k' <;> simp [alistGet, h1]
    · rw [if_neg h0, alistGet, alistGet, ih]
      by_cases h1 : k₀ = k'
      · subst h1
        rw [if_pos rfl, if_pos rfl, if_neg (fun he => h0 he.symm)]
      · rw [if_neg h1, if_neg h1]

theorem newmap_mono (l : List Entry) : ∀ (m : List (EKey × Entry)) (k : EKey),
    (alistGet m k).isSome = true →
    (alistGet (l.foldl (fun m e =>
      match getEntryKey e with
      | some k => alistSet m k e
      | none => m) m) k).isSome = true := by
  induction l with
  | nil =>
    intro m k h
    exact h
  | cons e es ih =>
    intro m k h
    rw [List.foldl_cons]
    apply ih
    rcases hk : getEntryKey e with _ | k'
    · simpa [hk] using h
    · simp only [hk]
      rw [alistGet_alistSet]
      split
      · rfl
      · exact h

theorem newmap_covers (l : List Entry) : ∀ (m : List (EKey × Entry)), ∀ e ∈ l, ∀ k,
    getEntryKey e = some k →
    (alistGet (l.foldl (fun m e =>
      match getEntryKey e with
      | some k => alistSet m k e
      | none => m) m) k).isSome = true := by
  induction l with
  | nil =>
    intro m e he
    cases he
  | cons e₀ es ih =>
    intro m e he k hk
    rw [List.foldl_cons]
    rcases List.mem_cons.mp he with rfl | he
    · apply newmap_mono
      simp only [hk]
      rw [alistGet_alistSet, if_pos rfl]
      rfl
    · exact ih _ e he k hk

theorem getEntryKey_isSome_of_set {e : Entry}
    (h : (alistGet e (S "set")).isSome = true) : ∃ k, getEntryKey e = some k := by
  rw [getEntryKey]
  rcases hg : alistGet e (S "get") with _ | v
  · rcases hs : alistGet e (S "set") with _ | v
    · rw [hs] at h
      cases h
    · exact ⟨.kSet v, rfl⟩
  · exact ⟨.kGet v, rfl⟩

theorem parseEntriesAux_trailing_blank {l : Str} (hb : isBlankLine l = true) :
    ∀ (lines : List Str) (cur : Option Entry),
      parseEntriesAux (lines ++ [l]) cur = parseEntriesAux lines cur := by
  intro lines
  induction lines with
  | nil =>
    intro cur
    show parseEntriesAux (l :: []) cur = parseEntriesAux [] cur
    simp only [parseEntriesAux, hb, Bool.true_or, if_true]
  | cons x xs ih =>
    intro cur
    rw [List.cons_append]
    by_cases h1 : (isBlankLine x || isCommentLine x) = true
    · simp only [parseEntriesAux, h1, if_true]
      exact ih cur
    · have h1' : (isBlankLine x || isCommentLine x) = false := eq_false_of_ne_true h1
      by_cases h2 : isDashLine x = true
      · rcases cur with _ | e
        · simp only [parseEntriesAux, h1', Bool.false_eq_true, if_false, h2, if_true]
          exact ih (some [])
        · by_cases h3 : e.isEmpty = true
          · simp only [parseEntriesAux, h1', Bool.false_eq_true, if_false, h2, if_true,
              h3]
          · have h3' : e.isEmpty = false := eq_false_of_ne_true h3
            simp only [parseEntriesAux, h1', Bool.false_eq_true, if_false, h2, if_true,
              h3']
            rw [ih (some [])]
      · have h2' : isDashLine x = false := eq_false_of_ne_true h2
        rcases hpf : parseFieldLine x with _ | ⟨k, v⟩
        · rcases cur with _ | e <;>
            simp only [parseEntriesAux, h1', Bool.false_eq_true, if_false, h2', hpf]
        · rcases cur with _ | e <;>
            simp only [parseEntriesAux, h1', Bool.false_eq_true, if_false, h2', hpf]
          exact ih (some (alistSet e k v))

theorem parseShared_shared_cons (rest : List Str) :
    parseShared (S "shared:" :: rest) = parseEntriesAux rest none := by
  rw [parseShared, if_neg (by decide), if_pos (by decide)]

theorem parseFieldLine_key_facts {l : Str} {k : Str} {v : YVal}
    (h : parseFieldLine l = some (k, v)) : k ≠ [] ∧ k.all isWordChar = true := by
  rw [parseFieldLine] at h
  split at h
  · simp only [] at h
    split at h
    · cases h
    · split at h
      · cases h
      · rename_i hlen hwc
        have hk : k = (l.drop 4).take ((l.drop 4).findIdx (fun c => c = ':')) := by
          split at h
          · injection h with h'
            exact (congrArg Prod.fst h').symm
          · split at h
            · rcases hps : parseScalar ((l.drop 4).drop
                  ((l.drop 4).findIdx (fun c => c = ':') + 1)) with _ | w
              · rw [hps] at h
                cases h
              · rw [hps] at h
                have h' := Option.some.inj h
                exact (congrArg Prod.fst h').symm
            · cases h
        constructor
        · rw [hk]
          intro hnil
          rw [List.take_eq_nil_iff] at hnil
          rcases hnil with hnil | hnil
          · exact hlen (by rw [hnil]; simp)
          · rw [hnil] at hlen
            exact hlen (by decide)
        · have hwc2 : (!((l.drop 4).take ((l.drop 4).findIdx (fun c => c = ':'))).all
              isWordChar) = false := eq_false_of_ne_true hwc
          rw [hk]
          rcases hall : ((l.drop 4).take ((l.drop 4).findIdx (fun c => c = ':'))).all
              isWordChar with _ | _
          · rw [hall] at hwc2
            cases hwc2
          · rfl
  · cases h

theorem entryOf_fsOf (e : Entry) :
    entryOf (e.map (fun p => (⟨p.1, fmtVal p.2, p.2⟩ : FieldSpec))) = e := by
  induction e with
  | nil => rfl
  | cons p t ih =>
    rw [List.map_cons, entryOf, List.map_cons]
    rw [entryOf] at ih
    rw [ih, Prod.mk.eta]

theorem manual_blocks (manual : List Entry) (hg : ∀ e ∈ manual, EntryGood e) :
    Blocks ((manual.map (fun e => formatEntryAsYaml e ++ [[]])).flatten)
      (manual.map (fun e => e.map (fun p => (⟨p.1, fmtVal p.2, p.2⟩ : FieldSpec)))) := by
  induction manual with
  | nil => exact Blocks.nil
  | cons e es ih =>
    simp only [List.map_cons, List.flatten_cons]
    obtain ⟨hne, hnd, hcan, hrt, hpr⟩ := hg e (by simp)
    have hrest := ih (fun e' he' => hg e' (by simp [he']))
    refine blocks_cons_entry (S "  -")
      (e.map (fun p => (⟨p.1, fmtVal p.2, p.2⟩ : FieldSpec))) _
      ([] :: (es.map (fun e => formatEntryAsYaml e ++ [[]])).flatten) _ ?_
      dash_plain_facts.1 dash_plain_facts.2.1 dash_plain_facts.2.2 (by decide)
      ?_ ?_ ?_ ?_ (Blocks.blank _ _ hrest)
    · rw [formatEntryAsYaml, hcan]
      simp [List.map_map, fieldLineOf]
    · simpa using hne
    · intro f hf
      obtain ⟨p, hp, rfl⟩ := List.mem_map.mp hf
      obtain ⟨hk1, hk2⟩ := parseFieldLine_key_facts (hrt p hp)
      exact ⟨hk1, hk2, hrt p hp⟩
    · rw [List.map_map]
      simpa using hnd
    · intro f hf
      obtain ⟨p, hp, rfl⟩ := List.mem_map.mp hf
      exact hpr p hp

theorem ends_ne_nl {s Y : Str} {c : Char} (hs : s = Y ++ [c]) (hc : isWS c = false) :
    endsWith s [nlc] = false := by
  rcases hew : endsWith s [nlc] with _ | _
  · rfl
  · obtain ⟨t, ht⟩ := (endsWith_single_iff s nlc).mp hew
    have h1 : (Y ++ [c]).getLast? = (t ++ [nlc]).getLast? := by rw [← hs, ← ht]
    rw [List.getLast?_concat, List.getLast?_concat] at h1
    injection h1 with h1
    rw [h1] at hc
    cases hc

/-! ## Parsing the reassembled document -/

theorem parseAircraftYaml_upto_tail (content : Str) (P : ParsedDoc) (Z : List Str)
    (hct : splitLines content = splitLines P.header ++ [[]] ++ splitLines P.includes
      ++ [[]] ++ S "shared:" :: Z)
    (hhdr1 : ∀ l ∈ splitLines P.header, strip l ≠ S "include:")
    (hhdr2 : rstrip P.header = P.header)
    (hinc : (splitLines P.includes).head? = some (S "include:"))
    (hinc2 : ∀ l ∈ (splitLines P.includes).tail,
      startsWith l (S " ") = true ∧ startsWith (strip l) (S "- ") = true) :
    parseAircraftYaml (some content) =
      (match (S "shared:" :: Z).findIdx? (fun l => strip l = S "master:") with
       | none => .ok ⟨P.header, P.includes, S "shared:" :: Z, []⟩
       | some k => .ok ⟨P.header, P.includes, (S "shared:" :: Z).take k,
           rstrip (joinLines ((S "shared:" :: Z).drop k))⟩) := by
  have hI : splitLines P.includes = S "include:" :: (splitLines P.includes).tail := by
    rcases hsp : splitLines P.includes with _ | ⟨a, t⟩
    · exact absurd hsp (splitLines_ne_nil _)
    · rw [hsp] at hinc
      injection hinc with hh
      rw [hh]
      rfl
  have hL2 : splitLines content = (splitLines P.header ++ [[]]) ++ S "include:" ::
      ((splitLines P.includes).tail ++ [[]] ++ S "shared:" :: Z) := by
    rw [hct]
    conv_lhs => rw [hI]
    simp [List.append_assoc]
  have hfind1 : (splitLines content).findIdx? (fun l => decide (strip l = S "include:")) =
      some (splitLines P.header ++ [[]]).length := by
    rw [hL2]
    refine findIdx?_append_found _ _ _ _ ?_ (decide_eq_true (by decide))
    intro l hl
    rcases List.mem_append.mp hl with hl | hl
    · exact decide_eq_false (hhdr1 l hl)
    · rw [List.mem_singleton] at hl
      rw [hl]
      decide
  have htake1 : (splitLines content).take (splitLines P.header ++ [[]]).length =
      splitLines P.header ++ [[]] := by
    rw [hL2]
    exact List.take_left _ _
  have hdrop1 : (splitLines content).drop ((splitLines P.header ++ [[]]).length + 1) =
      (splitLines P.includes).tail ++ [[]] ++ S "shared:" :: Z := by
    rw [hL2]
    exact drop_after _ _ _
  have hhdr : rstrip (joinLines (splitLines P.header ++ [[]])) = P.header := by
    rw [joinLines_append_last _ _ (splitLines_ne_nil _)]
    rw [show (joinLines (splitLines P.header) ++ nlc :: [] : Str) =
      joinLines (splitLines P.header) ++ [nlc] from rfl]
    rw [rstrip_append_ws _ (by decide), joinLines_splitLines, hhdr2]
  have hB2 : (splitLines P.includes).tail ++ [[]] ++ S "shared:" :: Z =
      ((splitLines P.includes).tail ++ [[]]) ++ S "shared:" :: Z := by
    simp [List.append_assoc]
  have hfind2 : ((splitLines P.includes).tail ++ [[]] ++ S "shared:" :: Z).findIdx?
      includeStop = some ((splitLines P.includes).tail ++ [[]]).length := by
    rw [hB2]
    refine findIdx?_append_found _ _ _ _ ?_ (by decide)
    intro l hl
    rcases List.mem_append.mp hl with hl | hl
    · exact includeStop_of_indented (hinc2 l hl).1 (hinc2 l hl).2
    · rw [List.mem_singleton] at hl
      rw [hl]
      decide
  have htake2 : ((splitLines P.includes).tail ++ [[]] ++ S "shared:" :: Z).take
      ((splitLines P.includes).tail ++ [[]]).length =
      (splitLines P.includes).tail ++ [[]] := by
    rw [hB2]
    exact List.take_left _ _
  have hdrop2 : ((splitLines P.includes).tail ++ [[]] ++ S "shared:" :: Z).drop
      ((splitLines P.includes).tail ++ [[]]).length = S "shared:" :: Z := by
    rw [hB2]
    exact List.drop_left _ _
  have hfilt : ((splitLines P.includes).tail ++ [[]]).filter
      (fun l => startsWith (strip l) (S "- ")) = (splitLines P.includes).tail := by
    rw [List.filter_append, List.filter_eq_self.mpr (fun l hl => (hinc2 l hl).2),
      show ([([] : Str)].filter (fun l => startsWith (strip l) (S "- "))) = [] from by
        decide]
    simp
  have hincs : joinLines (S "include:" :: (splitLines P.includes).tail) = P.includes := by
    rw [← hI, joinLines_splitLines]
  rw [parseAircraftYaml]
  simp only [hfind1, htake1, hdrop1, hfind2, htake2, hdrop2, hfilt, hhdr, hincs]
  rcases hfd : (S "shared:" :: Z).findIdx? (fun l => decide (strip l = S "master:"))
    with _ | k <;> simp [hfd]

theorem blocks_double_blank {specs : List (List FieldSpec)}
    (h : Blocks [[], []] specs) : specs = [] := by
  have h1 := (blocks_parse h).1
  have h2 : parseEntriesAux [[], []] none = some [] := rfl
  rw [h2] at h1
  injection h1 with h1
  cases specs with
  | nil => rfl
  | cons a t => cases h1

theorem mergeSingle_formula (file : Option Str) (cat : Category)
    (tooltips : List (Str × Str)) (controls : List (Str × ControlInfo))
    (vars : List Str) (P : ParsedDoc) (ex : List Entry)
    (hie : (filterEvents cat.events).isEmpty = false)
    (hP : parseAircraftYaml file = .ok P)
    (hex : parseShared P.shared = some ex) :
    mergeSingle file cat tooltips controls vars = .ok (some (
      (fun content => if endsWith content [nlc] then content else content ++ [nlc])
        (joinLines ([P.header, [], P.includes, [], S "shared:"]
          ++ (fun manual => if manual.isEmpty then ([] : List Str)
              else (manual.map (fun e => formatEntryAsYaml e ++ [[]])).flatten ++ [[]])
            (ex.filter (keepManualEntry (newEntriesMap (generateSharedContent tooltips
              controls cat.name (filterEvents cat.events) cat.desc vars))))
          ++ [generateSharedContent tooltips controls cat.name (filterEvents cat.events)
              cat.desc vars]
          ++ (if P.master.isEmpty then [] else [[], P.master]))))) := by
  rw [mergeSingle]
  simp only [hie, Bool.false_eq_true, if_false, hP, hex, Option.getD_some]

/-- C3 (amended): single-category merge is idempotent on canonical-form
documents.  For a parseable persisted document whose header, include and
master sections are in the shape the tool itself writes, whose existing
shared entries are in canonical form (duplicate-free keys, output key
order, and every printed value re-parsing to the same scalar — the
condition that PyYAML re-typing of quoted `"True"` violates), and a
category of word-character event names, merging the category once and
then merging it again with unchanged inputs returns the first output
byte-for-byte. -/
theorem single_category_merge_idempotent_canonical
    (d : Str) (cat : Category) (tooltips : List (Str × Str))
    (controls : List (Str × ControlInfo)) (vars : List Str)
    (P : ParsedDoc) (es : List Entry) (out : Str)
    (hfe : filterEvents cat.events = cat.events)
    (hne : cat.events ≠ [])
    (hnm : ∀ n ∈ eventNames cat.events, ∀ c ∈ n, isWordChar c = true)
    (htt : ∀ p ∈ tooltips, ∀ ch ∈ p.2, ch ≠ nlc)
    (hparse : parseAircraftYaml (some d) = .ok P)
    (hhdr1 : ∀ l ∈ splitLines P.header, strip l ≠ S "include:")
    (hhdr2 : rstrip P.header = P.header)
    (hinc : (splitLines P.includes).head? = some (S "include:"))
    (hinc2 : ∀ l ∈ (splitLines P.includes).tail,
      startsWith l (S " ") = true ∧ startsWith (strip l) (S "- ") = true)
    (hmst : P.master = [] ∨ (rstrip P.master = P.master ∧ P.master ≠ [] ∧
      ∀ m, (splitLines P.master).head? = some m → strip m = S "master:"))
    (hsh : parseShared P.shared = some es)
    (hes : ∀ e ∈ es, EntryGood e)
    (hout : mergeSingle (some d) cat tooltips controls vars = .ok (some out)) :
    mergeSingle (some out) cat tooltips controls vars = .ok (some out) := by
  have hie : (filterEvents cat.events).isEmpty = false := by
    rw [hfe]
    rcases hcat : cat.events with _ | ⟨a, t⟩
    · exact absurd hcat hne
    · rfl
  have h1 := mergeSingle_formula (some d) cat tooltips controls vars P es hie hparse hsh
  rw [hfe] at h1
  rw [h1] at hout
  simp only [Except.ok.injEq, Option.some.injEq] at hout
  clear h1
  obtain ⟨specsG, hGbl, hGset, hGsh⟩ :=
    generated_blocks tooltips controls cat.name cat.events cat.desc vars hnm htt
  set SC := generateSharedContent tooltips controls cat.name cat.events cat.desc vars
    with hSCd
  set manual := es.filter (keepManualEntry (newEntriesMap SC)) with hmand
  have hmanG : ∀ e ∈ manual, EntryGood e := by
    intro e he
    rw [hmand] at he
    exact hes e (List.mem_of_mem_filter he)
  have hkeep : ∀ e ∈ manual, keepManualEntry (newEntriesMap SC) e = true := by
    intro e he
    rw [hmand] at he
    exact List.of_mem_filter he
  set Mex := (if manual.isEmpty then ([] : List Str)
    else (manual.map (fun e => formatEntryAsYaml e ++ [[]])).flatten ++ [[]]) with hMexd
  obtain ⟨specsM, hMexbl, hMent⟩ : ∃ sm, Blocks Mex sm ∧ sm.map entryOf = manual := by
    by_cases hmie : manual.isEmpty = true
    · refine ⟨[], ?_, ?_⟩
      · rw [hMexd, if_pos hmie]
        exact Blocks.nil
      · rw [List.isEmpty_iff.mp hmie]
        rfl
    · refine ⟨manual.map (fun e => e.map
        (fun p => (⟨p.1, fmtVal p.2, p.2⟩ : FieldSpec))), ?_, ?_⟩
      · rw [hMexd, if_neg hmie]
        have h := blocks_append (manual_blocks manual hmanG) blocks_blank_single
        simpa using h
      · rw [List.map_map]
        exact (List.map_congr_left (fun e _ => entryOf_fsOf e)).trans (List.map_id _)
  have hMnl : ∀ l ∈ Mex, ∀ ch ∈ l, ch ≠ nlc := blocks_nl_free hMexbl
  set MS := (if P.master.isEmpty then ([] : List Str) else [[], P.master]) with hMSd
  set content := joinLines ([P.header, [], P.includes, [], S "shared:"]
    ++ Mex ++ [SC] ++ MS) with hcond
  have hpsg : parseShared (S "shared:" :: splitLines SC) = some (specsG.map entryOf) := by
    rw [parseShared_shared_cons]
    rw [← parseEntriesAux_trailing_blank
      (show isBlankLine ([] : Str) = true from by decide) (splitLines SC) none]
    exact (blocks_parse hGbl).1
  have hgensF : ∀ e ∈ specsG.map entryOf,
      keepManualEntry (newEntriesMap SC) e = false := by
    intro e he
    obtain ⟨fs, hfs, rfl⟩ := List.mem_map.mp he
    obtain ⟨k, hk⟩ := getEntryKey_isSome_of_set (entryOf_set_isSome (hGset fs hfs))
    have hnm2 : newEntriesMap SC = (specsG.map entryOf).foldl (fun m e =>
        match getEntryKey e with
        | some k => alistSet m k e
        | none => m) [] := by
      rw [newEntriesMap, hpsg]
    have hsome2 : (alistGet (newEntriesMap SC) k).isSome = true := by
      rw [hnm2]
      exact newmap_covers _ _ _ (List.mem_map.mpr ⟨fs, hfs, rfl⟩) k hk
    simp [keepManualEntry, hk, hsome2]
  have hsl0 : splitLines ([] : Str) = [[]] := rfl
  have hslsh : splitLines (S "shared:") = [S "shared:"] := splitLines_no_nl (by decide)
  have hsplit0 : splitLines content = splitLines P.header ++ [[]] ++ splitLines P.includes
      ++ [[]] ++ S "shared:" :: (Mex ++ splitLines SC ++ (MS.map splitLines).flatten) := by
    rw [hcond, splitLines_joinLines_flatten _ (by simp)]
    simp only [List.map_append, List.map_cons, List.map_nil, List.flatten_append,
      List.flatten_cons, List.flatten_nil, hsl0, hslsh, flatten_map_singleton hMnl]
    simp [List.append_assoc]
  rcases hmst with hm0 | ⟨hm1, hm2, hm3⟩
  · -- no master section
    have hmie : P.master.isEmpty = true := by
      rw [hm0]
      rfl
    have hMSe : MS = [] := by
      rw [hMSd, if_pos hmie]
    rcases hGsh with hsc0 | ⟨r, c, hrc, hcw⟩
    · -- empty generated content
      have hsg0 : specsG = [] := by
        have h := hGbl
        rw [hsc0] at h
        exact blocks_double_blank (by simpa using h)
      have hclast : content =
          joinLines ([P.header, [], P.includes, [], S "shared:"] ++ Mex) ++ [nlc] := by
        rw [hcond, hMSe, List.append_nil, hsc0,
          joinLines_append_last _ _ (by simp)]
      have hew : endsWith content [nlc] = true := by
        rw [hclast]
        exact (endsWith_single_iff _ _).mpr ⟨_, rfl⟩
      simp only [hew, if_true] at hout
      have hsout : splitLines out = splitLines P.header ++ [[]] ++ splitLines P.includes
          ++ [[]] ++ S "shared:" :: (Mex ++ [[]]) := by
        rw [← hout, hsplit0, hMSe, hsc0]
        simp [List.append_assoc, hsl0]
      have hup := parseAircraftYaml_upto_tail out P (Mex ++ [[]]) hsout hhdr1 hhdr2
        hinc hinc2
      have hfnone : (S "shared:" :: (Mex ++ [[]])).findIdx?
          (fun l => decide (strip l = S "master:")) = none := by
        rw [List.findIdx?_eq_none_iff]
        intro l hl
        rcases List.mem_cons.mp hl with rfl | hl
        · decide
        · rcases List.mem_append.mp hl with hl | hl
          · exact decide_eq_false (blocks_no_master hMexbl l hl)
          · rw [List.mem_singleton] at hl
            rw [hl]
            decide
      rw [hfnone] at hup
      have hps2 : parseShared (S "shared:" :: (Mex ++ [[]])) =
          some (specsM.map entryOf) := by
        rw [parseShared_shared_cons]
        have h := (blocks_parse (blocks_append hMexbl blocks_blank_single)).1
        simpa using h
      have h2 := mergeSingle_formula (some out) cat tooltips controls vars
        ⟨P.header, P.includes, S "shared:" :: (Mex ++ [[]]), []⟩
        (specsM.map entryOf) hie hup hps2
      rw [hfe] at h2
      rw [h2]
      simp only []
      rw [← hSCd]
      have hfilt2 : (specsM.map entryOf).filter
          (keepManualEntry (newEntriesMap SC)) = manual := by
        rw [hMent, List.filter_eq_self.mpr hkeep]
      rw [hfilt2, ← hMexd]
      rw [show (if (([] : Str)).isEmpty then ([] : List Str) else [[], []]) = []
        from rfl]
      rw [show joinLines ([P.header, [], P.includes, [], S "shared:"]
          ++ Mex ++ [SC] ++ ([] : List Str)) = content from by rw [hcond, hMSe]]
      simp only [hew, if_true]
      rw [hout]
    · -- nonempty generated content ending in a non-whitespace character
      have hOLlast : ([P.header, [], P.includes, [], S "shared:"]
          ++ Mex ++ [SC] ++ MS).getLast? = some SC := by
        rw [hMSe, List.append_nil]
        exact List.getLast?_concat _
      obtain ⟨Ycon, hYcon⟩ := joinLines_last_char
        (show ([P.header, [], P.includes, [], S "shared:"] ++ Mex ++ [SC] ++ MS).getLast?
          = some (r ++ [c]) from by rw [hOLlast, hrc])
      have hew : endsWith content [nlc] = false :=
        ends_ne_nl (by rw [hcond]; exact hYcon) hcw
      simp only [hew, Bool.false_eq_true, if_false] at hout
      have hsout : splitLines out = splitLines P.header ++ [[]] ++ splitLines P.includes
          ++ [[]] ++ S "shared:" :: (Mex ++ (splitLines SC ++ [[]])) := by
        rw [← hout, splitLines_append_last_nl, hsplit0, hMSe]
        simp [List.append_assoc]
      have hup := parseAircraftYaml_upto_tail out P (Mex ++ (splitLines SC ++ [[]]))
        hsout hhdr1 hhdr2 hinc hinc2
      have hfnone : (S "shared:" :: (Mex ++ (splitLines SC ++ [[]]))).findIdx?
          (fun l => decide (strip l = S "master:")) = none := by
        rw [List.findIdx?_eq_none_iff]
        intro l hl
        rcases List.mem_cons.mp hl with rfl | hl
        · decide
        · rcases List.mem_append.mp hl with hl | hl
          · exact decide_eq_false (blocks_no_master hMexbl l hl)
          · exact decide_eq_false (blocks_no_master hGbl l hl)
      rw [hfnone] at hup
      have hps2 : parseShared (S "shared:" :: (Mex ++ (splitLines SC ++ [[]]))) =
          some (specsM.map entryOf ++ specsG.map entryOf) := by
        rw [parseShared_shared_cons]
        have h := (blocks_parse (blocks_append hMexbl hGbl)).1
        rw [List.map_append] at h
        exact h
      have h2 := mergeSingle_formula (some out) cat tooltips controls vars
        ⟨P.header, P.includes, S "shared:" :: (Mex ++ (splitLines SC ++ [[]])), []⟩
        (specsM.map entryOf ++ specsG.map entryOf) hie hup hps2
      rw [hfe] at h2
      rw [h2]
      simp only []
      rw [← hSCd]
      have hfilt2 : ((specsM.map entryOf ++ specsG.map entryOf)).filter
          (keepManualEntry (newEntriesMap SC)) = manual := by
        rw [List.filter_append, hMent, List.filter_eq_self.mpr hkeep,
          List.filter_eq_nil_iff.mpr (fun e he => by simp [hgensF e he]),
          List.append_nil]
      rw [hfilt2, ← hMexd]
      rw [show (if (([] : Str)).isEmpty then ([] : List Str) else [[], []]) = []
        from rfl]
      rw [show joinLines ([P.header, [], P.includes, [], S "shared:"]
          ++ Mex ++ [SC] ++ ([] : List Str)) = content from by rw [hcond, hMSe]]
      simp only [hew, Bool.false_eq_true, if_false]
      rw [hout]
  · -- master section present
    have hmie : P.master.isEmpty = false := by
      rcases hx : P.master with _ | _
      · exact absurd hx hm2
      · rfl
    have hMSe : MS = [[], P.master] := by
      rw [hMSd]
      simp only [hmie, Bool.false_eq_true, if_false]
    obtain ⟨rr, cc, hPm, hcc⟩ : ∃ rr cc, P.master = rr ++ [cc] ∧ isWS cc = false := by
      rcases rstrip_shape P.master with h | ⟨rr, cc, h, hcc⟩
      · rw [hm1] at h
        exact absurd h hm2
      · rw [hm1] at h
        exact ⟨rr, cc, h, hcc⟩
    have hOLlast : ([P.header, [], P.includes, [], S "shared:"]
        ++ Mex ++ [SC] ++ MS).getLast? = some P.master := by
      rw [hMSe, List.getLast?_append_of_ne_nil _ (by simp)]
      rfl
    obtain ⟨Ycon, hYcon⟩ := joinLines_last_char
      (show ([P.header, [], P.includes, [], S "shared:"] ++ Mex ++ [SC] ++ MS).getLast?
        = some (rr ++ [cc]) from by rw [hOLlast, hPm])
    have hew : endsWith content [nlc] = false :=
      ends_ne_nl (by rw [hcond]; exact hYcon) hcc
    simp only [hew, Bool.false_eq_true, if_false] at hout
    rcases hTc : splitLines P.master with _ | ⟨m₀, Tt⟩
    · exact absurd hTc (splitLines_ne_nil _)
    have hm₀ : strip m₀ = S "master:" := hm3 m₀ (by rw [hTc]; rfl)
    have hsout : splitLines out = splitLines P.header ++ [[]] ++ splitLines P.includes
        ++ [[]] ++ S "shared:" ::
          ((Mex ++ (splitLines SC ++ [[]])) ++ m₀ :: (Tt ++ [[]])) := by
      rw [← hout, splitLines_append_last_nl, hsplit0, hMSe]
      simp [List.append_assoc, hsl0, hTc]
    have hup := parseAircraftYaml_upto_tail out P
      ((Mex ++ (splitLines SC ++ [[]])) ++ m₀ :: (Tt ++ [[]])) hsout hhdr1 hhdr2
      hinc hinc2
    have hshape : S "shared:" ::
        ((Mex ++ (splitLines SC ++ [[]])) ++ m₀ :: (Tt ++ [[]])) =
        (S "shared:" :: (Mex ++ (splitLines SC ++ [[]]))) ++ m₀ :: (Tt ++ [[]]) := by
      simp
    have hfind : (S "shared:" ::
        ((Mex ++ (splitLines SC ++ [[]])) ++ m₀ :: (Tt ++ [[]]))).findIdx?
        (fun l => decide (strip l = S "master:")) =
        some (S "shared:" :: (Mex ++ (splitLines SC ++ [[]]))).length := by
      rw [hshape]
      refine findIdx?_append_found _ _ _ _ ?_ (decide_eq_true hm₀)
      intro l hl
      rcases List.mem_cons.mp hl with rfl | hl
      · decide
      · rcases List.mem_append.mp hl with hl | hl
        · exact decide_eq_false (blocks_no_master hMexbl l hl)
        · exact decide_eq_false (blocks_no_master hGbl l hl)
    rw [hfind] at hup
    simp only [] at hup
    have htk : (S "shared:" ::
        ((Mex ++ (splitLines SC ++ [[]])) ++ m₀ :: (Tt ++ [[]]))).take
        (S "shared:" :: (Mex ++ (splitLines SC ++ [[]]))).length =
        S "shared:" :: (Mex ++ (splitLines SC ++ [[]])) := by
      rw [hshape]
      exact List.take_left _ _
    have hdr : (S "shared:" ::
        ((Mex ++ (splitLines SC ++ [[]])) ++ m₀ :: (Tt ++ [[]]))).drop
        (S "shared:" :: (Mex ++ (splitLines SC ++ [[]]))).length =
        m₀ :: (Tt ++ [[]]) := by
      rw [hshape]
      exact List.drop_left _ _
    rw [htk, hdr] at hup
    have hmst2 : rstrip (joinLines (m₀ :: (Tt ++ [[]]))) = P.master := by
      rw [show m₀ :: (Tt ++ [[]]) = (m₀ :: Tt) ++ [[]] from by simp,
        joinLines_append_last _ _ (by simp),
        show (joinLines (m₀ :: Tt) ++ nlc :: [] : Str) =
          joinLines (m₀ :: Tt) ++ [nlc] from rfl,
        rstrip_append_ws _ (by decide), ← hTc, joinLines_splitLines, hm1]
    rw [hmst2] at hup
    have hps2 : parseShared (S "shared:" :: (Mex ++ (splitLines SC ++ [[]]))) =
        some (specsM.map entryOf ++ specsG.map entryOf) := by
      rw [parseShared_shared_cons]
      have h := (blocks_parse (blocks_append hMexbl hGbl)).1
      rw [List.map_append] at h
      exact h
    have h2 := mergeSingle_formula (some out) cat tooltips controls vars
      ⟨P.header, P.includes, S "shared:" :: (Mex ++ (splitLines SC ++ [[]])), P.master⟩
      (specsM.map entryOf ++ specsG.map entryOf) hie hup hps2
    rw [hfe] at h2
    rw [h2]
    simp only []
    rw [← hSCd]
    have hfilt2 : ((specsM.map entryOf ++ specsG.map entryOf)).filter
        (keepManualEntry (newEntriesMap SC)) = manual := by
      rw [List.filter_append, hMent, List.filter_eq_self.mpr hkeep,
        List.filter_eq_nil_iff.mpr (fun e he => by simp [hgensF e he]),
        List.append_nil]
    rw [hfilt2, ← hMexd]
    simp only [hmie, Bool.false_eq_true, if_false]
    rw [show joinLines ([P.header, [], P.includes, [], S "shared:"]
        ++ Mex ++ [SC] ++ [[], P.master]) = content from by rw [hcond, hMSe]]
    simp only [hew, Bool.false_eq_true, if_false]
    rw [hout]

theorem single_category_merge_idempotent_canonical_witness :
    mergeSingle (some (S "# hdr\n\ninclude:\n  - modules/x.yaml\n\nshared:\n  -\n    get: L:CUSTOMVAR\n    set: (>K:FOO)\n\n\n  - # COM1_RADIO_SET\n    set: (>K:COM1_RADIO_SET)\n"))
      c3Cat [] [] [] = .ok (some (S "# hdr\n\ninclude:\n  - modules/x.yaml\n\nshared:\n  -\n    get: L:CUSTOMVAR\n    set: (>K:FOO)\n\n\n  - # COM1_RADIO_SET\n    set: (>K:COM1_RADIO_SET)\n")) :=
  single_category_merge_idempotent_canonical
    (S "# hdr\ninclude:\n  - modules/x.yaml\nshared:\n  -\n    get: L:CUSTOMVAR\n    set: (>K:FOO)\n")
    c3Cat [] [] []
    ⟨S "# hdr", S "include:\n  - modules/x.yaml",
      [S "shared:", S "  -", S "    get: L:CUSTOMVAR", S "    set: (>K:FOO)", []], []⟩
    [[(S "get", YVal.ystr (S "L:CUSTOMVAR")), (S "set", YVal.ystr (S "(>K:FOO)"))]]
    (S "# hdr\n\ninclude:\n  - modules/x.yaml\n\nshared:\n  -\n    get: L:CUSTOMVAR\n    set: (>K:FOO)\n\n\n  - # COM1_RADIO_SET\n    set: (>K:COM1_RADIO_SET)\n")
    (by decide) (by decide) (by decide) (by decide)
    rfl
    (by decide) (by decide) (by decide) (by decide)
    (Or.inl rfl)
    (by decide)
    (by
      intro e he
      rw [List.mem_singleton] at he
      subst he
      refine ⟨by decide, by decide, by decide, by decide, ?_⟩
      intro p hp
      rcases List.mem_cons.mp hp with rfl | hp
      · exact ⟨by decide, S "L:CUSTOMVA", 'R', by decide, by decide⟩
      · rcases List.mem_cons.mp hp with rfl | hp
        · exact ⟨by decide, S "(>K:FOO", ')', by decide, by decide⟩
        · cases hp)
    rfl

end MD11
